import Mathlib

/-! The string queue of `queue.c` over an explicit memory.

The queue is a circular doubly linked list with a sentinel.  The C code works on
pointers, so the embedding keeps the pointers: a memory `Mem` gives, for every
address, the `next` and `prev` fields of the `struct list_head` stored there,
the `value` field of the `element_t` that embeds it, the bytes of every string
block and which blocks are currently allocated.  Every function of `queue.c`
is a function on `Mem`; pointer loops carry a step budget and answer `none`
when it is exhausted.

Conventions.
* `container_of` / `list_entry` are the identity on addresses: an element is
  named by the address of its embedded link.
* A string block is the list of its bytes; a byte read past the end of the
  list is NUL, so every list is a NUL-terminated C string.
* The `int charsize` of the inserts is a natural number up to `INT_MAX`; an
  insert whose `charsize += 1` or `charsize + 1` would pass `INT_MAX` has no
  result (`none`): signed overflow has no defined behaviour.  The node counters
  `len` and `del_n_index` are natural numbers, so queues of `2 ^ 31` or more
  nodes are not described.
* The `size_t` expression `bufsize - 1` is computed modulo `2 ^ 64`.  The
  buffer at `sp` has `bufsize` bytes; a removal whose stores leave the buffer
  has no result (`none`).
-/

namespace Queue

/-- An address.  -/
abbrev Ptr := Nat

/-- The null pointer. -/
def NULL : Ptr := 0

/-- The memory seen by `queue.c`. -/
structure Mem where
  /-- Field `next` of the `struct list_head` at an address. -/
  next : Ptr → Ptr
  /-- Field `prev` of the `struct list_head` at an address. -/
  prev : Ptr → Ptr
  /-- Field `value` of the `element_t` whose link is at an address. -/
  value : Ptr → Ptr
  /-- Bytes of the character block at an address. -/
  str : Ptr → List Nat
  /-- Whether the block at an address is allocated (set by `malloc`, cleared by `free`). -/
  live : Ptr → Bool

/-- The store `p->next = v`. -/
def setNext (m : Mem) (p v : Ptr) : Mem := { m with next := Function.update m.next p v }

/-- The store `p->prev = v`. -/
def setPrev (m : Mem) (p v : Ptr) : Mem := { m with prev := Function.update m.prev p v }

/-- The store `p->value = v`. -/
def setValue (m : Mem) (p v : Ptr) : Mem := { m with value := Function.update m.value p v }

/-- Replace the bytes of the block at `p`. -/
def setStr (m : Mem) (p : Ptr) (bs : List Nat) : Mem := { m with str := Function.update m.str p bs }

/-- The block at `p` as handed out by a successful `malloc`. -/
def setLive (m : Mem) (p : Ptr) : Mem := { m with live := Function.update m.live p true }

/-- The library call `free(p)`. -/
def free (m : Mem) (p : Ptr) : Mem := { m with live := Function.update m.live p false }

/-- Caller memory starting at the address `sp`: `buf i` is the byte at `sp + i`. -/
abbrev Buf := Nat → Nat

/-! ## C library -/

/-- The library function `strlen`: number of bytes before the first NUL. -/
def strlen : List Nat → Nat
  | [] => 0
  | c :: cs => if c = 0 then 0 else strlen cs + 1

/-- The string held by a block: its bytes before the first NUL. -/
def cstr : List Nat → List Nat
  | [] => []
  | c :: cs => if c = 0 then [] else c :: cstr cs

/-- The library function `strcmp`: difference of the first differing bytes (as
`unsigned char`), `0` when the strings agree up to and including the NUL. -/
def strcmp : List Nat → List Nat → Int
  | [], [] => 0
  | [], b :: _ => 0 - (b : Int)
  | a :: _, [] => (a : Int)
  | a :: as, b :: bs =>
    if a ≠ b then (a : Int) - (b : Int)
    else if a = 0 then 0
    else strcmp as bs

/-- The library function `strncpy(dst, src, n)`: the first `n` bytes of `dst`
become the bytes of `src` up to its NUL, padded with NUL bytes; the rest of
`dst` is not written. -/
def strncpy (dst : Buf) (src : List Nat) (n : Nat) : Buf :=
  fun i => if i < n then (if i < strlen src then src.getD i 0 else 0) else dst i

/-- The `size_t` value `n - 1`. -/
def sizeSub1 (n : Nat) : Nat := (n % 2 ^ 64 + (2 ^ 64 - 1)) % 2 ^ 64

/-! ## Intrusive list primitives (`list.h`) -/

/-- Modelled from the spec: `INIT_LIST_HEAD` of list.h, which is not among the
sources; a sentinel "whose own forward/backward links close the circle". -/
def INIT_LIST_HEAD (m : Mem) (head : Ptr) : Mem :=
  let m := setNext m head head
  setPrev m head head

/-- Modelled from the spec: `list_empty` of list.h, which is not among the
sources; "the queue is empty iff the sentinel's successor is itself". -/
def list_empty (m : Mem) (head : Ptr) : Bool := decide (m.next head = head)

/-- Modelled from the spec: `list_is_singular` of list.h, which is not among
the sources; the list is not empty and the sentinel's two links agree. -/
def list_is_singular (m : Mem) (head : Ptr) : Bool :=
  !list_empty m head && decide (m.prev head = m.next head)

/-- Modelled from the spec: `list_add` of list.h, which is not among the
sources; the O(1) link primitive placing `node` right after `head`. -/
def list_add (m : Mem) (node head : Ptr) : Mem :=
  let next := m.next head
  let m := setPrev m next node
  let m := setNext m node next
  let m := setPrev m node head
  setNext m head node

/-- Modelled from the spec: `list_add_tail` of list.h, which is not among the
sources; the O(1) link primitive placing `node` right before `head`. -/
def list_add_tail (m : Mem) (node head : Ptr) : Mem :=
  let prev := m.prev head
  let m := setNext m prev node
  let m := setNext m node head
  let m := setPrev m node prev
  setPrev m head node

/-- Modelled from the spec: `list_del` of list.h, which is not among the
sources; the O(1) unlink primitive joining the two neighbours of `node`. -/
def list_del (m : Mem) (node : Ptr) : Mem :=
  let next := m.next node
  let prev := m.prev node
  let m := setPrev m next prev
  setNext m prev next

/-- Modelled from the spec: `list_del_init` of list.h, which is not among the
sources; unlink `node` and make it a self-linked node. -/
def list_del_init (m : Mem) (node : Ptr) : Mem :=
  INIT_LIST_HEAD (list_del m node) node

/-! ## `queue.c` -/

/-- The string of the element at `p`: `list_entry(p, element_t, list)->value`. -/
def valueOf (m : Mem) (p : Ptr) : List Nat := m.str (m.value p)

/-- `q_new`; `q` is the result of the `malloc`. -/
def q_new (m : Mem) (q : Ptr) : Mem × Ptr :=
  if q = NULL then (m, NULL)
  else (INIT_LIST_HEAD (setLive m q) q, q)

/-- `q_release_element`. -/
def q_release_element (m : Mem) (e : Ptr) : Mem :=
  let m := free m (m.value e)
  free m e

/-- The loop of `q_free`. -/
def q_free_loop (l : Ptr) : Nat → Mem → Ptr → Option Mem
  | 0, _, _ => none
  | fuel + 1, m, node =>
    if node = l then some m
    else
      let e := node
      let node := m.next node
      q_free_loop l fuel (q_release_element m e) node

/-- `q_free`. -/
def q_free (m : Mem) (l : Ptr) (fuel : Nat) : Option Mem :=
  if l = NULL then some m
  else (q_free_loop l fuel m (m.next l)).map fun m => free m l

/-- The largest `int`. -/
def INT_MAX : Nat := 2 ^ 31 - 1

/-- The loop `while (*(s + charsize)) charsize += 1;` on the `int charsize` —
the list is the memory from `s + charsize` on.  The answer is `none` when
`charsize += 1` would pass `INT_MAX`. -/
def charsizeLoop : List Nat → Nat → Option Nat
  | [], charsize => some charsize
  | c :: cs, charsize =>
    if c ≠ 0 then
      if charsize < INT_MAX then charsizeLoop cs (charsize + 1) else none
    else some charsize

/-- The bytes `0 .. n-1` of a region, as a block. -/
def blockOf (b : Buf) (n : Nat) : List Nat := (List.range n).map b

/-- `q_insert_head`; `q` and `v` are the results of the two `malloc` calls
(`NULL` for a failed one).  The answer is `none` when the `int charsize`
overflows, in the loop or in `charsize + 1`. -/
def q_insert_head (m : Mem) (head : Ptr) (s : List Nat) (q v : Ptr) : Option (Mem × Bool) :=
  if head = NULL then some (m, false)
  else if q = NULL then some (m, false)
  else
    let m := setLive m q
    match charsizeLoop s 0 with
    | none => none
    | some charsize =>
      -- q->value = malloc(charsize + 1): the sum is an `int`, the block has as many bytes
      if charsize < INT_MAX then
        if v = NULL then some (free m q, false)
        else
          let m := setLive (setValue m q v) v
          let blk : Buf := strncpy (fun _ => 0) s charsize
          let blk := Function.update blk charsize 0
          let m := setStr m v (blockOf blk (charsize + 1))
          some (list_add m q head, true)
      else none

/-- `q_insert_tail`; `q` and `v` are the results of the two `malloc` calls; the
answer is `none` when the `int charsize` overflows. -/
def q_insert_tail (m : Mem) (head : Ptr) (s : List Nat) (q v : Ptr) : Option (Mem × Bool) :=
  if head = NULL then some (m, false)
  else if q = NULL then some (m, false)
  else
    let m := setLive m q
    match charsizeLoop s 0 with
    | none => none
    | some charsize =>
      -- q->value = malloc(charsize + 1): the sum is an `int`, the block has as many bytes
      if charsize < INT_MAX then
        if v = NULL then some (free m q, false)
        else
          let m := setLive (setValue m q v) v
          let blk : Buf := strncpy (fun _ => 0) s charsize
          let blk := Function.update blk charsize 0
          let m := setStr m v (blockOf blk (charsize + 1))
          some (list_add_tail m q head, true)
      else none

/-- Result of a removal: the memory, the caller buffer and the returned element. -/
structure Removed where
  mem : Mem
  buf : Option Buf
  elem : Ptr

/-- The two stores `strncpy(sp, v, bufsize - 1); sp[bufsize - 1] = '\0';` on
the memory at `sp`: they write the indices `0` up to `bufsize - 1` (a `size_t`). -/
def copyOut (b : Buf) (v : List Nat) (bufsize : Nat) : Buf :=
  let b := strncpy b v (sizeSub1 bufsize)
  Function.update b (sizeSub1 bufsize) 0

/-- `q_remove_head`; `sp = none` is a null buffer pointer, otherwise `sp` points
to `bufsize` bytes.  The answer is `none` when the two stores leave these bytes:
the last index they write, `bufsize - 1` as a `size_t`, is not below `bufsize`. -/
def q_remove_head (m : Mem) (head : Ptr) (sp : Option Buf) (bufsize : Nat) : Option Removed :=
  if head = NULL ∨ list_empty m head = true then some ⟨m, sp, NULL⟩
  else match sp with
    | none => some ⟨m, sp, NULL⟩
    | some b =>
      let cur_e := m.next head
      let m1 := list_del_init m (m.next head)
      if sizeSub1 bufsize < bufsize % 2 ^ 64 then
        some ⟨m1, some (copyOut b (valueOf m1 cur_e) bufsize), cur_e⟩
      else none

/-- `q_remove_tail`; the buffer is treated as in `q_remove_head`. -/
def q_remove_tail (m : Mem) (head : Ptr) (sp : Option Buf) (bufsize : Nat) : Option Removed :=
  if head = NULL ∨ list_empty m head = true then some ⟨m, sp, NULL⟩
  else match sp with
    | none => some ⟨m, sp, NULL⟩
    | some b =>
      let cur_e := m.prev head
      let m1 := list_del_init m (m.prev head)
      if sizeSub1 bufsize < bufsize % 2 ^ 64 then
        some ⟨m1, some (copyOut b (valueOf m1 cur_e) bufsize), cur_e⟩
      else none

/-- The loop of `list_for_each (li, head) len++;`. -/
def q_size_loop (m : Mem) (head : Ptr) : Nat → Ptr → Nat → Option Nat
  | 0, _, _ => none
  | fuel + 1, li, len => if li = head then some len else q_size_loop m head fuel (m.next li) (len + 1)

/-- `q_size`. -/
def q_size (m : Mem) (head : Ptr) (fuel : Nat) : Option Nat :=
  if head = NULL then some 0
  else q_size_loop m head fuel (m.next head) 0

/-- The loop `while (del_n_index > 0) { node = node->next; del_n_index--; }`. -/
def walk (m : Mem) : Nat → Ptr → Ptr
  | 0, node => node
  | del_n_index + 1, node => walk m del_n_index (m.next node)

/-- `q_delete_mid`. -/
def q_delete_mid (m : Mem) (head : Ptr) (fuel : Nat) : Option (Mem × Bool) :=
  if head = NULL ∨ list_empty m head = true then some (m, false)
  else if list_is_singular m head = true then
    let head := m.next head
    let m := list_del m head
    some (q_release_element m head, true)
  else
    let node := m.next head
    match q_size m node fuel with
    | none => none
    | some n =>
      let del_n_index := if n % 2 = 0 then n / 2 else (n + 1) / 2 - 1
      let node := walk m del_n_index node
      let m := list_del m node
      some (q_release_element m node, true)

/-- The loop of `q_delete_dup`. -/
def q_delete_dup_loop (head : Ptr) : Nat → Mem → Ptr → Option Mem
  | 0, _, _ => none
  | fuel + 1, m, node =>
    if node = head then some m
    else
      let cstr := valueOf m node
      if m.next node = head then some m
      else
        let nstr := valueOf m (m.next node)
        if strcmp cstr nstr = 0 then
          let del := node
          let node := m.next node
          let m := list_del_init m del
          let m := q_release_element m del
          q_delete_dup_loop head fuel m node
        else q_delete_dup_loop head fuel m (m.next node)

/-- `q_delete_dup`. -/
def q_delete_dup (m : Mem) (head : Ptr) (fuel : Nat) : Option (Mem × Bool) :=
  if head = NULL ∨ list_empty m head = true then some (m, false)
  else (q_delete_dup_loop head fuel m (m.next head)).map fun m1 => (m1, true)

/-- The six stores between `// swap odd and even` and `// end` in `q_swap`. -/
def swapStep (m : Mem) (odd even : Ptr) : Mem :=
  let m := setNext m odd (m.next even)
  let m := setPrev m (m.next odd) odd
  let m := setPrev m even (m.prev odd)
  let m := setNext m (m.prev even) even
  let m := setPrev m odd even
  setNext m even odd

/-- The loop of `q_swap`: the six stores, the two moves, then the exit test. -/
def q_swap_loop (head : Ptr) : Nat → Mem → Ptr → Ptr → Option Mem
  | 0, _, _, _ => none
  | fuel + 1, m, odd, even =>
    let m := swapStep m odd even
    let odd := m.next odd
    let even := m.next odd
    if odd = head ∨ even = head then some m
    else q_swap_loop head fuel m odd even

/-- `q_swap`. -/
def q_swap (m : Mem) (head : Ptr) (fuel : Nat) : Option Mem :=
  if head = NULL then some m
  else
    let odd := m.next head
    let even := m.next odd
    q_swap_loop head fuel m odd even

/-- The `for` loop of `q_reverse`. -/
def q_reverse_loop (head : Ptr) : Nat → Mem → Ptr → Option Mem
  | 0, _, _ => none
  | fuel + 1, m, node =>
    if node = head then some m
    else
      let temp := m.next node
      let m := setNext m node (m.prev node)
      let m := setPrev m node temp
      q_reverse_loop head fuel m (m.prev node)

/-- `q_reverse`. -/
def q_reverse (m : Mem) (head : Ptr) (fuel : Nat) : Option Mem :=
  if head = NULL ∨ list_empty m head = true then some m
  else
    match q_reverse_loop head fuel m (m.next head) with
    | none => none
    | some m =>
      let temp := m.next head
      let m := setNext m head (m.prev head)
      some (setPrev m head temp)

/-- Where the `struct list_head **ptr` of `mergeTwoLists` points: at the local
variable `head` or at the `next` field of a node. -/
inductive Loc where
  | headVar : Loc
  | nextOf : Ptr → Loc
  deriving DecidableEq

/-- State of `mergeTwoLists`: the memory and the local variable `head`. -/
structure MergeSt where
  mem : Mem
  head : Ptr

/-- The store `*ptr = v`. -/
def storeLoc (s : MergeSt) (ptr : Loc) (v : Ptr) : MergeSt :=
  match ptr with
  | Loc.headVar => { s with head := v }
  | Loc.nextOf p => { s with mem := setNext s.mem p v }

/-- The `for` loop of `mergeTwoLists` followed by `*ptr = left ? left : right`. -/
def mergeLoop : Nat → MergeSt → Loc → Ptr → Ptr → Option MergeSt
  | 0, _, _, _, _ => none
  | fuel + 1, s, ptr, left, right =>
    if left ≠ NULL ∧ right ≠ NULL then
      if strcmp (valueOf s.mem left) (valueOf s.mem right) < 0 then
        -- node = &left
        let s := storeLoc s ptr left
        let ptr := Loc.nextOf left
        mergeLoop fuel s ptr (s.mem.next left) right
      else
        -- node = &right
        let s := storeLoc s ptr right
        let ptr := Loc.nextOf right
        mergeLoop fuel s ptr left (s.mem.next right)
    else some (storeLoc s ptr (if left ≠ NULL then left else right))

/-- `mergeTwoLists`. -/
def mergeTwoLists (m : Mem) (left right : Ptr) (fuel : Nat) : Option (Mem × Ptr) :=
  (mergeLoop fuel ⟨m, NULL⟩ Loc.headVar left right).map fun s => (s.mem, s.head)

/-- The fast/slow walk of `mergesort`; answers `slow`. -/
def splitLoop (m : Mem) : Nat → Ptr → Ptr → Option Ptr
  | 0, _, _ => none
  | fuel + 1, fast, slow =>
    if m.next fast = NULL ∨ m.next (m.next fast) = NULL then some slow
    else splitLoop m fuel (m.next (m.next fast)) (m.next slow)

/-- `mergesort`; the budget bounds the recursion depth and every loop. -/
def mergesort : Nat → Mem → Ptr → Option (Mem × Ptr)
  | 0, _, _ => none
  | fuel + 1, m, head =>
    if m.next head = NULL then some (m, head)
    else
      match splitLoop m (fuel + 1) head head with
      | none => none
      | some slow =>
        let mid := m.next slow
        let m := setNext m slow NULL
        match mergesort fuel m head with
        | none => none
        | some (m, left) =>
          match mergesort fuel m mid with
          | none => none
          | some (m, right) => mergeTwoLists m left right (fuel + 1)

/-- The loop `while (temp->next) { temp->next->prev = temp; temp = temp->next; }`;
answers the memory and `temp`. -/
def relinkLoop : Nat → Mem → Ptr → Option (Mem × Ptr)
  | 0, _, _ => none
  | fuel + 1, m, temp =>
    if m.next temp ≠ NULL then
      let m := setPrev m (m.next temp) temp
      relinkLoop fuel m (m.next temp)
    else some (m, temp)

/-- `q_sort`. -/
def q_sort (m : Mem) (head : Ptr) (fuel : Nat) : Option Mem :=
  if head = NULL ∨ list_empty m head = true ∨ list_is_singular m head = true then some m
  else
    let node := m.next head
    let m := setNext m (m.prev head) NULL
    let m := setNext m head NULL
    match mergesort fuel m node with
    | none => none
    | some (m, node) =>
      let temp := head
      let m := setNext m temp node
      match relinkLoop fuel m temp with
      | none => none
      | some (m, temp) =>
        let m := setNext m temp head
        some (setPrev m head temp)

/-! ## Reading a queue -/

/-- Consecutive nodes of `a :: l` are joined by the field `f`. -/
def Linked (f : Ptr → Ptr) : Ptr → List Ptr → Prop
  | _, [] => True
  | a, b :: l => f a = b ∧ Linked f b l

instance Linked.decide (f : Ptr → Ptr) : (a : Ptr) → (l : List Ptr) → Decidable (Linked f a l)
  | _, [] => isTrue trivial
  | a, b :: l =>
    have : Decidable (Linked f b l) := Linked.decide f b l
    inferInstanceAs (Decidable (f a = b ∧ Linked f b l))

/-- The memory `m` holds at the sentinel `head` a well-formed queue whose
elements are, from head to tail, the nodes `ps`: following `next` from the
sentinel runs through `ps` and back to the sentinel, following `prev` runs
through them in the opposite order, and no node occurs twice. -/
def IsQueue (m : Mem) (head : Ptr) (ps : List Ptr) : Prop :=
  head ≠ NULL ∧ NULL ∉ ps ∧ (head :: ps).Nodup ∧
    Linked m.next head (ps ++ [head]) ∧ Linked m.prev head (ps.reverse ++ [head])

instance (m : Mem) (head : Ptr) (ps : List Ptr) : Decidable (IsQueue m head ps) := by
  unfold IsQueue; infer_instance

/-- The nodes met by following `next` from `li` up to the sentinel. -/
def q_nodes_loop (m : Mem) (head : Ptr) : Nat → Ptr → Option (List Ptr)
  | 0, _ => none
  | fuel + 1, li =>
    if li = head then some []
    else (q_nodes_loop m head fuel (m.next li)).map fun l => li :: l

/-- The elements of the queue at `head`, from head to tail, as a forward
traversal (`list_for_each`) meets them. -/
def q_nodes (m : Mem) (head : Ptr) (fuel : Nat) : Option (List Ptr) :=
  q_nodes_loop m head fuel (m.next head)

/-- The string a caller reads from a buffer of `cap` bytes. -/
def bufString (b : Buf) (cap : Nat) : List Nat := cstr (blockOf b cap)

/-- The strings of the nodes `ps`, in order. -/
def values (m : Mem) (ps : List Ptr) : List (List Nat) := ps.map (valueOf m)

/-- A memory with nothing in it. -/
def emptyMem : Mem := ⟨fun _ => 0, fun _ => 0, fun _ => 0, fun _ => [], fun _ => false⟩

/-- The queue at sentinel `1` built by inserting the strings `ss` at the tail;
the `k`-th element lives at `2 * k + 2`, its string at `2 * k + 3`. -/
def build : List (List Nat) → Nat → Mem → Mem
  | [], _, m => m
  | s :: ss, k, m =>
    match q_insert_tail m 1 s (2 * k + 2) (2 * k + 3) with
    | some r => build ss (k + 1) r.1
    | none => m

/-- The queue at sentinel `1` holding the strings `ss`. -/
def mkQueue (ss : List (List Nat)) : Mem := build ss 0 (q_new emptyMem 1).1

/-- The element addresses of `mkQueue ss`. -/
def mkNodes (ss : List (List Nat)) : List Ptr := (List.range ss.length).map fun k => 2 * k + 2

/-- Consecutive nodes of `a :: l` are joined backwards by the field `g`. -/
def BackLinked (g : Ptr → Ptr) : Ptr → List Ptr → Prop
  | _, [] => True
  | a, b :: l => g b = a ∧ BackLinked g b l

/-- The nodes `l` are a NULL-terminated list that starts at `a` and runs along
the field `nx`; no node occurs twice. -/
def NList (nx : Ptr → Ptr) : Ptr → List Ptr → Prop
  | a, [] => a = NULL
  | a, p :: l => a = p ∧ p ≠ NULL ∧ p ∉ l ∧ NList nx (nx p) l

/-- What `*ptr` holds. -/
def readLoc (s : MergeSt) (ptr : Loc) : Ptr :=
  match ptr with
  | Loc.headVar => s.head
  | Loc.nextOf p => s.mem.next p

/-- The order in which the loop of `mergeTwoLists` emits the nodes of two lists:
`Merged val l r out` when merging `l` and `r`, whose strings are given by `val`,
emits `out`. -/
inductive Merged (val : Ptr → List Nat) : List Ptr → List Ptr → List Ptr → Prop
  | nil_left (r : List Ptr) : Merged val [] r r
  | nil_right (l : List Ptr) : Merged val l [] l
  | left (a : Ptr) (l : List Ptr) (b : Ptr) (r out : List Ptr) :
      strcmp (val a) (val b) < 0 → Merged val l (b :: r) out →
      Merged val (a :: l) (b :: r) (a :: out)
  | right (a : Ptr) (l : List Ptr) (b : Ptr) (r out : List Ptr) :
      ¬ strcmp (val a) (val b) < 0 → Merged val (a :: l) r out →
      Merged val (a :: l) (b :: r) (b :: out)

/-- The order in which `mergesort` leaves the nodes of a list: one node stays,
a longer list is cut after its first `(n + 1) / 2` nodes, both halves are
sorted and merged. -/
inductive Sorts (val : Ptr → List Nat) : List Ptr → List Ptr → Prop
  | one (p : Ptr) : Sorts val [p] [p]
  | split (l a b out : List Ptr) : 2 ≤ l.length →
      Sorts val (l.take ((l.length + 1) / 2)) a →
      Sorts val (l.drop ((l.length + 1) / 2)) b →
      Merged val a b out → Sorts val l out

/-- The nodes of `l` without those whose immediate successor in `l` holds an
equal string (`strcmp` is `0`): of a run of equal strings the last node stays. -/
def dropIfNextEqual (val : Ptr → List Nat) : List Ptr → List Ptr
  | [] => []
  | [p] => [p]
  | p :: q :: l =>
    if strcmp (val p) (val q) = 0 then dropIfNextEqual val (q :: l)
    else p :: dropIfNextEqual val (q :: l)

/-- The nodes of `l` with every complete pair `(2i, 2i+1)` exchanged. -/
def swapPairs : List Ptr → List Ptr
  | a :: b :: l => b :: a :: swapPairs l
  | l => l

/-- Non-decreasing under `strcmp`, every pair compared. -/
def Ascending (l : List (List Nat)) : Prop := l.Pairwise fun x y => strcmp x y ≤ 0

instance (l : List (List Nat)) : Decidable (Ascending l) := by
  unfold Ascending; infer_instance

/-- The memory `m2` differs from `m1` at most in `next` fields. -/
def SameData (m1 m2 : Mem) : Prop :=
  m2.prev = m1.prev ∧ m2.value = m1.value ∧ m2.str = m1.str ∧ m2.live = m1.live

/-- Circularity of the list at the sentinel `head` whose nodes, met by following
`next` from the sentinel until it comes back to it, are `ps`: every node `n` of
the circle has `n.next.prev == n` and `n.prev.next == n`. -/
def Circular (m : Mem) (head : Ptr) (ps : List Ptr) : Prop :=
  head ≠ NULL ∧ NULL ∉ ps ∧ head ∉ ps ∧ Linked m.next head (ps ++ [head]) ∧
    ∀ n ∈ head :: ps, m.prev (m.next n) = n ∧ m.next (m.prev n) = n

instance (m : Mem) (head : Ptr) (ps : List Ptr) : Decidable (Circular m head ps) := by
  unfold Circular; infer_instance

/-- A call of one of the four operations at the ends of the queue, with what
the environment supplies: the string and the results of the two `malloc` calls,
or the buffer and its capacity. -/
inductive Call where
  | insert_head (s : List Nat) (q v : Ptr) : Call
  | insert_tail (s : List Nat) (q v : Ptr) : Call
  | remove_head (sp : Option Buf) (bufsize : Nat) : Call
  | remove_tail (sp : Option Buf) (bufsize : Nat) : Call

/-- Whether the call is an insert. -/
def Call.isInsert : Call → Bool
  | Call.insert_head _ _ _ => true
  | Call.insert_tail _ _ _ => true
  | _ => false

/-- The memory after a call on the queue at `head`, and whether the call
succeeded: an insert returned true, a removal returned an element; `none` when
the call has no result. -/
def Call.run (m : Mem) (head : Ptr) : Call → Option (Mem × Bool)
  | Call.insert_head s q v => q_insert_head m head s q v
  | Call.insert_tail s q v => q_insert_tail m head s q v
  | Call.remove_head sp bufsize =>
    (q_remove_head m head sp bufsize).map fun r => (r.mem, decide (r.elem ≠ NULL))
  | Call.remove_tail sp bufsize =>
    (q_remove_tail m head sp bufsize).map fun r => (r.mem, decide (r.elem ≠ NULL))

/-- The arguments of a call are in the range the operation is written for: the
string of an insert is shorter than `INT_MAX`, the capacity of a removal is a
`size_t` of at least one byte. -/
def Call.argsOk : Call → Prop
  | Call.insert_head s _ _ => strlen s < INT_MAX
  | Call.insert_tail s _ _ => strlen s < INT_MAX
  | Call.remove_head _ bufsize => 1 ≤ bufsize ∧ bufsize < 2 ^ 64
  | Call.remove_tail _ bufsize => 1 ≤ bufsize ∧ bufsize < 2 ^ 64

instance (c : Call) : Decidable c.argsOk := by
  cases c <;> unfold Call.argsOk <;> infer_instance

/-- What `malloc` may return in the memory `m`: `NULL` or a block that is not
allocated. -/
def mallocOk (m : Mem) (p : Ptr) : Prop := p = NULL ∨ m.live p = false

instance (m : Mem) (p : Ptr) : Decidable (mallocOk m p) := by
  unfold mallocOk; infer_instance

/-- The `malloc` results supplied to a call are ones `malloc` may return. -/
def Call.mallocsOk (m : Mem) : Call → Prop
  | Call.insert_head _ q v => mallocOk m q ∧ (q ≠ NULL → mallocOk (setLive m q) v)
  | Call.insert_tail _ q v => mallocOk m q ∧ (q ≠ NULL → mallocOk (setLive m q) v)
  | _ => True

instance (m : Mem) (c : Call) : Decidable (c.mallocsOk m) := by
  cases c <;> unfold Call.mallocsOk <;> infer_instance

/-- Along a sequence of calls the arguments are in range and the `malloc`
results supplied are ones `malloc` may return at that point, in the memory the
calls before have left. -/
def callsOk (head : Ptr) : Mem → List Call → Prop
  | _, [] => True
  | m, c :: cs =>
    c.argsOk ∧ c.mallocsOk m ∧ ∀ r, c.run m head = some r → callsOk head r.1 cs

instance callsOk.decide (head : Ptr) : (m : Mem) → (cs : List Call) → Decidable (callsOk head m cs)
  | _, [] => isTrue trivial
  | m, c :: cs =>
    match h : c.run m head with
    | some r =>
      have : Decidable (callsOk head r.1 cs) := callsOk.decide head _ cs
      decidable_of_iff (c.argsOk ∧ c.mallocsOk m ∧ callsOk head r.1 cs) (by simp [callsOk, h])
    | none => decidable_of_iff (c.argsOk ∧ c.mallocsOk m) (by simp [callsOk, h])

/-- The memory with the numbers of successful inserts and of successful
removals so far. -/
structure Tally where
  mem : Mem
  inserts : Nat
  removals : Nat

/-- One call and its bookkeeping. -/
def Tally.step (head : Ptr) (t : Tally) (c : Call) : Option Tally :=
  match c.run t.mem head with
  | none => none
  | some r =>
    if r.2 = true then
      if c.isInsert = true then some ⟨r.1, t.inserts + 1, t.removals⟩
      else some ⟨r.1, t.inserts, t.removals + 1⟩
    else some ⟨r.1, t.inserts, t.removals⟩

/-- A sequence of calls on the queue at `head`; `none` when one of them has no
result. -/
def runCalls (head : Ptr) : Tally → List Call → Option Tally
  | t, [] => some t
  | t, c :: cs =>
    match t.step head c with
    | none => none
    | some t2 => runCalls head t2 cs

/-- What the bookkeeping relies on: the queue is well formed, its nodes are
allocated, and its length is the number of inserts less that of removals. -/
def TallyInv (head : Ptr) (t : Tally) (ps : List Ptr) : Prop :=
  IsQueue t.mem head ps ∧ (∀ p ∈ head :: ps, t.mem.live p = true) ∧
    ps.length + t.removals = t.inserts

instance NList.decide (nx : Ptr → Ptr) : (a : Ptr) → (l : List Ptr) → Decidable (NList nx a l)
  | a, [] => inferInstanceAs (Decidable (a = NULL))
  | a, p :: l =>
    have : Decidable (NList nx (nx p) l) := NList.decide nx (nx p) l
    inferInstanceAs (Decidable (a = p ∧ p ≠ NULL ∧ p ∉ l ∧ NList nx (nx p) l))

/-! ## The order given by `strcmp` -/

theorem strcmp_nil_le (z : List Nat) : strcmp [] z ≤ 0 := by
  cases z with
  | nil => simp [strcmp]
  | cons c cs => simp [strcmp]

theorem strcmp_antisymm (x y : List Nat) : strcmp y x = - strcmp x y := by
  induction x generalizing y with
  | nil => cases y <;> simp [strcmp]
  | cons a as ih =>
    cases y with
    | nil => simp [strcmp]
    | cons b bs =>
      simp only [strcmp]
      by_cases hab : a = b
      · subst hab
        by_cases h0 : a = 0
        · simp [h0]
        · simp [h0, ih bs]
      · have hba : b ≠ a := fun e => hab e.symm
        simp [hab, hba]

theorem strcmp_trans (x y z : List Nat) (h1 : strcmp x y ≤ 0) (h2 : strcmp y z ≤ 0) :
    strcmp x z ≤ 0 := by
  induction x generalizing y z with
  | nil => exact strcmp_nil_le z
  | cons a as ih =>
    cases y with
    | nil =>
      simp only [strcmp] at h1
      have ha : a = 0 := by omega
      subst ha
      cases z with
      | nil => simp [strcmp]
      | cons c cs =>
        simp only [strcmp]
        split_ifs <;> omega
    | cons b bs =>
      cases z with
      | nil =>
        simp only [strcmp] at h1 h2 ⊢
        split_ifs at h1 <;> omega
      | cons c cs =>
        simp only [strcmp] at h1 h2 ⊢
        by_cases hab : a = b
        · subst hab
          by_cases hac : a = c
          · subst hac
            by_cases h0 : a = 0
            · simp [h0]
            · simp only [ne_eq, not_true_eq_false, if_false, h0] at h1 h2 ⊢
              exact ih bs cs h1 h2
          · simpa [hac] using h2
        · simp only [ne_eq, hab, not_false_eq_true, if_true] at h1
          split_ifs at h2 <;> split_ifs <;> omega

theorem strcmp_total (x y : List Nat) (h : ¬ strcmp x y < 0) : strcmp y x ≤ 0 := by
  rw [strcmp_antisymm x y]; omega

/-! ## Links along a list of nodes -/

theorem getLastD_reverse (l : List Ptr) (a : Ptr) : l.reverse.getLastD a = l.headD a := by
  cases l <;> simp

theorem headD_reverse (l : List Ptr) (a : Ptr) : l.reverse.headD a = l.getLastD a := by
  rcases List.eq_nil_or_concat l with rfl | ⟨l1, b, rfl⟩ <;> simp

theorem getLastD_mem (l : List Ptr) (a : Ptr) : l.getLastD a ∈ a :: l := by
  induction l generalizing a with
  | nil => simp
  | cons b l ih =>
    rw [List.getLastD_cons]
    exact List.mem_cons_of_mem _ (ih b)

theorem headD_mem (l : List Ptr) (a : Ptr) : l.headD a ∈ l ++ [a] := by
  cases l <;> simp

theorem getLastD_not_mem_dropLast (l : List Ptr) (a : Ptr) (h : (a :: l).Nodup) :
    l.getLastD a ∉ (a :: l).dropLast := by
  induction l generalizing a with
  | nil => simp
  | cons b l ih =>
    rw [List.getLastD_cons, List.dropLast_cons₂]
    have hb : (b :: l).Nodup := (List.nodup_cons.mp h).2
    have ha : a ∉ b :: l := (List.nodup_cons.mp h).1
    intro hmem
    rcases List.mem_cons.mp hmem with h1 | h1
    · exact ha (h1 ▸ getLastD_mem l b)
    · exact ih b hb h1

theorem linked_append (f : Ptr → Ptr) (a : Ptr) (l1 l2 : List Ptr) :
    Linked f a (l1 ++ l2) ↔ Linked f a l1 ∧ Linked f (l1.getLastD a) l2 := by
  induction l1 generalizing a with
  | nil => simp [Linked]
  | cons b l ih =>
    rw [List.cons_append, List.getLastD_cons]
    simp only [Linked, ih b, and_assoc]

theorem linked_congr (f g : Ptr → Ptr) (a : Ptr) (l : List Ptr)
    (h : ∀ x ∈ (a :: l).dropLast, g x = f x) (hl : Linked f a l) : Linked g a l := by
  induction l generalizing a with
  | nil => trivial
  | cons b l ih =>
    rw [List.dropLast_cons₂] at h
    refine ⟨?_, ih b (fun x hx => h x (List.mem_cons_of_mem _ hx)) hl.2⟩
    rw [h a (List.mem_cons_self _ _)]
    exact hl.1

theorem linked_update (f : Ptr → Ptr) (a : Ptr) (l : List Ptr) (x v : Ptr)
    (hx : x ∉ (a :: l).dropLast) (hl : Linked f a l) : Linked (Function.update f x v) a l := by
  refine linked_congr f _ a l (fun y hy => ?_) hl
  refine Function.update_noteq (fun e => hx ?_) _ _
  rw [← e]; exact hy

theorem dropLast_cycle (a e : Ptr) (l : List Ptr) : (a :: (l ++ [e])).dropLast = a :: l := by
  rw [← List.cons_append, List.dropLast_concat]

theorem not_mem_dropLast_cycle (x a e : Ptr) (l : List Ptr) (h : x ∉ a :: l) :
    x ∉ (a :: (l ++ [e])).dropLast := by
  rw [dropLast_cycle]; exact h

/-- Reading the link of a node in the middle of a run. -/
theorem linked_read (f : Ptr → Ptr) (h e p : Ptr) (l1 l2 : List Ptr)
    (hl : Linked f h (l1 ++ p :: (l2 ++ [e]))) : f p = l2.headD e := by
  have h2 := ((linked_append f h l1 _).mp hl).2.2
  cases l2 with
  | nil => exact h2.1
  | cons y l2 => exact h2.1

/-- Reading the link of the node before a given one. -/
theorem linked_read_before (f : Ptr → Ptr) (h p : Ptr) (l1 l2 : List Ptr)
    (hl : Linked f h (l1 ++ p :: l2)) : f (l1.getLastD h) = p :=
  ((linked_append f h l1 _).mp hl).2.1

/-- Taking the node `p` out of a run by one store. -/
theorem linked_unlink (f : Ptr → Ptr) (h e p : Ptr) (l1 l2 : List Ptr)
    (hnd : (h :: (l1 ++ p :: l2)).Nodup)
    (hl : Linked f h (l1 ++ p :: (l2 ++ [e]))) :
    Linked (Function.update f (l1.getLastD h) (l2.headD e)) h (l1 ++ (l2 ++ [e])) := by
  obtain ⟨h1, _, h3⟩ := (linked_append f h l1 _).mp hl
  have hnd1 : (h :: l1).Nodup := by
    rw [← List.cons_append] at hnd
    exact (List.nodup_append.mp hnd).1
  have hx : l1.getLastD h ∈ h :: l1 := getLastD_mem l1 h
  have hdisj : ∀ z ∈ h :: l1, z ∉ p :: l2 := by
    rw [← List.cons_append] at hnd
    exact fun z hz hz2 => (List.nodup_append.mp hnd).2.2 hz hz2
  refine (linked_append _ h l1 _).mpr ⟨?_, ?_⟩
  · exact linked_update f h l1 _ _ (getLastD_not_mem_dropLast l1 h hnd1) h1
  · cases l2 with
    | nil => simp [Linked]
    | cons y l2 =>
      refine ⟨by simp, ?_⟩
      refine linked_update f y _ _ _ (not_mem_dropLast_cycle _ _ _ _ ?_) h3.2
      exact fun hm => hdisj _ hx (List.mem_cons_of_mem _ hm)

/-- Putting the new node `p` into a run by two stores. -/
theorem linked_insert (f : Ptr → Ptr) (h e p : Ptr) (l1 l2 : List Ptr)
    (hnd : (h :: (l1 ++ p :: l2)).Nodup)
    (hl : Linked f h (l1 ++ (l2 ++ [e]))) :
    Linked (Function.update (Function.update f p (l2.headD e)) (l1.getLastD h) p) h
      (l1 ++ p :: (l2 ++ [e])) := by
  obtain ⟨h1, h2⟩ := (linked_append f h l1 _).mp hl
  have hnd1 : (h :: l1).Nodup := by
    rw [← List.cons_append] at hnd
    exact (List.nodup_append.mp hnd).1
  have hx : l1.getLastD h ∈ h :: l1 := getLastD_mem l1 h
  have hdisj : ∀ z ∈ h :: l1, z ∉ p :: l2 := by
    rw [← List.cons_append] at hnd
    exact fun z hz hz2 => (List.nodup_append.mp hnd).2.2 hz hz2
  have hp2 : p ∉ l2 := by
    rw [← List.cons_append] at hnd
    exact (List.nodup_cons.mp (List.nodup_append.mp hnd).2.1).1
  have hxp : l1.getLastD h ≠ p := fun e1 => hdisj _ hx (e1 ▸ List.mem_cons_self _ _)
  refine (linked_append _ h l1 _).mpr ⟨?_, by simp, ?_⟩
  · refine linked_update _ h l1 _ _ (getLastD_not_mem_dropLast l1 h hnd1) ?_
    refine linked_update f h l1 _ _ (fun hm => ?_) h1
    exact hdisj p (List.mem_of_mem_dropLast hm) (List.mem_cons_self _ _)
  · cases l2 with
    | nil => simp [Linked, Function.update_noteq hxp.symm]
    | cons y l2 =>
      refine ⟨by simp [Function.update_noteq hxp.symm], ?_⟩
      refine linked_update _ y _ _ _ (not_mem_dropLast_cycle _ _ _ _ ?_) ?_
      · exact fun hm => hdisj _ hx (List.mem_cons_of_mem _ hm)
      · exact linked_update f y _ _ _ (not_mem_dropLast_cycle _ _ _ _ hp2) h2.2

/-! ## The list primitives on a well-formed queue -/

theorem nodup_cons_reverse (h : Ptr) (l : List Ptr) (hnd : (h :: l).Nodup) :
    (h :: l.reverse).Nodup := by
  rw [List.nodup_cons] at hnd ⊢
  exact ⟨fun hm => hnd.1 (List.mem_reverse.mp hm), List.nodup_reverse.mpr hnd.2⟩

theorem reverse_middle (p e : Ptr) (l1 l2 : List Ptr) :
    (l1 ++ p :: l2).reverse ++ [e] = l2.reverse ++ p :: (l1.reverse ++ [e]) := by
  simp

theorem isQueue_next_read (m : Mem) (head p : Ptr) (l1 l2 : List Ptr)
    (hq : IsQueue m head (l1 ++ p :: l2)) : m.next p = l2.headD head := by
  obtain ⟨_, _, _, hn, _⟩ := hq
  rw [List.append_assoc, List.cons_append] at hn
  exact linked_read m.next head head p l1 l2 hn

theorem isQueue_prev_read (m : Mem) (head p : Ptr) (l1 l2 : List Ptr)
    (hq : IsQueue m head (l1 ++ p :: l2)) : m.prev p = l1.getLastD head := by
  obtain ⟨_, _, _, _, hp⟩ := hq
  rw [reverse_middle] at hp
  rw [← headD_reverse]
  exact linked_read m.prev head head p l2.reverse l1.reverse hp

theorem isQueue_next_head (m : Mem) (head : Ptr) (ps : List Ptr)
    (hq : IsQueue m head ps) : m.next head = ps.headD head := by
  obtain ⟨_, _, _, hn, _⟩ := hq
  cases ps with
  | nil => exact hn.1
  | cons p ps => exact hn.1

theorem isQueue_prev_head (m : Mem) (head : Ptr) (ps : List Ptr)
    (hq : IsQueue m head ps) : m.prev head = ps.getLastD head := by
  obtain ⟨_, _, _, _, hp⟩ := hq
  rw [← headD_reverse]
  generalize ps.reverse = r at hp
  cases r with
  | nil => exact hp.1
  | cons p ps => exact hp.1

/-- The two stores of `list_del`. -/
theorem list_del_fields (m : Mem) (node : Ptr) :
    (list_del m node).next = Function.update m.next (m.prev node) (m.next node) ∧
    (list_del m node).prev = Function.update m.prev (m.next node) (m.prev node) ∧
    (list_del m node).value = m.value ∧ (list_del m node).str = m.str ∧
    (list_del m node).live = m.live :=
  ⟨rfl, rfl, rfl, rfl, rfl⟩

/-- Unlinking a node of a queue leaves the queue of the other nodes. -/
theorem isQueue_list_del (m : Mem) (head p : Ptr) (l1 l2 : List Ptr)
    (hq : IsQueue m head (l1 ++ p :: l2)) : IsQueue (list_del m p) head (l1 ++ l2) := by
  have hnx := isQueue_next_read m head p l1 l2 hq
  have hpv := isQueue_prev_read m head p l1 l2 hq
  obtain ⟨hh, hnull, hnd, hn, hp⟩ := hq
  obtain ⟨e1, e2, _, _, _⟩ := list_del_fields m p
  refine ⟨hh, ?_, ?_, ?_, ?_⟩
  · intro hm
    apply hnull
    rcases List.mem_append.mp hm with h1 | h1
    · exact List.mem_append_left _ h1
    · exact List.mem_append_right _ (List.mem_cons_of_mem _ h1)
  · have := List.nodup_middle.mp (List.nodup_cons.mp hnd).2
    refine List.nodup_cons.mpr ⟨fun hm => (List.nodup_cons.mp hnd).1 ?_, (List.nodup_cons.mp this).2⟩
    rcases List.mem_append.mp hm with h1 | h1
    · exact List.mem_append_left _ h1
    · exact List.mem_append_right _ (List.mem_cons_of_mem _ h1)
  · rw [e1, hnx, hpv, List.append_assoc]
    rw [List.append_assoc, List.cons_append] at hn
    exact linked_unlink m.next head head p l1 l2 hnd hn
  · rw [e2, hnx, hpv, List.reverse_append, List.append_assoc, ← getLastD_reverse l2,
      ← headD_reverse l1]
    rw [reverse_middle] at hp
    refine linked_unlink m.prev head head p l2.reverse l1.reverse ?_ hp
    have h3 := nodup_cons_reverse head _ hnd
    simpa using h3

/-- Linking a new node after the sentinel puts it at the head of the queue. -/
theorem isQueue_list_add (m : Mem) (head p : Ptr) (ps : List Ptr)
    (hq : IsQueue m head ps) (hp0 : p ≠ NULL) (hfresh : p ∉ head :: ps) :
    IsQueue (list_add m p head) head (p :: ps) := by
  have hnx := isQueue_next_head m head ps hq
  obtain ⟨hh, hnull, hnd, hn, hp⟩ := hq
  have hnd2 : (head :: p :: ps).Nodup := by
    rw [List.nodup_cons] at hnd ⊢
    refine ⟨?_, List.nodup_cons.mpr ⟨fun hm => hfresh (List.mem_cons_of_mem _ hm), hnd.2⟩⟩
    intro hm
    rcases List.mem_cons.mp hm with h1 | h1
    · exact hfresh (h1 ▸ List.mem_cons_self _ _)
    · exact hnd.1 h1
  have hne : ps.headD head ≠ p := by
    intro e
    have := headD_mem ps head
    rw [e] at this
    rcases List.mem_append.mp this with h1 | h1
    · exact hfresh (List.mem_cons_of_mem _ h1)
    · exact hfresh (by simp at h1; simp [h1])
  refine ⟨hh, ?_, hnd2, ?_, ?_⟩
  · intro hm
    rcases List.mem_cons.mp hm with h1 | h1
    · exact hp0 h1.symm
    · exact hnull h1
  · have := linked_insert m.next head head p [] ps hnd2 hn
    simpa [list_add, setNext, setPrev, hnx] using this
  · have h3 : (head :: (ps.reverse ++ p :: [])).Nodup := by
      have := nodup_cons_reverse head _ hnd2
      simpa using this
    have := linked_insert m.prev head head p ps.reverse [] h3 (by simpa using hp)
    rw [getLastD_reverse, Function.update_comm hne.symm] at this
    simpa [list_add, setNext, setPrev, hnx] using this

/-- Linking a new node before the sentinel puts it at the tail of the queue. -/
theorem isQueue_list_add_tail (m : Mem) (head p : Ptr) (ps : List Ptr)
    (hq : IsQueue m head ps) (hp0 : p ≠ NULL) (hfresh : p ∉ head :: ps) :
    IsQueue (list_add_tail m p head) head (ps ++ [p]) := by
  have hpv := isQueue_prev_head m head ps hq
  obtain ⟨hh, hnull, hnd, hn, hp⟩ := hq
  have hnd2 : (head :: (ps ++ [p])).Nodup := by
    rw [List.nodup_cons] at hnd ⊢
    refine ⟨?_, ?_⟩
    · intro hm
      rcases List.mem_append.mp hm with h1 | h1
      · exact hnd.1 h1
      · exact hfresh (by simp at h1; simp [h1])
    · rw [List.nodup_append]
      refine ⟨hnd.2, List.nodup_singleton _, ?_⟩
      intro z hz hz2
      simp at hz2
      exact hfresh (List.mem_cons_of_mem _ (hz2 ▸ hz))
  have hne : ps.getLastD head ≠ p := by
    intro e
    have := getLastD_mem ps head
    rw [e] at this
    exact hfresh this
  refine ⟨hh, ?_, hnd2, ?_, ?_⟩
  · intro hm
    rcases List.mem_append.mp hm with h1 | h1
    · exact hnull h1
    · simp at h1; exact hp0 h1.symm
  · have := linked_insert m.next head head p ps [] hnd2 (by simpa using hn)
    rw [Function.update_comm hne.symm] at this
    simpa [list_add_tail, setNext, setPrev, hpv] using this
  · have h3 : (head :: ([] ++ p :: ps.reverse)).Nodup := by
      have := nodup_cons_reverse head _ hnd2
      simpa using this
    have := linked_insert m.prev head head p [] ps.reverse h3 hp
    rw [headD_reverse] at this
    simpa [list_add_tail, setNext, setPrev, hpv] using this

/-! ## Merging and sorting, on lists of nodes -/

theorem merged_perm (val : Ptr → List Nat) (l r out : List Ptr) (h : Merged val l r out) :
    out.Perm (l ++ r) := by
  induction h with
  | nil_left r => exact List.Perm.refl _
  | nil_right l => simp
  | left a l b r out _ _ ih => exact List.Perm.cons a ih
  | right a l b r out _ _ ih =>
    exact (List.Perm.cons b ih).trans (List.perm_middle.symm)

theorem sorts_perm (val : Ptr → List Nat) (l out : List Ptr) (h : Sorts val l out) :
    out.Perm l := by
  induction h with
  | one p => exact List.Perm.refl _
  | split l a b out _ _ _ hm iha ihb =>
    refine (merged_perm val a b out hm).trans ?_
    refine (List.Perm.append iha ihb).trans ?_
    rw [List.take_append_drop]

theorem ascending_cons (val : Ptr → List Nat) (a : Ptr) (l : List Ptr) :
    Ascending ((a :: l).map val) ↔
      (∀ q ∈ l, strcmp (val a) (val q) ≤ 0) ∧ Ascending (l.map val) := by
  simp [Ascending]

theorem merged_ascending (val : Ptr → List Nat) (l r out : List Ptr) (h : Merged val l r out)
    (hl : Ascending (l.map val)) (hr : Ascending (r.map val)) : Ascending (out.map val) := by
  induction h with
  | nil_left r => exact hr
  | nil_right l => exact hl
  | left a l b r out hlt hm ih =>
    have hl2 := (ascending_cons val a l).mp hl
    have hr2 := (ascending_cons val b r).mp hr
    have hout := ih hl2.2 hr
    refine (ascending_cons val a out).mpr ⟨?_, hout⟩
    intro q hq
    have hq2 := (merged_perm val _ _ _ hm).subset hq
    rcases List.mem_append.mp hq2 with h1 | h1
    · exact hl2.1 _ h1
    · rcases List.mem_cons.mp h1 with h3 | h3
      · subst h3; omega
      · exact strcmp_trans _ (val b) _ (by omega) (hr2.1 _ h3)
  | right a l b r out hlt hm ih =>
    have hl2 := (ascending_cons val a l).mp hl
    have hr2 := (ascending_cons val b r).mp hr
    have hout := ih hl hr2.2
    have hba := strcmp_total _ _ hlt
    refine (ascending_cons val b out).mpr ⟨?_, hout⟩
    intro q hq
    have hq2 := (merged_perm val _ _ _ hm).subset hq
    rcases List.mem_append.mp hq2 with h1 | h1
    · rcases List.mem_cons.mp h1 with h3 | h3
      · subst h3; exact hba
      · exact strcmp_trans _ (val a) _ hba (hl2.1 _ h3)
    · exact hr2.1 _ h1

theorem sorts_ascending (val : Ptr → List Nat) (l out : List Ptr) (h : Sorts val l out) :
    Ascending (out.map val) := by
  induction h with
  | one p => simp [Ascending]
  | split l a b out _ _ _ hm iha ihb => exact merged_ascending val a b out hm iha ihb

/-! ## NULL-terminated lists -/

theorem sameData_refl (m : Mem) : SameData m m := ⟨rfl, rfl, rfl, rfl⟩

theorem sameData_trans (m1 m2 m3 : Mem) (h1 : SameData m1 m2) (h2 : SameData m2 m3) :
    SameData m1 m3 :=
  ⟨h2.1.trans h1.1, h2.2.1.trans h1.2.1, h2.2.2.1.trans h1.2.2.1, h2.2.2.2.trans h1.2.2.2⟩

theorem sameData_setNext (m : Mem) (p v : Ptr) : SameData m (setNext m p v) :=
  ⟨rfl, rfl, rfl, rfl⟩

theorem sameData_valueOf (m1 m2 : Mem) (h : SameData m1 m2) : valueOf m2 = valueOf m1 := by
  funext p
  simp [valueOf, h.2.1, h.2.2.1]

theorem nlist_congr (nx nx2 : Ptr → Ptr) (a : Ptr) (l : List Ptr)
    (h : ∀ x ∈ l, nx2 x = nx x) (hl : NList nx a l) : NList nx2 a l := by
  induction l generalizing a with
  | nil => exact hl
  | cons p l ih =>
    obtain ⟨h1, h2, h3, h4⟩ := hl
    refine ⟨h1, h2, h3, ?_⟩
    rw [h p (List.mem_cons_self _ _)]
    exact ih _ (fun x hx => h x (List.mem_cons_of_mem _ hx)) h4

theorem nlist_update (nx : Ptr → Ptr) (a x v : Ptr) (l : List Ptr) (hx : x ∉ l)
    (hl : NList nx a l) : NList (Function.update nx x v) a l :=
  nlist_congr nx _ a l
    (fun y hy => Function.update_noteq (fun e => hx (by rw [← e]; exact hy)) _ _) hl

theorem nlist_head (nx : Ptr → Ptr) (a : Ptr) (l : List Ptr) (hl : NList nx a l) :
    a = l.headD NULL := by
  cases l with
  | nil => exact hl
  | cons p l => exact hl.1

theorem nlist_null (nx : Ptr → Ptr) (a : Ptr) (l : List Ptr) (hl : NList nx a l) :
    NULL ∉ l := by
  induction l generalizing a with
  | nil => simp
  | cons p l ih =>
    intro hm
    rcases List.mem_cons.mp hm with h1 | h1
    · exact hl.2.1 h1.symm
    · exact ih _ hl.2.2.2 h1

theorem nlist_nodup (nx : Ptr → Ptr) (a : Ptr) (l : List Ptr) (hl : NList nx a l) :
    l.Nodup := by
  induction l generalizing a with
  | nil => simp
  | cons p l ih => exact List.nodup_cons.mpr ⟨hl.2.2.1, ih _ hl.2.2.2⟩

/-! ## `mergeTwoLists` -/

theorem storeLoc_read (s : MergeSt) (ptr : Loc) (v : Ptr) : readLoc (storeLoc s ptr v) ptr = v := by
  cases ptr <;> simp [storeLoc, readLoc, setNext]

theorem storeLoc_next (s : MergeSt) (ptr : Loc) (v x : Ptr) (h : ptr ≠ Loc.nextOf x) :
    (storeLoc s ptr v).mem.next x = s.mem.next x := by
  cases ptr with
  | headVar => rfl
  | nextOf q =>
    have hq : x ≠ q := fun e => h (by rw [e])
    simp [storeLoc, setNext, Function.update_noteq hq]

theorem storeLoc_data (s : MergeSt) (ptr : Loc) (v : Ptr) : SameData s.mem (storeLoc s ptr v).mem := by
  cases ptr <;> exact ⟨rfl, rfl, rfl, rfl⟩

theorem storeLoc_head (s : MergeSt) (ptr : Loc) (v : Ptr) (h : ptr ≠ Loc.headVar) :
    (storeLoc s ptr v).head = s.head := by
  cases ptr with
  | headVar => exact absurd rfl h
  | nextOf q => rfl

theorem storeLoc_nlist (s : MergeSt) (ptr : Loc) (v a : Ptr) (l : List Ptr)
    (h : ∀ q, ptr = Loc.nextOf q → q ∉ l) (hl : NList s.mem.next a l) :
    NList (storeLoc s ptr v).mem.next a l := by
  refine nlist_congr _ _ a l (fun x hx => storeLoc_next s ptr v x ?_) hl
  exact fun e => h x e hx

/-- The loop of `mergeTwoLists` on two disjoint NULL-terminated lists: it ends,
the emitted nodes are the merge of the two lists and hang, NULL-terminated,
at the place `ptr` pointed to on entry; no other link changes. -/
theorem mergeLoop_spec (fuel : Nat) : ∀ (l1 l2 : List Ptr) (s : MergeSt) (ptr : Loc)
    (left right : Ptr),
    NList s.mem.next left l1 → NList s.mem.next right l2 → (∀ x ∈ l1, x ∉ l2) →
    (∀ q, ptr = Loc.nextOf q → q ∉ l1 ∧ q ∉ l2) → l1.length + l2.length < fuel →
    ∃ s2 out, mergeLoop fuel s ptr left right = some s2 ∧ Merged (valueOf s.mem) l1 l2 out ∧
      NList s2.mem.next (readLoc s2 ptr) out ∧ (ptr ≠ Loc.headVar → s2.head = s.head) ∧
      (∀ x, x ∉ l1 → x ∉ l2 → ptr ≠ Loc.nextOf x → s2.mem.next x = s.mem.next x) ∧
      SameData s.mem s2.mem := by
  induction fuel with
  | zero => intro l1 l2 s ptr left right _ _ _ _ hf; omega
  | succ fuel ih =>
    intro l1 l2 s ptr left right hl hr hdisj hptr hf
    cases l1 with
    | nil =>
      have hleft : left = NULL := hl
      subst hleft
      refine ⟨storeLoc s ptr right, l2, by simp [mergeLoop], Merged.nil_left l2, ?_,
        storeLoc_head s ptr right, ?_, storeLoc_data s ptr right⟩
      · rw [storeLoc_read]
        exact storeLoc_nlist s ptr right right l2 (fun q hq => (hptr q hq).2) hr
      · exact fun x _ _ hx => storeLoc_next s ptr right x hx
    | cons p l1 =>
      obtain ⟨hp1, hp2, hp3, hp4⟩ := hl
      subst hp1
      cases l2 with
      | nil =>
        have hright : right = NULL := hr
        subst hright
        refine ⟨storeLoc s ptr left, left :: l1, by simp [mergeLoop, hp2],
          Merged.nil_right _, ?_, storeLoc_head s ptr left, ?_, storeLoc_data s ptr left⟩
        · rw [storeLoc_read]
          exact storeLoc_nlist s ptr left left (left :: l1) (fun q hq => (hptr q hq).1)
            ⟨rfl, hp2, hp3, hp4⟩
        · exact fun x _ _ hx => storeLoc_next s ptr left x hx
      | cons r l2 =>
        obtain ⟨hr1, hr2, hr3, hr4⟩ := hr
        subst hr1
        have hlr : left ≠ right := fun e => hdisj left (List.mem_cons_self _ _) (e ▸ List.mem_cons_self _ _)
        by_cases hlt : strcmp (valueOf s.mem left) (valueOf s.mem right) < 0
        · -- the left node is emitted
          have hpl : ptr ≠ Loc.nextOf left := fun e => (hptr left e).1 (List.mem_cons_self _ _)
          have hnl : (storeLoc s ptr left).mem.next left = s.mem.next left :=
            storeLoc_next s ptr left left hpl
          obtain ⟨s2, out, e1, e2, e3, e4, e5, e6⟩ := ih l1 (right :: l2) (storeLoc s ptr left)
            (Loc.nextOf left) ((storeLoc s ptr left).mem.next left) right
            (by rw [hnl]
                exact storeLoc_nlist s ptr left _ l1
                  (fun q hq hm => (hptr q hq).1 (List.mem_cons_of_mem _ hm)) hp4)
            (storeLoc_nlist s ptr left _ _ (fun q hq => (hptr q hq).2) ⟨rfl, hr2, hr3, hr4⟩)
            (fun x hx => hdisj x (List.mem_cons_of_mem _ hx))
            (by intro q hq
                cases hq
                exact ⟨hp3, hdisj left (List.mem_cons_self _ _)⟩)
            (by simp only [List.length_cons] at hf ⊢; omega)
          have hval := sameData_valueOf _ _ (storeLoc_data s ptr left)
          rw [hval] at e2
          refine ⟨s2, left :: out, by simp [mergeLoop, hp2, hr2, hlt, e1],
            Merged.left _ _ _ _ _ hlt e2, ⟨?_, hp2, ?_, e3⟩, ?_, ?_,
            sameData_trans _ _ _ (storeLoc_data s ptr left) e6⟩
          · cases ptr with
            | headVar =>
              show s2.head = left
              rw [e4 (by simp)]; rfl
            | nextOf q =>
              show s2.mem.next q = left
              have hq := hptr q rfl
              rw [e5 q (fun hm => hq.1 (List.mem_cons_of_mem _ hm)) hq.2
                (fun e => hq.1 (by cases e; exact List.mem_cons_self _ _))]
              exact storeLoc_read s (Loc.nextOf q) left
          · intro hm
            rcases List.mem_append.mp ((merged_perm _ _ _ _ e2).subset hm) with h1 | h1
            · exact hp3 h1
            · exact hdisj left (List.mem_cons_self _ _) h1
          · intro hne
            rw [e4 (by simp)]
            exact storeLoc_head s ptr left hne
          · intro x hx1 hx2 hx3
            have hxl : x ≠ left := fun e => hx1 (e ▸ List.mem_cons_self _ _)
            rw [e5 x (fun hm => hx1 (List.mem_cons_of_mem _ hm)) hx2
              (fun e => hxl (by cases e; rfl))]
            exact storeLoc_next s ptr left x hx3
        · -- the right node is emitted
          have hpr : ptr ≠ Loc.nextOf right := fun e => (hptr right e).2 (List.mem_cons_self _ _)
          have hnr : (storeLoc s ptr right).mem.next right = s.mem.next right :=
            storeLoc_next s ptr right right hpr
          obtain ⟨s2, out, e1, e2, e3, e4, e5, e6⟩ := ih (left :: l1) l2 (storeLoc s ptr right)
            (Loc.nextOf right) left ((storeLoc s ptr right).mem.next right)
            (storeLoc_nlist s ptr right _ _ (fun q hq => (hptr q hq).1) ⟨rfl, hp2, hp3, hp4⟩)
            (by rw [hnr]
                exact storeLoc_nlist s ptr right _ l2
                  (fun q hq hm => (hptr q hq).2 (List.mem_cons_of_mem _ hm)) hr4)
            (fun x hx hm => hdisj x hx (List.mem_cons_of_mem _ hm))
            (by intro q hq
                cases hq
                exact ⟨fun hm => hdisj right hm (List.mem_cons_self _ _), hr3⟩)
            (by simp only [List.length_cons] at hf ⊢; omega)
          have hval := sameData_valueOf _ _ (storeLoc_data s ptr right)
          rw [hval] at e2
          refine ⟨s2, right :: out, by simp [mergeLoop, hp2, hr2, hlt, e1],
            Merged.right _ _ _ _ _ hlt e2, ⟨?_, hr2, ?_, e3⟩, ?_, ?_,
            sameData_trans _ _ _ (storeLoc_data s ptr right) e6⟩
          · cases ptr with
            | headVar =>
              show s2.head = right
              rw [e4 (by simp)]; rfl
            | nextOf q =>
              show s2.mem.next q = right
              have hq := hptr q rfl
              rw [e5 q hq.1 (fun hm => hq.2 (List.mem_cons_of_mem _ hm))
                (fun e => hq.2 (by cases e; exact List.mem_cons_self _ _))]
              exact storeLoc_read s (Loc.nextOf q) right
          · intro hm
            rcases List.mem_append.mp ((merged_perm _ _ _ _ e2).subset hm) with h1 | h1
            · exact hdisj right h1 (List.mem_cons_self _ _)
            · exact hr3 h1
          · intro hne
            rw [e4 (by simp)]
            exact storeLoc_head s ptr right hne
          · intro x hx1 hx2 hx3
            have hxr : x ≠ right := fun e => hx2 (e ▸ List.mem_cons_self _ _)
            rw [e5 x hx1 (fun hm => hx2 (List.mem_cons_of_mem _ hm))
              (fun e => hxr (by cases e; rfl))]
            exact storeLoc_next s ptr right x hx3

/-- `mergeTwoLists` on two disjoint NULL-terminated lists. -/
theorem mergeTwoLists_spec (m : Mem) (left right : Ptr) (l1 l2 : List Ptr) (fuel : Nat)
    (hl : NList m.next left l1) (hr : NList m.next right l2) (hdisj : ∀ x ∈ l1, x ∉ l2)
    (hf : l1.length + l2.length < fuel) :
    ∃ m2 h out, mergeTwoLists m left right fuel = some (m2, h) ∧
      Merged (valueOf m) l1 l2 out ∧ NList m2.next h out ∧
      (∀ x, x ∉ l1 → x ∉ l2 → m2.next x = m.next x) ∧ SameData m m2 := by
  obtain ⟨s2, out, e1, e2, e3, _, e5, e6⟩ := mergeLoop_spec fuel l1 l2 ⟨m, NULL⟩ Loc.headVar
    left right hl hr hdisj (fun q hq => by cases hq) hf
  exact ⟨s2.mem, s2.head, out, by simp [mergeTwoLists, e1], e2, e3,
    fun x h1 h2 => e5 x h1 h2 (by simp), e6⟩

/-! ## `mergesort` -/

theorem nlist_getD_next (nx : Ptr → Ptr) (a : Ptr) (l : List Ptr) (hl : NList nx a l) (i : Nat)
    (hi : i < l.length) : nx (l.getD i NULL) = l.getD (i + 1) NULL := by
  induction l generalizing a i with
  | nil => simp at hi
  | cons p l ih =>
    obtain ⟨_, _, _, h4⟩ := hl
    cases i with
    | zero =>
      rw [List.getD_cons_zero, List.getD_cons_succ, nlist_head nx _ l h4]
      cases l <;> rfl
    | succ j =>
      rw [List.getD_cons_succ, List.getD_cons_succ]
      exact ih _ h4 j (by simpa using hi)

theorem nlist_getD_zero (nx : Ptr → Ptr) (a : Ptr) (l : List Ptr) (hl : NList nx a l) :
    a = l.getD 0 NULL := by
  rw [nlist_head nx a l hl]
  cases l <;> rfl

theorem nlist_getD_ne (nx : Ptr → Ptr) (a : Ptr) (l : List Ptr) (hl : NList nx a l) (i : Nat)
    (hi : i < l.length) : l.getD i NULL ≠ NULL := by
  intro e
  apply nlist_null nx a l hl
  rw [← e, List.getD_eq_getElem l NULL hi]
  exact List.getElem_mem hi

theorem not_mem_ne_getD (l : List Ptr) (p : Ptr) (i : Nat) (hp : p ∉ l) (hi : i < l.length) :
    p ≠ l.getD i NULL := by
  intro e
  apply hp
  rw [e, List.getD_eq_getElem l NULL hi]
  exact List.getElem_mem hi

/-- The fast/slow walk stops with `slow` at index `(n - 1) / 2`. -/
theorem splitLoop_spec (m : Mem) (a : Ptr) (l : List Ptr) (hl : NList m.next a l) (fuel : Nat) :
    ∀ k, 2 * k < l.length → l.length ≤ 2 * k + 2 * fuel →
      splitLoop m fuel (l.getD (2 * k) NULL) (l.getD k NULL)
        = some (l.getD ((l.length - 1) / 2) NULL) := by
  induction fuel with
  | zero => intro k h1 h2; omega
  | succ fuel ih =>
    intro k h1 h2
    have e1 := nlist_getD_next m.next a l hl (2 * k) h1
    unfold splitLoop
    by_cases h3 : 2 * k + 1 < l.length
    · have e2 := nlist_getD_next m.next a l hl (2 * k + 1) h3
      have n1 := nlist_getD_ne m.next a l hl (2 * k + 1) h3
      by_cases h4 : 2 * k + 2 < l.length
      · have n2 := nlist_getD_ne m.next a l hl (2 * k + 2) h4
        have e3 := nlist_getD_next m.next a l hl k (by omega)
        rw [e1, e2, e3, if_neg (not_or.mpr ⟨n1, n2⟩)]
        have := ih (k + 1) (by omega) (by omega)
        rw [show 2 * (k + 1) = 2 * k + 1 + 1 by ring] at this
        exact this
      · have z : l.getD (2 * k + 1 + 1) NULL = NULL := List.getD_eq_default l NULL (by omega)
        rw [e1, e2, z, if_pos (Or.inr rfl)]
        congr 2
        omega
    · have z : l.getD (2 * k + 1) NULL = NULL := List.getD_eq_default l NULL (by omega)
      rw [e1, z, if_pos (Or.inl rfl)]
      congr 2
      omega

/-- Cutting a NULL-terminated list after its first `k` nodes by the store
`slow->next = NULL`. -/
theorem nlist_cut (nx : Ptr → Ptr) (a : Ptr) (l : List Ptr) (hl : NList nx a l) (k : Nat)
    (hk : 0 < k) (hkn : k ≤ l.length) :
    NList (Function.update nx (l.getD (k - 1) NULL) NULL) a (l.take k) ∧
    NList (Function.update nx (l.getD (k - 1) NULL) NULL) (l.getD k NULL) (l.drop k) := by
  induction l generalizing a k with
  | nil => simp at hkn; omega
  | cons p l ih =>
    obtain ⟨h1, h2, h3, h4⟩ := hl
    cases k with
    | zero => omega
    | succ k =>
      cases k with
      | zero =>
        simp only [Nat.zero_add, Nat.sub_self, List.getD_cons_zero, List.take_succ_cons,
          List.take_zero, List.drop_succ_cons, List.drop_zero, List.getD_cons_succ]
        refine ⟨⟨h1, h2, by simp, by simp [NList]⟩, ?_⟩
        rw [← nlist_getD_zero nx _ l h4]
        exact nlist_update nx _ p NULL l h3 h4
      | succ k =>
        have hk2 : k + 1 ≤ l.length := by simpa using hkn
        obtain ⟨i1, i2⟩ := ih _ h4 (k + 1) (by omega) hk2
        simp only [Nat.add_sub_cancel, List.getD_cons_succ, List.take_succ_cons,
          List.drop_succ_cons] at i1 i2 ⊢
        refine ⟨⟨h1, h2, fun hm => h3 (List.mem_of_mem_take hm), ?_⟩, i2⟩
        rw [Function.update_noteq (not_mem_ne_getD l p k h3 (by omega))]
        exact i1

/-- `mergesort` on a non-empty NULL-terminated list: it returns, the result is
a NULL-terminated list of the same nodes in sorted order, and only the `next`
fields of these nodes change. -/
theorem mergesort_spec (fuel : Nat) : ∀ (m : Mem) (head : Ptr) (l : List Ptr),
    NList m.next head l → l ≠ [] → l.length < fuel →
    ∃ m2 h out, mergesort fuel m head = some (m2, h) ∧ Sorts (valueOf m) l out ∧
      NList m2.next h out ∧ (∀ x, x ∉ l → m2.next x = m.next x) ∧ SameData m m2 := by
  induction fuel with
  | zero => intro m head l _ _ hf; omega
  | succ fuel ih =>
    intro m head l hl hne hf
    have hnd := nlist_nodup m.next head l hl
    have h0 := nlist_getD_zero m.next head l hl
    have hlen : 0 < l.length := List.length_pos.mpr hne
    have hnext := nlist_getD_next m.next head l hl 0 hlen
    rw [← h0] at hnext
    unfold mergesort
    by_cases h1 : l.length = 1
    · -- one node
      have z : l.getD (0 + 1) NULL = NULL := List.getD_eq_default l NULL (by omega)
      rw [hnext, z, if_pos rfl]
      obtain ⟨p, rfl⟩ := List.length_eq_one.mp h1
      exact ⟨m, head, [p], rfl, Sorts.one p, hl, fun _ _ => rfl, sameData_refl m⟩
    · have h2 : 2 ≤ l.length := by omega
      have n1 := nlist_getD_ne m.next head l hl (0 + 1) (by omega)
      rw [hnext, if_neg n1]
      have hsplit := splitLoop_spec m head l hl (fuel + 1) 0 (by omega) (by omega)
      simp only [Nat.mul_zero] at hsplit
      rw [← h0] at hsplit
      rw [hsplit]
      simp only
      have hk : (l.length - 1) / 2 = (l.length + 1) / 2 - 1 := by omega
      have hK1 : 0 < (l.length + 1) / 2 := by omega
      have hK2 : (l.length + 1) / 2 < l.length := by omega
      have hmid := nlist_getD_next m.next head l hl ((l.length - 1) / 2) (by omega)
      rw [show (l.length - 1) / 2 + 1 = (l.length + 1) / 2 by omega] at hmid
      rw [hmid, hk]
      obtain ⟨c1, c2⟩ := nlist_cut m.next head l hl ((l.length + 1) / 2) hK1 (by omega)
      have hslow : l.getD ((l.length + 1) / 2 - 1) NULL ∈ l := by
        rw [List.getD_eq_getElem l NULL (by omega)]
        exact List.getElem_mem _
      have hdisj : ∀ x ∈ l.take ((l.length + 1) / 2), x ∉ l.drop ((l.length + 1) / 2) :=
        fun x hx hx2 => List.disjoint_take_drop hnd (Nat.le_refl _) hx hx2
      -- the left half
      obtain ⟨m2, left, a, e1, e2, e3, e4, e5⟩ := ih (setNext m _ NULL) head
        (l.take ((l.length + 1) / 2)) c1
        (List.ne_nil_of_length_pos (by rw [List.length_take]; omega))
        (by rw [List.length_take]; omega)
      rw [e1]
      simp only
      have hpa := sorts_perm _ _ _ e2
      -- the right half
      obtain ⟨m3, right, b, f1, f2, f3, f4, f5⟩ := ih m2 (l.getD ((l.length + 1) / 2) NULL)
        (l.drop ((l.length + 1) / 2))
        (nlist_congr _ _ _ _ (fun x hx => e4 x (fun hx2 => hdisj x hx2 hx)) c2)
        (List.ne_nil_of_length_pos (by rw [List.length_drop]; omega))
        (by rw [List.length_drop]; omega)
      rw [f1]
      simp only
      have hpb := sorts_perm _ _ _ f2
      have e3b : NList m3.next left a :=
        nlist_congr _ _ _ _ (fun x hx => f4 x (fun hx2 => hdisj x (hpa.subset hx) hx2)) e3
      obtain ⟨m4, h, out, g1, g2, g3, g4, g5⟩ := mergeTwoLists_spec m3 left right a b (fuel + 1)
        e3b f3 (fun x hx hx2 => hdisj x (hpa.subset hx) (hpb.subset hx2))
        (by rw [hpa.length_eq, hpb.length_eq, List.length_take, List.length_drop]; omega)
      have d1 : SameData m (setNext m (l.getD ((l.length + 1) / 2 - 1) NULL) NULL) :=
        sameData_setNext m _ _
      have d2 := sameData_trans _ _ _ d1 e5
      have d3 := sameData_trans _ _ _ d2 f5
      rw [sameData_valueOf _ _ d1] at e2
      rw [sameData_valueOf _ _ d2] at f2
      rw [sameData_valueOf _ _ d3] at g2
      refine ⟨m4, h, out, g1, Sorts.split l a b out h2 e2 f2 g2, g3, ?_,
        sameData_trans _ _ _ d3 g5⟩
      intro x hx
      have hxt : x ∉ l.take ((l.length + 1) / 2) := fun hm => hx (List.mem_of_mem_take hm)
      have hxd : x ∉ l.drop ((l.length + 1) / 2) := fun hm => hx (List.mem_of_mem_drop hm)
      rw [g4 x (fun hm => hxt (hpa.subset hm)) (fun hm => hxd (hpb.subset hm)), f4 x hxd,
        e4 x hxt]
      exact Function.update_noteq (fun e => hx (by rw [e]; exact hslow)) _ _

/-! ## `q_sort` -/

/-- Redirecting the last link of a run. -/
theorem linked_redirect (f : Ptr → Ptr) (a e e2 : Ptr) (l : List Ptr) (hnd : (a :: l).Nodup)
    (hl : Linked f a (l ++ [e])) :
    Linked (Function.update f (l.getLastD a) e2) a (l ++ [e2]) := by
  obtain ⟨h1, _⟩ := (linked_append f a l _).mp hl
  refine (linked_append _ a l _).mpr ⟨?_, by simp [Linked]⟩
  exact linked_update f a l _ _ (getLastD_not_mem_dropLast l a hnd) h1

theorem nlist_of_linked (f : Ptr → Ptr) (p : Ptr) (l : List Ptr) (hnd : (p :: l).Nodup)
    (hnull : NULL ∉ p :: l) (hl : Linked f p (l ++ [NULL])) : NList f p (p :: l) := by
  induction l generalizing p with
  | nil => exact ⟨rfl, fun e => hnull (by simp [e]), by simp, hl.1⟩
  | cons q l ih =>
    refine ⟨rfl, fun e => hnull (by simp [e]), (List.nodup_cons.mp hnd).1, ?_⟩
    rw [hl.1]
    exact ih q (List.nodup_cons.mp hnd).2 (fun hm => hnull (List.mem_cons_of_mem _ hm)) hl.2

theorem linked_of_nlist (f : Ptr → Ptr) (a p : Ptr) (l : List Ptr) (hl : NList f a (p :: l)) :
    Linked f p (l ++ [NULL]) := by
  induction l generalizing a p with
  | nil => exact ⟨hl.2.2.2, trivial⟩
  | cons q l ih =>
    have h4 := hl.2.2.2
    exact ⟨h4.1, ih _ q h4⟩

theorem backLinked_append (g : Ptr → Ptr) (a : Ptr) (l1 l2 : List Ptr) :
    BackLinked g a (l1 ++ l2) ↔ BackLinked g a l1 ∧ BackLinked g (l1.getLastD a) l2 := by
  induction l1 generalizing a with
  | nil => simp [BackLinked]
  | cons b l ih =>
    rw [List.cons_append, List.getLastD_cons]
    simp only [BackLinked, ih b, and_assoc]

theorem backLinked_congr (g g2 : Ptr → Ptr) (a : Ptr) (l : List Ptr)
    (h : ∀ x ∈ l, g2 x = g x) (hl : BackLinked g a l) : BackLinked g2 a l := by
  induction l generalizing a with
  | nil => trivial
  | cons b l ih =>
    refine ⟨?_, ih b (fun x hx => h x (List.mem_cons_of_mem _ hx)) hl.2⟩
    rw [h b (List.mem_cons_self _ _)]
    exact hl.1

/-- Backward links along a cycle are forward links along the reversed cycle. -/
theorem backLinked_iff (g : Ptr → Ptr) (a e : Ptr) (l : List Ptr) :
    BackLinked g a (l ++ [e]) ↔ Linked g e (l.reverse ++ [a]) := by
  induction l generalizing a with
  | nil => simp [BackLinked, Linked]
  | cons b l ih =>
    have e1 : (b :: l).reverse ++ [a] = (l.reverse ++ [b]) ++ [a] := by simp
    rw [List.cons_append, e1, linked_append, List.getLastD_concat, ← ih b]
    simp only [BackLinked, Linked, and_true]
    exact and_comm

/-- The loop of `q_sort` that rebuilds the `prev` links. -/
theorem relinkLoop_spec (fuel : Nat) : ∀ (l : List Ptr) (m : Mem) (temp : Ptr),
    Linked m.next temp (l ++ [NULL]) → NULL ∉ l → l.Nodup → l.length < fuel →
    ∃ m2, relinkLoop fuel m temp = some (m2, l.getLastD temp) ∧ m2.next = m.next ∧
      BackLinked m2.prev temp l ∧ (∀ x, x ∉ l → m2.prev x = m.prev x) ∧
      m2.value = m.value ∧ m2.str = m.str ∧ m2.live = m.live := by
  induction fuel with
  | zero => intro l m temp _ _ _ hf; omega
  | succ fuel ih =>
    intro l m temp hl hnull hnd hf
    cases l with
    | nil =>
      have h1 : m.next temp = NULL := hl.1
      exact ⟨m, by simp [relinkLoop, h1], rfl, trivial, fun _ _ => rfl, rfl, rfl, rfl⟩
    | cons b l =>
      have h1 : m.next temp = b := hl.1
      have hb : b ≠ NULL := fun e => hnull (by simp [e])
      obtain ⟨m2, e1, e2, e3, e4, e5, e6, e7⟩ := ih l (setPrev m b temp) b hl.2
        (fun hm => hnull (List.mem_cons_of_mem _ hm)) (List.nodup_cons.mp hnd).2
        (by simpa using hf)
      refine ⟨m2, ?_, e2, ⟨?_, e3⟩, ?_, e5, e6, e7⟩
      · unfold relinkLoop
        rw [h1, if_pos hb]
        show relinkLoop fuel (setPrev m b temp) (m.next temp) = _
        rw [h1, List.getLastD_cons]
        exact e1
      · rw [e4 b (List.nodup_cons.mp hnd).1]
        simp [setPrev]
      · intro x hx
        rw [e4 x (fun hm => hx (List.mem_cons_of_mem _ hm))]
        have : x ≠ b := fun e => hx (by simp [e])
        simp [setPrev, Function.update_noteq this]

theorem getLastD_ne_of_nodup (p : Ptr) (l : List Ptr) (hne : l ≠ []) (hnd : (p :: l).Nodup) :
    l.getLastD p ≠ p := by
  cases l with
  | nil => exact absurd rfl hne
  | cons q t =>
    rw [List.getLastD_cons]
    intro e
    apply (List.nodup_cons.mp hnd).1
    rw [← e]
    exact getLastD_mem t q

/-- `q_sort` on a well-formed queue: it returns, the result is a well-formed
queue of the same nodes in the order `mergesort` leaves them, and the strings
are not touched. -/
theorem q_sort_spec (m : Mem) (head : Ptr) (ps : List Ptr) (fuel : Nat)
    (hq : IsQueue m head ps) (hf : ps.length < fuel) :
    ∃ m2 out, q_sort m head fuel = some m2 ∧ IsQueue m2 head out ∧
      (ps = [] ∧ out = [] ∨ Sorts (valueOf m) ps out) ∧
      (ps.length ≤ 1 → m2 = m) ∧
      m2.value = m.value ∧ m2.str = m.str ∧ m2.live = m.live := by
  have hnx := isQueue_next_head m head ps hq
  have hpv := isQueue_prev_head m head ps hq
  have hq0 := hq
  obtain ⟨hh, hnull, hnd, hn, hp⟩ := hq
  cases ps with
  | nil =>
    refine ⟨m, [], ?_, hq0, Or.inl ⟨rfl, rfl⟩, fun _ => rfl, rfl, rfl, rfl⟩
    simp [q_sort, list_empty, hnx]
  | cons p ps =>
    have hph : p ≠ head := fun e => (List.nodup_cons.mp hnd).1 (by simp [e])
    cases ps with
    | nil =>
      refine ⟨m, [p], ?_, hq0, Or.inr (Sorts.one p), fun _ => rfl, rfl, rfl, rfl⟩
      have h1 : m.next head = p := hnx
      have h2 : m.prev head = p := hpv
      simp [q_sort, list_empty, list_is_singular, h1, h2, hph]
    | cons q t =>
      have h1 : m.next head = p := hnx
      have hndl : (p :: q :: t).Nodup := (List.nodup_cons.mp hnd).2
      obtain ⟨last, hl⟩ : ∃ last, (q :: t).getLastD p = last := ⟨_, rfl⟩
      have h2 : m.prev head = last := by rw [hpv, List.getLastD_cons, hl]
      have hlast : last ≠ p := hl ▸ getLastD_ne_of_nodup p _ (by simp) hndl
      have hheadl : head ∉ p :: q :: t := (List.nodup_cons.mp hnd).1
      -- the cut list
      have hcut : NList (setNext (setNext m last NULL) head NULL).next p (p :: q :: t) := by
        refine nlist_of_linked _ p _ hndl hnull ?_
        refine linked_update _ p _ head NULL (not_mem_dropLast_cycle _ _ _ _ hheadl) ?_
        rw [← hl]
        exact linked_redirect m.next p head NULL _ hndl hn.2
      obtain ⟨m3, h, out, e1, e2, e3, e4, e5⟩ := mergesort_spec fuel _ p _ hcut (by simp) hf
      have hperm := sorts_perm _ _ _ e2
      have hout_null : NULL ∉ out := fun hm => hnull (hperm.subset hm)
      have hout_nd : out.Nodup := hperm.nodup_iff.mpr hndl
      have hhead_out : head ∉ out := fun hm => hheadl (hperm.subset hm)
      have hlen : out.length = (p :: q :: t).length := hperm.length_eq
      -- the sorted list hangs at the sentinel again
      have hlk : Linked (setNext m3 head h).next head (out ++ [NULL]) := by
        cases out with
        | nil => simp at hlen
        | cons o out =>
          have ho : h = o := e3.1
          refine ⟨by simp [setNext, ho], ?_⟩
          refine linked_update _ o _ head h (not_mem_dropLast_cycle _ _ _ _ hhead_out) ?_
          exact linked_of_nlist _ _ _ _ e3
      obtain ⟨m5, r1, r2, r3, r4, r5, r6, r7⟩ := relinkLoop_spec fuel out (setNext m3 head h) head
        hlk hout_null hout_nd (by rw [hlen]; exact hf)
      have hnd2 : (head :: out).Nodup := List.nodup_cons.mpr ⟨hhead_out, hout_nd⟩
      refine ⟨setPrev (setNext m5 (out.getLastD head) head) head (out.getLastD head), out,
        ?_, ⟨hh, hout_null, hnd2, ?_, ?_⟩, Or.inr ?_, fun hl => by simp at hl, ?_, ?_, ?_⟩
      · unfold q_sort
        rw [if_neg (by simp [list_empty, list_is_singular, h1, h2, hph, hh, hlast])]
        simp only [h1, h2]
        rw [e1]
        simp only
        rw [r1]
      · show Linked (Function.update m5.next (out.getLastD head) head) head (out ++ [head])
        rw [r2]
        exact linked_redirect _ head NULL head out hnd2 hlk
      · rw [← backLinked_iff, backLinked_append]
        refine ⟨backLinked_congr _ _ head out (fun x hx => ?_) r3, ?_⟩
        · have : x ≠ head := fun e => hhead_out (e ▸ hx)
          simp [setPrev, setNext, Function.update_noteq this]
        · simp [BackLinked, setPrev, setNext]
      · rw [sameData_valueOf _ _ (sameData_trans _ _ _ (sameData_setNext _ _ _)
          (sameData_setNext _ _ _))] at e2
        exact e2
      · show m5.value = m.value
        rw [r5]; exact e5.2.1
      · show m5.str = m.str
        rw [r6]; exact e5.2.2.1
      · show m5.live = m.live
        rw [r7]; exact e5.2.2.2

/-! ## Frames for well-formed queues, `q_size` and `q_delete_mid` -/

theorem isQueue_congr (m m2 : Mem) (head : Ptr) (ps : List Ptr) (h1 : m2.next = m.next)
    (h2 : m2.prev = m.prev) (hq : IsQueue m head ps) : IsQueue m2 head ps := by
  unfold IsQueue at hq ⊢
  rw [h1, h2]
  exact hq

theorem isQueue_setNext_fresh (m : Mem) (head x v : Ptr) (ps : List Ptr) (hx : x ∉ head :: ps)
    (hq : IsQueue m head ps) : IsQueue (setNext m x v) head ps := by
  obtain ⟨hh, hnull, hnd, hn, hp⟩ := hq
  exact ⟨hh, hnull, hnd, linked_update _ _ _ _ _ (not_mem_dropLast_cycle _ _ _ _ hx) hn, hp⟩

theorem isQueue_setPrev_fresh (m : Mem) (head x v : Ptr) (ps : List Ptr) (hx : x ∉ head :: ps)
    (hq : IsQueue m head ps) : IsQueue (setPrev m x v) head ps := by
  obtain ⟨hh, hnull, hnd, hn, hp⟩ := hq
  refine ⟨hh, hnull, hnd, hn, linked_update _ _ _ _ _ (not_mem_dropLast_cycle _ _ _ _ ?_) hp⟩
  simpa using hx

theorem isQueue_release (m : Mem) (head e : Ptr) (ps : List Ptr) (hq : IsQueue m head ps) :
    IsQueue (q_release_element m e) head ps :=
  isQueue_congr m _ head ps rfl rfl hq

/-- Unlinking a node with `list_del_init` leaves the queue of the other nodes. -/
theorem isQueue_list_del_init (m : Mem) (head p : Ptr) (l1 l2 : List Ptr)
    (hq : IsQueue m head (l1 ++ p :: l2)) : IsQueue (list_del_init m p) head (l1 ++ l2) := by
  have hp : p ∉ head :: (l1 ++ l2) := by
    have hnd := hq.2.2.1
    have h2 := List.nodup_middle.mp (List.nodup_cons.mp hnd).2
    intro hm
    rcases List.mem_cons.mp hm with h1 | h1
    · exact (List.nodup_cons.mp hnd).1 (by rw [← h1]; simp)
    · exact (List.nodup_cons.mp h2).1 h1
  exact isQueue_setPrev_fresh _ head p p _ hp
    (isQueue_setNext_fresh _ head p p _ hp (isQueue_list_del m head p l1 l2 hq))

/-- The counting loop of `q_size` along a run that ends at `stop`. -/
theorem q_size_loop_spec (m : Mem) (stop : Ptr) : ∀ (c : List Ptr) (a : Ptr) (len fuel : Nat),
    Linked m.next a (c ++ [stop]) → stop ∉ c → c.length < fuel →
    q_size_loop m stop fuel (m.next a) len = some (len + c.length) := by
  intro c
  induction c with
  | nil =>
    intro a len fuel hl _ hf
    cases fuel with
    | zero => omega
    | succ fuel => simp [q_size_loop, hl.1]
  | cons b c ih =>
    intro a len fuel hl hs hf
    cases fuel with
    | zero => omega
    | succ fuel =>
      have hb : b ≠ stop := fun e => hs (by simp [e])
      unfold q_size_loop
      rw [hl.1, if_neg hb, ih b (len + 1) fuel hl.2 (fun hm => hs (List.mem_cons_of_mem _ hm))
        (by simpa using hf)]
      simp only [List.length_cons]
      congr 1
      omega

/-- `q_size` counts the elements of a well-formed queue. -/
theorem q_size_spec (m : Mem) (head : Ptr) (ps : List Ptr) (fuel : Nat) (hq : IsQueue m head ps)
    (hf : ps.length < fuel) : q_size m head fuel = some ps.length := by
  obtain ⟨hh, _, hnd, hn, _⟩ := hq
  unfold q_size
  rw [if_neg hh, q_size_loop_spec m head ps head 0 fuel hn (List.nodup_cons.mp hnd).1 hf]
  simp

theorem q_nodes_loop_spec (m : Mem) (stop : Ptr) : ∀ (c : List Ptr) (a : Ptr) (fuel : Nat),
    Linked m.next a (c ++ [stop]) → stop ∉ c → c.length < fuel →
    q_nodes_loop m stop fuel (m.next a) = some c := by
  intro c
  induction c with
  | nil =>
    intro a fuel hl _ hf
    cases fuel with
    | zero => omega
    | succ fuel => simp [q_nodes_loop, hl.1]
  | cons b c ih =>
    intro a fuel hl hs hf
    cases fuel with
    | zero => omega
    | succ fuel =>
      have hb : b ≠ stop := fun e => hs (by simp [e])
      unfold q_nodes_loop
      rw [hl.1, if_neg hb, ih b fuel hl.2 (fun hm => hs (List.mem_cons_of_mem _ hm))
        (by simpa using hf)]
      rfl

/-- A forward traversal of a well-formed queue meets exactly its nodes. -/
theorem q_nodes_spec (m : Mem) (head : Ptr) (ps : List Ptr) (fuel : Nat) (hq : IsQueue m head ps)
    (hf : ps.length < fuel) : q_nodes m head fuel = some ps :=
  q_nodes_loop_spec m head ps head fuel hq.2.2.2.1 (List.nodup_cons.mp hq.2.2.1).1 hf

/-- `q_size` called on the first element counts the other nodes of the circle,
the sentinel included: again the number of elements. -/
theorem q_size_first (m : Mem) (head p : Ptr) (ps : List Ptr) (fuel : Nat)
    (hq : IsQueue m head (p :: ps)) (hf : (p :: ps).length < fuel) :
    q_size m p fuel = some (p :: ps).length := by
  obtain ⟨_, hnull, hnd, hn, _⟩ := hq
  have hp0 : p ≠ NULL := fun e => hnull (by simp [e])
  have hl : Linked m.next p ((ps ++ [head]) ++ [p]) := by
    refine (linked_append _ _ _ _).mpr ⟨hn.2, ?_⟩
    rw [List.getLastD_concat]
    exact ⟨hn.1, trivial⟩
  have hs : p ∉ ps ++ [head] := by
    intro hm
    rcases List.mem_append.mp hm with h1 | h1
    · exact (List.nodup_cons.mp (List.nodup_cons.mp hnd).2).1 h1
    · exact (List.nodup_cons.mp hnd).1 (by simp at h1; simp [h1])
  unfold q_size
  rw [if_neg hp0, q_size_loop_spec m p (ps ++ [head]) p 0 fuel hl hs (by simpa using hf)]
  simp

theorem walk_spec (m : Mem) : ∀ (i : Nat) (a : Ptr) (l : List Ptr),
    Linked m.next a l → i ≤ l.length → walk m i a = (a :: l).getD i NULL := by
  intro i
  induction i with
  | zero => intro a l _ _; rfl
  | succ i ih =>
    intro a l hl hi
    cases l with
    | nil => simp at hi
    | cons b l =>
      unfold walk
      rw [hl.1, ih b l hl.2 (by simpa using hi), List.getD_cons_succ]

theorem split_at_index (l : List Ptr) (i : Nat) (hi : i < l.length) :
    l = l.take i ++ l.getD i NULL :: l.drop (i + 1) := by
  rw [List.getD_eq_getElem l NULL hi, ← List.drop_eq_getElem_cons hi, List.take_append_drop]

/-- `q_delete_mid` on a non-empty well-formed queue. -/
theorem q_delete_mid_spec (m : Mem) (head : Ptr) (ps : List Ptr) (fuel : Nat)
    (hq : IsQueue m head ps) (hne : ps ≠ []) (hf : ps.length < fuel) :
    q_delete_mid m head fuel =
      some (q_release_element (list_del m (ps.getD (ps.length / 2) NULL))
        (ps.getD (ps.length / 2) NULL), true) ∧
    IsQueue (q_release_element (list_del m (ps.getD (ps.length / 2) NULL))
        (ps.getD (ps.length / 2) NULL)) head (ps.eraseIdx (ps.length / 2)) := by
  have hnx := isQueue_next_head m head ps hq
  have hpv := isQueue_prev_head m head ps hq
  have hlen : 0 < ps.length := List.length_pos.mpr hne
  have hidx : ps.length / 2 < ps.length := by omega
  constructor
  · cases ps with
    | nil => exact absurd rfl hne
    | cons p ps =>
      obtain ⟨hh, hnull, hnd, hn, hp⟩ := hq
      have h1 : m.next head = p := hnx
      have hph : p ≠ head := fun e => (List.nodup_cons.mp hnd).1 (by simp [e])
      unfold q_delete_mid
      rw [if_neg (by simp [list_empty, h1, hph, hh])]
      cases ps with
      | nil =>
        have h2 : m.prev head = p := hpv
        rw [if_pos (by simp [list_is_singular, list_empty, h1, h2, hph])]
        simp [h1]
      | cons q t =>
        have h2 : m.prev head ≠ p := by
          rw [hpv, List.getLastD_cons]
          exact getLastD_ne_of_nodup p _ (by simp) (List.nodup_cons.mp hnd).2
        rw [if_neg (by simp [list_is_singular, list_empty, h1, h2, hph])]
        simp only [h1]
        rw [q_size_first m head p (q :: t) fuel ⟨hh, hnull, hnd, hn, hp⟩ hf]
        simp only
        have hi : (if (p :: q :: t).length % 2 = 0 then (p :: q :: t).length / 2
            else ((p :: q :: t).length + 1) / 2 - 1) = (p :: q :: t).length / 2 := by
          split_ifs <;> omega
        rw [hi, walk_spec m _ p ((q :: t) ++ [head]) hn.2 (by simp; omega)]
        rw [← List.cons_append, List.getD_append _ _ _ _ hidx]
  · have hsplit := split_at_index ps (ps.length / 2) hidx
    rw [List.eraseIdx_eq_take_drop_succ]
    refine isQueue_release _ head _ _ (isQueue_list_del m head _ _ _ ?_)
    rw [← hsplit]
    exact hq

/-! ## `q_delete_dup` -/

/-- The loop of `q_delete_dup` started at the node `p` of a well-formed queue. -/
theorem q_delete_dup_loop_spec (head : Ptr) : ∀ (l2 l1 : List Ptr) (m : Mem) (p : Ptr)
    (fuel : Nat), IsQueue m head (l1 ++ p :: l2) → l2.length < fuel →
    ∃ m2, q_delete_dup_loop head fuel m p = some m2 ∧
      IsQueue m2 head (l1 ++ dropIfNextEqual (valueOf m) (p :: l2)) ∧
      m2.value = m.value ∧ m2.str = m.str := by
  intro l2
  induction l2 with
  | nil =>
    intro l1 m p fuel hq hf
    have hnx : m.next p = head := isQueue_next_read m head p l1 [] hq
    have hph : p ≠ head := fun e => (List.nodup_cons.mp hq.2.2.1).1 (by simp [e])
    cases fuel with
    | zero => omega
    | succ fuel =>
      exact ⟨m, by simp [q_delete_dup_loop, hph, hnx], by simpa [dropIfNextEqual] using hq,
        rfl, rfl⟩
  | cons q l3 ih =>
    intro l1 m p fuel hq hf
    have hnx : m.next p = q := isQueue_next_read m head p l1 (q :: l3) hq
    have hph : p ≠ head := fun e => (List.nodup_cons.mp hq.2.2.1).1 (by simp [e])
    have hqh : q ≠ head := fun e => (List.nodup_cons.mp hq.2.2.1).1 (by simp [e])
    cases fuel with
    | zero => omega
    | succ fuel =>
      unfold q_delete_dup_loop
      rw [if_neg hph]
      simp only [hnx]
      rw [if_neg hqh]
      by_cases heq : strcmp (valueOf m p) (valueOf m q) = 0
      · rw [if_pos heq]
        obtain ⟨m2, e1, e2, e3, e4⟩ := ih l1 (q_release_element (list_del_init m p) p) q fuel
          (isQueue_release _ head p _ (isQueue_list_del_init m head p l1 (q :: l3) hq))
          (by simpa using hf)
        refine ⟨m2, e1, ?_, e3, e4⟩
        rw [dropIfNextEqual, if_pos heq]
        exact e2
      · rw [if_neg heq]
        obtain ⟨m2, e1, e2, e3, e4⟩ := ih (l1 ++ [p]) m q fuel (by simpa using hq)
          (by simpa using hf)
        refine ⟨m2, e1, ?_, e3, e4⟩
        rw [dropIfNextEqual, if_neg heq]
        simpa using e2

/-- `q_delete_dup` on a non-empty well-formed queue. -/
theorem q_delete_dup_spec (m : Mem) (head : Ptr) (ps : List Ptr) (fuel : Nat)
    (hq : IsQueue m head ps) (hne : ps ≠ []) (hf : ps.length ≤ fuel) :
    ∃ m2, q_delete_dup m head fuel = some (m2, true) ∧
      IsQueue m2 head (dropIfNextEqual (valueOf m) ps) ∧
      m2.value = m.value ∧ m2.str = m.str := by
  have hnx := isQueue_next_head m head ps hq
  cases ps with
  | nil => exact absurd rfl hne
  | cons p ps =>
    have h1 : m.next head = p := hnx
    have hph : p ≠ head := fun e => (List.nodup_cons.mp hq.2.2.1).1 (by simp [e])
    obtain ⟨m2, e1, e2, e3, e4⟩ := q_delete_dup_loop_spec head ps [] m p fuel hq
      (by simpa using hf)
    refine ⟨m2, ?_, e2, e3, e4⟩
    unfold q_delete_dup
    rw [if_neg (by simp [list_empty, h1, hph, hq.1]), h1, e1]
    rfl

/-! ## `q_swap` -/

/-- Exchanging two neighbours `a`, `b` of a run by three stores. -/
theorem linked_swap (f : Ptr → Ptr) (h e a b : Ptr) (l1 l2 : List Ptr)
    (hnd : (h :: (l1 ++ a :: b :: l2)).Nodup)
    (hl : Linked f h (l1 ++ a :: b :: (l2 ++ [e]))) :
    Linked (Function.update (Function.update (Function.update f a (l2.headD e))
      (l1.getLastD h) b) b a) h (l1 ++ b :: a :: (l2 ++ [e])) := by
  obtain ⟨h1, _, _, h4⟩ := (linked_append f h l1 _).mp hl
  have hnd1 : (h :: l1).Nodup := by
    rw [← List.cons_append] at hnd
    exact (List.nodup_append.mp hnd).1
  have hx : l1.getLastD h ∈ h :: l1 := getLastD_mem l1 h
  have hdisj : ∀ z ∈ h :: l1, z ∉ a :: b :: l2 := by
    rw [← List.cons_append] at hnd
    exact fun z hz hz2 => (List.nodup_append.mp hnd).2.2 hz hz2
  have hnd2 : (a :: b :: l2).Nodup := by
    rw [← List.cons_append] at hnd
    exact (List.nodup_append.mp hnd).2.1
  have hab : a ≠ b := fun e1 => (List.nodup_cons.mp hnd2).1 (by simp [e1])
  have ha2 : a ∉ l2 := fun hm => (List.nodup_cons.mp hnd2).1 (List.mem_cons_of_mem _ hm)
  have hb2 : b ∉ l2 := (List.nodup_cons.mp (List.nodup_cons.mp hnd2).2).1
  have hxa : l1.getLastD h ≠ a := fun e1 =>
    hdisj _ hx (by rw [e1]; exact List.mem_cons_self _ _)
  have hxb : l1.getLastD h ≠ b := fun e1 =>
    hdisj _ hx (by rw [e1]; exact List.mem_cons_of_mem _ (List.mem_cons_self _ _))
  have hx2 : l1.getLastD h ∉ l2 := fun hm =>
    hdisj _ hx (List.mem_cons_of_mem _ (List.mem_cons_of_mem _ hm))
  refine (linked_append _ h l1 _).mpr ⟨?_, ?_, ?_, ?_⟩
  · refine linked_update _ h l1 _ _ (fun hm => ?_) ?_
    · exact hdisj b (List.mem_of_mem_dropLast hm) (by simp)
    · refine linked_update _ h l1 _ _ (getLastD_not_mem_dropLast l1 h hnd1) ?_
      refine linked_update f h l1 _ _ (fun hm => ?_) h1
      exact hdisj a (List.mem_of_mem_dropLast hm) (by simp)
  · rw [Function.update_noteq hxb, Function.update_same]
  · rw [Function.update_same]
  · cases l2 with
    | nil =>
      refine ⟨?_, trivial⟩
      rw [Function.update_noteq hab, Function.update_noteq hxa.symm, Function.update_same]
      rfl
    | cons y l2 =>
      refine ⟨?_, ?_⟩
      · rw [Function.update_noteq hab, Function.update_noteq hxa.symm, Function.update_same]
        rfl
      · refine linked_update _ y _ _ _ (not_mem_dropLast_cycle _ _ _ _ hb2) ?_
        refine linked_update _ y _ _ _ (not_mem_dropLast_cycle _ _ _ _ hx2) ?_
        exact linked_update f y _ _ _ (not_mem_dropLast_cycle _ _ _ _ ha2) h4.2

/-- The links after the six stores of `swapStep` on two neighbours of a queue. -/
theorem swapStep_fields (m : Mem) (head a b : Ptr) (l1 l2 : List Ptr)
    (hq : IsQueue m head (l1 ++ a :: b :: l2)) :
    (swapStep m a b).next = Function.update (Function.update (Function.update m.next a
      (l2.headD head)) (l1.getLastD head) b) b a ∧
    (swapStep m a b).prev = Function.update (Function.update (Function.update m.prev
      (l2.headD head) a) b (l1.getLastD head)) a b := by
  have hb : m.next b = l2.headD head := by
    have := isQueue_next_read m head b (l1 ++ [a]) l2 (by simpa using hq)
    exact this
  have ha : m.prev a = l1.getLastD head := isQueue_prev_read m head a l1 (b :: l2) hq
  have hnd := hq.2.2.1
  have hya : l2.headD head ≠ a := by
    intro e
    have hm := headD_mem l2 head
    rw [e] at hm
    rw [List.nodup_cons, List.nodup_append] at hnd
    rcases List.mem_append.mp hm with h1 | h1
    · exact (List.nodup_cons.mp hnd.2.2.1).1 (List.mem_cons_of_mem _ h1)
    · exact hnd.1 (by simp at h1; simp [h1])
  have e1 : (setNext m a (m.next b)).next a = m.next b := by simp [setNext]
  constructor
  · simp only [swapStep, setNext, setPrev, Function.update_same, hb, ha,
      Function.update_noteq hya.symm]
  · simp only [swapStep, setNext, setPrev, Function.update_same, hb, ha,
      Function.update_noteq hya.symm]

/-- The six stores of `swapStep` exchange two neighbours of a queue. -/
theorem isQueue_swapStep (m : Mem) (head a b : Ptr) (l1 l2 : List Ptr)
    (hq : IsQueue m head (l1 ++ a :: b :: l2)) :
    IsQueue (swapStep m a b) head (l1 ++ b :: a :: l2) ∧
    (swapStep m a b).next a = l2.headD head := by
  obtain ⟨e1, e2⟩ := swapStep_fields m head a b l1 l2 hq
  obtain ⟨hh, hnull, hnd, hn, hp⟩ := hq
  have hnd2 : (head :: (l1 ++ b :: a :: l2)).Nodup := by
    refine (List.Perm.nodup_iff ?_).mp hnd
    exact List.Perm.cons _ (List.Perm.append_left _ (List.Perm.swap _ _ _))
  have hq2 : IsQueue (swapStep m a b) head (l1 ++ b :: a :: l2) := by
    refine ⟨hh, fun hm => hnull (by simpa [or_comm, or_left_comm] using hm), hnd2, ?_, ?_⟩
    · rw [e1]
      have := linked_swap m.next head head a b l1 l2 hnd (by simpa using hn)
      simpa using this
    · rw [e2]
      have hnd3 : (head :: (l2.reverse ++ b :: a :: l1.reverse)).Nodup := by
        have := nodup_cons_reverse head _ hnd
        simpa using this
      have hyb : l2.headD head ≠ b := by
        intro e
        have hm := headD_mem l2 head
        rw [e] at hm
        rw [List.nodup_cons, List.nodup_append] at hnd
        rcases List.mem_append.mp hm with h1 | h1
        · exact (List.nodup_cons.mp (List.nodup_cons.mp hnd.2.2.1).2).1 h1
        · exact hnd.1 (by simp at h1; simp [h1])
      have := linked_swap m.prev head head b a l2.reverse l1.reverse hnd3 (by simpa using hp)
      rw [getLastD_reverse, headD_reverse, Function.update_comm hyb.symm] at this
      simpa using this
  refine ⟨hq2, ?_⟩
  have := isQueue_next_read _ head a (l1 ++ [b]) l2 (by simpa using hq2)
  exact this

/-- The loop of `q_swap` started at two neighbours of a well-formed queue. -/
theorem q_swap_loop_spec (head : Ptr) (fuel : Nat) : ∀ (l2 l1 : List Ptr) (m : Mem) (a b : Ptr),
    IsQueue m head (l1 ++ a :: b :: l2) → l2.length < fuel →
    ∃ m2, q_swap_loop head fuel m a b = some m2 ∧
      IsQueue m2 head (l1 ++ b :: a :: swapPairs l2) ∧
      m2.value = m.value ∧ m2.str = m.str ∧ m2.live = m.live := by
  induction fuel with
  | zero => intro l2 l1 m a b _ hf; omega
  | succ fuel ih =>
    intro l2 l1 m a b hq hf
    obtain ⟨hq2, hodd⟩ := isQueue_swapStep m head a b l1 l2 hq
    unfold q_swap_loop
    simp only [hodd]
    cases l2 with
    | nil => exact ⟨swapStep m a b, by simp, hq2, rfl, rfl, rfl⟩
    | cons c l3 =>
      have hch : c ≠ head := fun e => (List.nodup_cons.mp hq.2.2.1).1 (by simp [e])
      cases l3 with
      | nil =>
        have hev : (swapStep m a b).next c = head :=
          isQueue_next_read _ head c (l1 ++ [b, a]) [] (by simpa using hq2)
        exact ⟨swapStep m a b, by simp [hev], hq2, rfl, rfl, rfl⟩
      | cons d l4 =>
        have hdh : d ≠ head := fun e => (List.nodup_cons.mp hq.2.2.1).1 (by simp [e])
        have hev : (swapStep m a b).next c = d :=
          isQueue_next_read _ head c (l1 ++ [b, a]) (d :: l4) (by simpa using hq2)
        obtain ⟨m2, e1, e2, e3, e4, e5⟩ := ih l4 (l1 ++ [b, a]) (swapStep m a b) c d
          (by simpa using hq2) (by simp at hf; omega)
        refine ⟨m2, ?_, by simpa [swapPairs] using e2, e3, e4, e5⟩
        simp only [List.headD_cons, hev]
        rw [if_neg (by simp [hch, hdh])]
        exact e1

theorem mem_ext (m m2 : Mem) (h1 : m2.next = m.next) (h2 : m2.prev = m.prev)
    (h3 : m2.value = m.value) (h4 : m2.str = m.str) (h5 : m2.live = m.live) : m2 = m := by
  cases m; cases m2; simp_all

/-- On an empty queue the six stores write back what is there already. -/
theorem swapStep_empty (m : Mem) (head : Ptr) (h1 : m.next head = head)
    (h2 : m.prev head = head) : swapStep m head head = m := by
  refine mem_ext _ _ ?_ ?_ rfl rfl rfl
  · funext x
    by_cases hx : x = head
    · subst hx; simp [swapStep, setNext, setPrev, h1, h2]
    · simp [swapStep, setNext, setPrev, h1, h2, Function.update_noteq hx]
  · funext x
    by_cases hx : x = head
    · subst hx; simp [swapStep, setNext, setPrev, h1, h2]
    · simp [swapStep, setNext, setPrev, h1, h2, Function.update_noteq hx]

/-- On a one-element queue the six stores, run with `even` at the sentinel,
leave every link as it was. -/
theorem swapStep_single (m : Mem) (head a : Ptr) (hq : IsQueue m head [a]) :
    swapStep m a head = m := by
  have h1 : m.next head = a := isQueue_next_head m head [a] hq
  have h2 : m.prev head = a := isQueue_prev_head m head [a] hq
  have h3 : m.next a = head := isQueue_next_read m head a [] [] hq
  have h4 : m.prev a = head := isQueue_prev_read m head a [] [] hq
  have hah : a ≠ head := fun e => (List.nodup_cons.mp hq.2.2.1).1 (by simp [e])
  refine mem_ext _ _ ?_ ?_ rfl rfl rfl
  · funext x
    by_cases hx : x = head
    · subst hx; simp [swapStep, setNext, setPrev, h1, h2, h3, h4]
    · by_cases hxa : x = a
      · subst hxa; simp [swapStep, setNext, setPrev, h1, h2, h3, h4, Function.update_noteq hx]
      · simp [swapStep, setNext, setPrev, h1, h2, h3, h4, Function.update_noteq hx,
          Function.update_noteq hxa]
  · funext x
    by_cases hx : x = head
    · subst hx
      simp [swapStep, setNext, setPrev, h1, h2, h3, h4, Function.update_noteq hah.symm]
    · by_cases hxa : x = a
      · subst hxa; simp [swapStep, setNext, setPrev, h1, h2, h3, h4]
      · simp [swapStep, setNext, setPrev, h1, h2, h3, h4, Function.update_noteq hx,
          Function.update_noteq hxa]

/-- `q_swap` on a well-formed queue. -/
theorem q_swap_spec (m : Mem) (head : Ptr) (ps : List Ptr) (fuel : Nat)
    (hq : IsQueue m head ps) (hf : ps.length < fuel) :
    ∃ m2, q_swap m head fuel = some m2 ∧ IsQueue m2 head (swapPairs ps) ∧
      (ps.length ≤ 1 → m2 = m) ∧ m2.value = m.value ∧ m2.str = m.str ∧ m2.live = m.live := by
  have hnx := isQueue_next_head m head ps hq
  have hpv := isQueue_prev_head m head ps hq
  have hh := hq.1
  cases fuel with
  | zero => omega
  | succ fuel =>
    cases ps with
    | nil =>
      have h1 : m.next head = head := hnx
      refine ⟨m, ?_, hq, fun _ => rfl, rfl, rfl, rfl⟩
      unfold q_swap
      rw [if_neg hh]
      simp only [h1]
      unfold q_swap_loop
      simp only [swapStep_empty m head h1 hpv, h1, true_or, if_true]
    | cons a ps =>
      have h1 : m.next head = a := hnx
      cases ps with
      | nil =>
        have h3 : m.next a = head := isQueue_next_read m head a [] [] hq
        refine ⟨m, ?_, hq, fun _ => rfl, rfl, rfl, rfl⟩
        unfold q_swap
        rw [if_neg hh]
        simp only [h1, h3]
        unfold q_swap_loop
        simp only [swapStep_single m head a hq, h3, true_or, if_true]
      | cons b l =>
        have h3 : m.next a = b := isQueue_next_read m head a [] (b :: l) hq
        obtain ⟨m2, e1, e2, e3, e4, e5⟩ := q_swap_loop_spec head (fuel + 1) l [] m a b hq
          (by simp at hf; omega)
        refine ⟨m2, ?_, e2, fun hl => by simp at hl, e3, e4, e5⟩
        unfold q_swap
        rw [if_neg hh]
        simp only [h1, h3]
        exact e1

theorem swapPairs_length : ∀ l : List Ptr, (swapPairs l).length = l.length
  | [] => rfl
  | [_] => rfl
  | _ :: _ :: l => by simp [swapPairs, swapPairs_length l]

theorem swapPairs_getD : ∀ (l : List Ptr) (i : Nat), 2 * i + 1 < l.length →
    (swapPairs l).getD (2 * i) NULL = l.getD (2 * i + 1) NULL ∧
    (swapPairs l).getD (2 * i + 1) NULL = l.getD (2 * i) NULL
  | [], i, h => by simp at h
  | [_], i, h => by simp at h
  | a :: b :: l, 0, _ => by simp [swapPairs]
  | a :: b :: l, i + 1, h => by
    have ih := swapPairs_getD l i (by simp at h; omega)
    rw [show 2 * (i + 1) = 2 * i + 1 + 1 by ring]
    simp only [swapPairs, List.getD_cons_succ]
    exact ih

theorem swapPairs_last : ∀ l : List Ptr, l.length % 2 = 1 →
    (swapPairs l).getD (l.length - 1) NULL = l.getD (l.length - 1) NULL
  | [], h => by simp at h
  | [_], _ => rfl
  | a :: b :: l, h => by
    have hl : l.length % 2 = 1 := by simp at h; omega
    have ih := swapPairs_last l hl
    have e : (a :: b :: l).length - 1 = (l.length - 1) + 1 + 1 := by simp; omega
    rw [e]
    simp only [swapPairs, List.getD_cons_succ]
    exact ih

/-! ## `q_reverse` -/

/-- The loop of `q_reverse`: when the nodes `l1` have been passed, exactly
their two links are exchanged; at the end every element has them exchanged. -/
theorem q_reverse_loop_spec (m0 : Mem) (head : Ptr) (ps : List Ptr) (hq : IsQueue m0 head ps)
    (fuel : Nat) : ∀ (l2 l1 : List Ptr) (m : Mem), l1 ++ l2 = ps → l2.length < fuel →
    (∀ x, m.next x = if x ∈ l1 then m0.prev x else m0.next x) →
    (∀ x, m.prev x = if x ∈ l1 then m0.next x else m0.prev x) →
    m.value = m0.value → m.str = m0.str → m.live = m0.live →
    ∃ m2, q_reverse_loop head fuel m (l2.headD head) = some m2 ∧
      (∀ x, m2.next x = if x ∈ ps then m0.prev x else m0.next x) ∧
      (∀ x, m2.prev x = if x ∈ ps then m0.next x else m0.prev x) ∧
      m2.value = m0.value ∧ m2.str = m0.str ∧ m2.live = m0.live := by
  induction fuel with
  | zero => intro l2 l1 m _ hf; omega
  | succ fuel ih =>
    intro l2 l1 m hps hf hnext hprev hv hs hlv
    cases l2 with
    | nil =>
      rw [List.append_nil] at hps
      subst hps
      exact ⟨m, by simp [q_reverse_loop], hnext, hprev, hv, hs, hlv⟩
    | cons q l3 =>
      subst hps
      have hnd := hq.2.2.1
      have hqh : q ≠ head := fun e => (List.nodup_cons.mp hnd).1 (by simp [e])
      have hq1 : q ∉ l1 := by
        have := List.nodup_middle.mp (List.nodup_cons.mp hnd).2
        exact fun hm => (List.nodup_cons.mp this).1 (List.mem_append_left _ hm)
      have e1 : m.next q = m0.next q := by rw [hnext q, if_neg hq1]
      have e2 : m.prev q = m0.prev q := by rw [hprev q, if_neg hq1]
      have e3 : m0.next q = l3.headD head := isQueue_next_read m0 head q l1 l3 hq
      obtain ⟨m2, r1, r2⟩ := ih l3 (l1 ++ [q]) (setPrev (setNext m q (m.prev q)) q (m.next q))
        (by simp) (by simpa using hf)
        (by intro x
            by_cases hx : x = q
            · subst hx; simp [setNext, setPrev, e2]
            · simp [setNext, setPrev, Function.update_noteq hx, hnext x, hx])
        (by intro x
            by_cases hx : x = q
            · subst hx; simp [setNext, setPrev, e1]
            · simp [setNext, setPrev, Function.update_noteq hx, hprev x, hx])
        hv hs hlv
      refine ⟨m2, ?_, r2⟩
      unfold q_reverse_loop
      rw [List.headD_cons, if_neg hqh]
      have e4 : (setPrev (setNext m q (m.prev q)) q (m.next q)).prev q = l3.headD head := by
        simp [setPrev, e1, e3]
      simp only [e4]
      exact r1

/-- `q_reverse` on a well-formed queue. -/
theorem q_reverse_spec (m : Mem) (head : Ptr) (ps : List Ptr) (fuel : Nat)
    (hq : IsQueue m head ps) (hf : ps.length < fuel) :
    ∃ m2, q_reverse m head fuel = some m2 ∧ IsQueue m2 head ps.reverse ∧
      (ps = [] → m2 = m) ∧ m2.value = m.value ∧ m2.str = m.str ∧ m2.live = m.live := by
  have hnx := isQueue_next_head m head ps hq
  have hq0 := hq
  obtain ⟨hh, hnull, hnd, hn, hp⟩ := hq
  cases ps with
  | nil =>
    have h1 : m.next head = head := hnx
    exact ⟨m, by simp [q_reverse, list_empty, h1], hq0, fun _ => rfl, rfl, rfl, rfl⟩
  | cons p ps =>
    have h1 : m.next head = p := hnx
    have hph : p ≠ head := fun e => (List.nodup_cons.mp hnd).1 (by simp [e])
    obtain ⟨m2, r1, r2, r3, r4, r5, r6⟩ := q_reverse_loop_spec m head (p :: ps) hq0 fuel
      (p :: ps) [] m rfl hf (by simp) (by simp) rfl rfl rfl
    have hhead : head ∉ p :: ps := (List.nodup_cons.mp hnd).1
    refine ⟨setPrev (setNext m2 head (m2.prev head)) head (m2.next head), ?_,
      ⟨hh, fun hm => hnull (List.mem_reverse.mp hm), nodup_cons_reverse head _ hnd, ?_, ?_⟩,
      fun e => by simp at e, r4, r5, r6⟩
    · unfold q_reverse
      rw [if_neg (by simp [list_empty, h1, hph, hh]), h1]
      rw [List.headD_cons] at r1
      rw [r1]
    · refine linked_congr m.prev _ head _ (fun x hx => ?_) hp
      rw [dropLast_cycle] at hx
      show Function.update m2.next head (m2.prev head) x = m.prev x
      by_cases hxh : x = head
      · subst hxh
        rw [Function.update_same, r3 x, if_neg hhead]
      · have hxm : x ∈ p :: ps := by
          rcases List.mem_cons.mp hx with h2 | h2
          · exact absurd h2 hxh
          · exact List.mem_reverse.mp h2
        rw [Function.update_noteq hxh, r2 x, if_pos hxm]
    · rw [List.reverse_reverse]
      refine linked_congr m.next _ head _ (fun x hx => ?_) hn
      rw [dropLast_cycle] at hx
      show Function.update m2.prev head (m2.next head) x = m.next x
      by_cases hxh : x = head
      · subst hxh
        rw [Function.update_same, r2 x, if_neg hhead]
      · have hxm : x ∈ p :: ps := by
          rcases List.mem_cons.mp hx with h2 | h2
          · exact absurd h2 hxh
          · exact h2
        rw [Function.update_noteq hxh, r3 x, if_pos hxm]

/-! ## Strings and the two inserts -/

/-- The counting loop of the inserts returns `strlen s` as long as the `int`
can hold it. -/
theorem charsizeLoop_eq (s : List Nat) (k : Nat) (h : k + strlen s ≤ INT_MAX) :
    charsizeLoop s k = some (k + strlen s) := by
  induction s generalizing k with
  | nil => simp [charsizeLoop, strlen]
  | cons c cs ih =>
    by_cases hc : c = 0
    · simp [charsizeLoop, strlen, hc]
    · simp only [strlen, hc, if_false] at h
      simp only [charsizeLoop, strlen, hc, ne_eq, not_false_eq_true, if_true, if_false]
      rw [if_pos (by omega), ih (k + 1) (by omega)]
      congr 1
      omega

/-- The counting loop of the inserts has no result on a string the `int`
cannot count. -/
theorem charsizeLoop_overflow (s : List Nat) (k : Nat) (h : INT_MAX < k + strlen s)
    (hk : k ≤ INT_MAX) : charsizeLoop s k = none := by
  induction s generalizing k with
  | nil => simp [strlen] at h; omega
  | cons c cs ih =>
    by_cases hc : c = 0
    · simp [strlen, hc] at h; omega
    · simp only [strlen, hc, if_false] at h
      simp only [charsizeLoop, hc, ne_eq, not_false_eq_true, if_true]
      by_cases hlt : k < INT_MAX
      · rw [if_pos hlt]
        exact ih (k + 1) (by omega) (by omega)
      · rw [if_neg hlt]

theorem cstr_length (s : List Nat) : (cstr s).length = strlen s := by
  induction s with
  | nil => rfl
  | cons c cs ih =>
    by_cases h : c = 0
    · simp [cstr, strlen, h]
    · simp [cstr, strlen, h, ih]

theorem cstr_getD (s : List Nat) (i : Nat) (h : i < strlen s) :
    s.getD i 0 = (cstr s).getD i 0 := by
  induction s generalizing i with
  | nil => simp [strlen] at h
  | cons c cs ih =>
    by_cases hc : c = 0
    · simp [strlen, hc] at h
    · cases i with
      | zero => simp [cstr, hc]
      | succ i =>
        simp only [strlen, hc, if_false] at h
        simp only [cstr, hc, if_false, List.getD_cons_succ]
        exact ih i (by omega)

theorem cstr_not_mem_zero (s : List Nat) : 0 ∉ cstr s := by
  induction s with
  | nil => simp [cstr]
  | cons c cs ih =>
    by_cases hc : c = 0
    · simp [cstr, hc]
    · simp only [cstr, hc, if_false, List.mem_cons, not_or]
      exact ⟨fun e => hc e.symm, ih⟩

theorem cstr_append_zero (pre rest : List Nat) (h : 0 ∉ pre) : cstr (pre ++ 0 :: rest) = pre := by
  induction pre with
  | nil => simp [cstr]
  | cons c cs ih =>
    have hc : c ≠ 0 := fun e => h (by simp [e])
    simp only [List.cons_append, cstr, hc, if_false]
    exact congrArg _ (ih (fun hm => h (List.mem_cons_of_mem _ hm)))

theorem blockOf_length (b : Buf) (n : Nat) : (blockOf b n).length = n := by
  simp [blockOf]

theorem blockOf_getElem (b : Buf) (n i : Nat) (h : i < (blockOf b n).length) :
    (blockOf b n)[i] = b i := by
  simp [blockOf]

/-- The block filled by `strncpy(q->value, s, charsize); q->value[charsize] = 0`
holds the bytes of `s` before its NUL, then a NUL. -/
theorem copy_block (s : List Nat) :
    blockOf (Function.update (strncpy (fun _ => 0) s (strlen s)) (strlen s) 0)
      (strlen s + 1) = cstr s ++ [0] := by
  refine List.ext_getElem (by simp [blockOf, cstr_length]) (fun i h1 h2 => ?_)
  rw [blockOf_getElem]
  have hi : i < strlen s + 1 := by simpa [blockOf] using h1
  by_cases hlt : i < strlen s
  · have hne : i ≠ strlen s := by omega
    rw [Function.update_noteq hne, List.getElem_append_left (by rw [cstr_length]; exact hlt)]
    simp only [strncpy, hlt, if_true]
    rw [cstr_getD s i hlt, List.getD_eq_getElem]
  · have he : i = strlen s := by omega
    subst he
    rw [Function.update_same, List.getElem_append_right (by rw [cstr_length])]
    simp [cstr_length]

/-- The memory after `q_insert_head` when both allocations succeed. -/
theorem q_insert_head_spec (m : Mem) (head : Ptr) (ps : List Ptr) (s : List Nat) (q v : Ptr)
    (hq : IsQueue m head ps) (hq0 : q ≠ NULL) (hv0 : v ≠ NULL) (hfresh : q ∉ head :: ps)
    (hs : strlen s < INT_MAX) :
    ∃ m2, q_insert_head m head s q v = some (m2, true) ∧ IsQueue m2 head (q :: ps) ∧
      m2.value = Function.update m.value q v ∧
      m2.str = Function.update m.str v (cstr s ++ [0]) ∧
      m2.live = Function.update (Function.update m.live q true) v true := by
  have hc : charsizeLoop s 0 = some (strlen s) := by
    rw [charsizeLoop_eq s 0 (by omega), Nat.zero_add]
  refine ⟨list_add (setStr (setLive (setValue (setLive m q) q v) v) v (cstr s ++ [0])) q head,
    ?_, ?_, rfl, rfl, rfl⟩
  · simp only [q_insert_head, hq.1, hq0, hv0, hc, hs, if_false, if_true, copy_block]
  · exact isQueue_list_add _ head q ps (isQueue_congr m _ head ps rfl rfl hq) hq0 hfresh

/-- The memory after `q_insert_tail` when both allocations succeed. -/
theorem q_insert_tail_spec (m : Mem) (head : Ptr) (ps : List Ptr) (s : List Nat) (q v : Ptr)
    (hq : IsQueue m head ps) (hq0 : q ≠ NULL) (hv0 : v ≠ NULL) (hfresh : q ∉ head :: ps)
    (hs : strlen s < INT_MAX) :
    ∃ m2, q_insert_tail m head s q v = some (m2, true) ∧ IsQueue m2 head (ps ++ [q]) ∧
      m2.value = Function.update m.value q v ∧
      m2.str = Function.update m.str v (cstr s ++ [0]) ∧
      m2.live = Function.update (Function.update m.live q true) v true := by
  have hc : charsizeLoop s 0 = some (strlen s) := by
    rw [charsizeLoop_eq s 0 (by omega), Nat.zero_add]
  refine ⟨list_add_tail (setStr (setLive (setValue (setLive m q) q v) v) v (cstr s ++ [0])) q head,
    ?_, ?_, rfl, rfl, rfl⟩
  · simp only [q_insert_tail, hq.1, hq0, hv0, hc, hs, if_false, if_true, copy_block]
  · exact isQueue_list_add_tail _ head q ps (isQueue_congr m _ head ps rfl rfl hq) hq0 hfresh

/-- `q_insert_head` when the second allocation fails. -/
theorem q_insert_head_fail (m : Mem) (head : Ptr) (s : List Nat) (q : Ptr) (hh : head ≠ NULL)
    (hq0 : q ≠ NULL) (hs : strlen s < INT_MAX) :
    q_insert_head m head s q NULL = some (free (setLive m q) q, false) := by
  have hc : charsizeLoop s 0 = some (strlen s) := by
    rw [charsizeLoop_eq s 0 (by omega), Nat.zero_add]
  simp only [q_insert_head, hh, hq0, hc, hs, if_false, if_true]

/-- `q_insert_tail` when the second allocation fails. -/
theorem q_insert_tail_fail (m : Mem) (head : Ptr) (s : List Nat) (q : Ptr) (hh : head ≠ NULL)
    (hq0 : q ≠ NULL) (hs : strlen s < INT_MAX) :
    q_insert_tail m head s q NULL = some (free (setLive m q) q, false) := by
  have hc : charsizeLoop s 0 = some (strlen s) := by
    rw [charsizeLoop_eq s 0 (by omega), Nat.zero_add]
  simp only [q_insert_tail, hh, hq0, hc, hs, if_false, if_true]

/-- The inserts have no result on a string of `INT_MAX` or more bytes. -/
theorem q_insert_overflow (m : Mem) (head : Ptr) (s : List Nat) (q v : Ptr) (hh : head ≠ NULL)
    (hq0 : q ≠ NULL) (hs : INT_MAX ≤ strlen s) :
    q_insert_head m head s q v = none ∧ q_insert_tail m head s q v = none := by
  rcases Nat.eq_or_lt_of_le hs with e | hlt
  · have hc : charsizeLoop s 0 = some INT_MAX := by
      rw [charsizeLoop_eq s 0 (by omega), Nat.zero_add, e]
    simp [q_insert_head, q_insert_tail, hh, hq0, hc]
  · have hc : charsizeLoop s 0 = none :=
      charsizeLoop_overflow s 0 (by omega) (Nat.zero_le _)
    simp [q_insert_head, q_insert_tail, hh, hq0, hc]

/-- The strings of the old elements after an insert with fresh blocks. -/
theorem values_after_insert (m m2 : Mem) (ps : List Ptr) (q v : Ptr) (bs : List Nat)
    (h1 : m2.value = Function.update m.value q v) (h2 : m2.str = Function.update m.str v bs)
    (hq : q ∉ ps) (hv : ∀ p ∈ ps, m.value p ≠ v) :
    valueOf m2 q = bs ∧ values m2 ps = values m ps := by
  constructor
  · simp [valueOf, h1, h2]
  · refine List.map_congr_left (fun p hp => ?_)
    have hpq : p ≠ q := fun e => hq (e ▸ hp)
    simp [valueOf, h1, h2, Function.update_noteq hpq, Function.update_noteq (hv p hp)]

/-! ## The two removals -/

/-- `q_remove_head` on a non-empty well-formed queue with a buffer. -/
theorem q_remove_head_spec (m : Mem) (head p : Ptr) (l : List Ptr) (b : Buf) (bufsize : Nat)
    (hq : IsQueue m head (p :: l)) :
    q_remove_head m head (some b) bufsize =
      if sizeSub1 bufsize < bufsize % 2 ^ 64 then
        some ⟨list_del_init m p, some (copyOut b (valueOf m p) bufsize), p⟩
      else none := by
  have h1 : m.next head = p := isQueue_next_head m head (p :: l) hq
  have hph : p ≠ head := fun e => (List.nodup_cons.mp hq.2.2.1).1 (by simp [e])
  unfold q_remove_head
  rw [if_neg (by simp [list_empty, h1, hph, hq.1])]
  simp only [h1]
  rfl

/-- `q_remove_tail` on a non-empty well-formed queue with a buffer. -/
theorem q_remove_tail_spec (m : Mem) (head p : Ptr) (l : List Ptr) (b : Buf) (bufsize : Nat)
    (hq : IsQueue m head (l ++ [p])) :
    q_remove_tail m head (some b) bufsize =
      if sizeSub1 bufsize < bufsize % 2 ^ 64 then
        some ⟨list_del_init m p, some (copyOut b (valueOf m p) bufsize), p⟩
      else none := by
  have h1 : m.next head = (l ++ [p]).headD head := isQueue_next_head m head _ hq
  have h2 : m.prev head = p := by
    rw [isQueue_prev_head m head _ hq, List.getLastD_concat]
  have hne : m.next head ≠ head := by
    rw [h1]
    intro e
    have hm := headD_mem (l ++ [p]) head
    have hnd := (List.nodup_cons.mp hq.2.2.1).1
    cases l with
    | nil => exact hnd (by simp at e; simp [e])
    | cons c l => exact hnd (by simp at e; simp [e])
  unfold q_remove_tail
  rw [if_neg (by simp [list_empty, hne, hq.1])]
  simp only [h2]
  rfl

theorem sizeSub1_eq (n : Nat) (h1 : 1 ≤ n) (h2 : n < 2 ^ 64) : sizeSub1 n = n - 1 := by
  unfold sizeSub1
  omega

/-- The two stores of a removal stay inside a buffer of `1` or more bytes. -/
theorem stores_inside (n : Nat) (h1 : 1 ≤ n) (h2 : n < 2 ^ 64) : sizeSub1 n < n % 2 ^ 64 := by
  unfold sizeSub1
  omega

theorem copyOut_eq (b : Buf) (v : List Nat) (n : Nat) (h1 : 1 ≤ n) (h2 : n < 2 ^ 64) :
    copyOut b v n = Function.update (strncpy b v (n - 1)) (n - 1) 0 := by
  simp only [copyOut, sizeSub1_eq n h1 h2]

/-- The two stores of a removal stay inside the buffer exactly when the
`size_t` capacity is not `0`. -/
theorem stores_inside_iff (n : Nat) : sizeSub1 n < n % 2 ^ 64 ↔ n % 2 ^ 64 ≠ 0 := by
  unfold sizeSub1
  omega

theorem blockOf_succ (b : Buf) (n : Nat) :
    blockOf b (n + 1) = b 0 :: blockOf (fun i => b (i + 1)) n := by
  simp [blockOf, List.range_succ_eq_map, List.map_map, Function.comp_def]

/-- Reading the string of a buffer that holds the bytes `pre`, then a NUL. -/
theorem cstr_blockOf (pre : List Nat) : ∀ (b : Buf) (cap : Nat),
    (∀ i, i < pre.length → b i = pre.getD i 0) → 0 ∉ pre → b pre.length = 0 → pre.length < cap →
    cstr (blockOf b cap) = pre := by
  induction pre with
  | nil =>
    intro b cap _ _ h0 hc
    obtain ⟨n, rfl⟩ : ∃ n, cap = n + 1 := ⟨cap - 1, by simp at hc; omega⟩
    have h0b : b 0 = 0 := h0
    simp [blockOf_succ, cstr, h0b]
  | cons c pre ih =>
    intro b cap hb hz h0 hc
    obtain ⟨n, rfl⟩ : ∃ n, cap = n + 1 := ⟨cap - 1, by simp at hc; omega⟩
    have hc0 : b 0 = c := by simpa using hb 0 (by simp)
    have hcz : c ≠ 0 := fun e => hz (by simp [e])
    rw [blockOf_succ, hc0]
    simp only [cstr, hcz, if_false]
    refine congrArg _ (ih (fun i => b (i + 1)) n (fun i hi => ?_)
      (fun hm => hz (List.mem_cons_of_mem _ hm)) h0 (by simpa using hc))
    simpa using hb (i + 1) (by simpa using hi)

/-- The buffer after `strncpy(sp, v, cap - 1); sp[cap - 1] = 0`. -/
theorem buffer_after_copy (b : Buf) (v : List Nat) (cap : Nat) (hcap : 1 ≤ cap) :
    bufString (Function.update (strncpy b v (cap - 1)) (cap - 1) 0) cap
      = (cstr v).take (cap - 1) ∧
    ((cstr v).take (cap - 1)).length = min (strlen v) (cap - 1) ∧
    (Function.update (strncpy b v (cap - 1)) (cap - 1) 0) (min (strlen v) (cap - 1)) = 0 := by
  have hlen : ((cstr v).take (cap - 1)).length = min (strlen v) (cap - 1) := by
    rw [List.length_take, cstr_length, Nat.min_comm]
  have hzero : (Function.update (strncpy b v (cap - 1)) (cap - 1) 0)
      (min (strlen v) (cap - 1)) = 0 := by
    by_cases hk : min (strlen v) (cap - 1) = cap - 1
    · rw [hk, Function.update_same]
    · rw [Function.update_noteq hk]
      have h1 : min (strlen v) (cap - 1) < cap - 1 := by omega
      have h2 : ¬ min (strlen v) (cap - 1) < strlen v := by omega
      simp only [strncpy, h1, h2, if_true, if_false]
  refine ⟨?_, hlen, hzero⟩
  unfold bufString
  refine cstr_blockOf _ _ cap (fun i hi => ?_)
    (fun hm => cstr_not_mem_zero v (List.mem_of_mem_take hm)) (by rw [hlen]; exact hzero)
    (by rw [hlen]; omega)
  rw [hlen] at hi
  have h1 : i < cap - 1 := by omega
  have h2 : i < strlen v := by omega
  have h3 : i ≠ cap - 1 := by omega
  rw [Function.update_noteq h3]
  simp only [strncpy, h1, h2, if_true]
  rw [cstr_getD v i h2, List.getD_eq_getElem?_getD, List.getD_eq_getElem?_getD,
    List.getElem?_take_of_lt h1]

/-! ## Claims on `q_sort` -/

/-- C1: for every well-formed queue, `q_sort` returns and the strings read from
head to tail in the resulting queue (a forward traversal meets the nodes `out`)
are non-decreasing under `strcmp`: every adjacent pair `(x, y)` has
`strcmp x y ≤ 0` (and so has every pair in order). -/
theorem q_sort_sorted (m : Mem) (head : Ptr) (ps : List Ptr) (fuel : Nat)
    (hq : IsQueue m head ps) (hf : ps.length < fuel) :
    ∃ m2 out, q_sort m head fuel = some m2 ∧ IsQueue m2 head out ∧
      q_nodes m2 head fuel = some out ∧
      List.Chain' (fun x y => strcmp x y ≤ 0) (values m2 out) ∧ Ascending (values m2 out) := by
  obtain ⟨m2, out, e1, e2, e3, _, e5, e6, _⟩ := q_sort_spec m head ps fuel hq hf
  have hval : valueOf m2 = valueOf m := by
    funext p; simp [valueOf, e5, e6]
  have hlen : out.length = ps.length := by
    rcases e3 with ⟨rfl, rfl⟩ | h
    · rfl
    · exact (sorts_perm _ _ _ h).length_eq
  have hasc : Ascending (values m2 out) := by
    rw [values, hval]
    rcases e3 with ⟨_, rfl⟩ | h
    · simp [Ascending]
    · exact sorts_ascending _ _ _ h
  exact ⟨m2, out, e1, e2, q_nodes_spec m2 head out fuel e2 (by rw [hlen]; exact hf),
    List.Pairwise.chain' hasc, hasc⟩

/-- Witness of C1: the queue holding "b", "a". -/
theorem q_sort_sorted_witness :
    IsQueue (mkQueue [[98], [97]]) 1 [2, 4] ∧
    ∃ m2 out, q_sort (mkQueue [[98], [97]]) 1 3 = some m2 ∧ IsQueue m2 1 out ∧
      q_nodes m2 1 3 = some out ∧
      List.Chain' (fun x y => strcmp x y ≤ 0) (values m2 out) ∧ Ascending (values m2 out) :=
  ⟨by decide, q_sort_sorted (mkQueue [[98], [97]]) 1 [2, 4] 3 (by decide) (by decide)⟩

/-- C2: for every well-formed queue, `q_sort` only relinks: the nodes of the
resulting queue are a permutation of the nodes before (so there are as many),
no string, `value` field or allocation changes. -/
theorem q_sort_perm (m : Mem) (head : Ptr) (ps : List Ptr) (fuel : Nat)
    (hq : IsQueue m head ps) (hf : ps.length < fuel) :
    ∃ m2 out, q_sort m head fuel = some m2 ∧ IsQueue m2 head out ∧
      out.Perm ps ∧ out.length = ps.length ∧ (values m2 out).Perm (values m ps) ∧
      m2.value = m.value ∧ m2.str = m.str ∧ m2.live = m.live := by
  obtain ⟨m2, out, e1, e2, e3, _, e5, e6, e7⟩ := q_sort_spec m head ps fuel hq hf
  have hval : valueOf m2 = valueOf m := by
    funext p; simp [valueOf, e5, e6]
  have hperm : out.Perm ps := by
    rcases e3 with ⟨rfl, rfl⟩ | h
    · exact List.Perm.refl _
    · exact sorts_perm _ _ _ h
  refine ⟨m2, out, e1, e2, hperm, hperm.length_eq, ?_, e5, e6, e7⟩
  rw [values, values, hval]
  exact hperm.map _

/-- Witness of C2: the queue holding "b", "a". -/
theorem q_sort_perm_witness :
    IsQueue (mkQueue [[98], [97]]) 1 [2, 4] ∧
    ∃ m2 out, q_sort (mkQueue [[98], [97]]) 1 3 = some m2 ∧ IsQueue m2 1 out ∧
      out.Perm [2, 4] ∧ out.length = [2, 4].length ∧
      (values m2 out).Perm (values (mkQueue [[98], [97]]) [2, 4]) ∧
      m2.value = (mkQueue [[98], [97]]).value ∧ m2.str = (mkQueue [[98], [97]]).str ∧
      m2.live = (mkQueue [[98], [97]]).live :=
  ⟨by decide, q_sort_perm (mkQueue [[98], [97]]) 1 [2, 4] 3 (by decide) (by decide)⟩

/-! ## Claim on `q_delete_mid` -/

/-- C3: `q_delete_mid` returns false and leaves the memory unchanged for an
absent and for an empty queue; on a well-formed queue of `n ≥ 1` elements it
returns true and the queue becomes the former one without the element at
0-based index `n / 2`, the others in their order; the strings of the others are
untouched and the removed element is released. -/
theorem q_delete_mid_removes_middle (m : Mem) (head : Ptr) (ps : List Ptr) (fuel : Nat)
    (hq : IsQueue m head ps) (hf : ps.length < fuel) :
    q_delete_mid m NULL fuel = some (m, false) ∧
    (ps = [] → q_delete_mid m head fuel = some (m, false)) ∧
    (ps ≠ [] → ∃ m2, q_delete_mid m head fuel = some (m2, true) ∧
      IsQueue m2 head (ps.eraseIdx (ps.length / 2)) ∧
      m2.value = m.value ∧ m2.str = m.str ∧
      m2.live (ps.getD (ps.length / 2) NULL) = false) := by
  refine ⟨by simp [q_delete_mid], ?_, ?_⟩
  · intro e
    subst e
    have h1 : m.next head = head := isQueue_next_head m head [] hq
    simp [q_delete_mid, list_empty, h1]
  · intro hne
    obtain ⟨e1, e2⟩ := q_delete_mid_spec m head ps fuel hq hne hf
    refine ⟨_, e1, e2, rfl, rfl, ?_⟩
    simp [q_release_element, free]

/-- Witness of C3: six elements `[a,b,c,d,e,f]`. -/
theorem q_delete_mid_removes_middle_witness :
    IsQueue (mkQueue [[97], [98], [99], [100], [101], [102]]) 1 [2, 4, 6, 8, 10, 12] ∧
    (([2, 4, 6, 8, 10, 12] : List Ptr) ≠ [] →
      ∃ m2, q_delete_mid (mkQueue [[97], [98], [99], [100], [101], [102]]) 1 7 = some (m2, true) ∧
      IsQueue m2 1 [2, 4, 6, 10, 12] ∧
      m2.value = (mkQueue [[97], [98], [99], [100], [101], [102]]).value ∧
      m2.str = (mkQueue [[97], [98], [99], [100], [101], [102]]).str ∧
      m2.live 8 = false) :=
  ⟨by decide, (q_delete_mid_removes_middle (mkQueue [[97], [98], [99], [100], [101], [102]]) 1
    [2, 4, 6, 8, 10, 12] 7 (by decide) (by decide)).2.2⟩

/-! ## Claims on `q_delete_dup` -/

/-- C4: `q_delete_dup` returns false and leaves the memory unchanged for an
absent and for an empty queue; on a non-empty well-formed queue, sorted or not,
it returns true and the queue becomes the former one without exactly the
elements whose immediate successor holds an equal string, the others in their
order and with their strings. -/
theorem q_delete_dup_drops_before_equal (m : Mem) (head : Ptr) (ps : List Ptr) (fuel : Nat)
    (hq : IsQueue m head ps) (hf : ps.length ≤ fuel) :
    q_delete_dup m NULL fuel = some (m, false) ∧
    (ps = [] → q_delete_dup m head fuel = some (m, false)) ∧
    (ps ≠ [] → ∃ m2, q_delete_dup m head fuel = some (m2, true) ∧
      IsQueue m2 head (dropIfNextEqual (valueOf m) ps) ∧
      values m2 (dropIfNextEqual (valueOf m) ps) = values m (dropIfNextEqual (valueOf m) ps)) := by
  refine ⟨by simp [q_delete_dup], ?_, ?_⟩
  · intro e
    subst e
    have h1 : m.next head = head := isQueue_next_head m head [] hq
    simp [q_delete_dup, list_empty, h1]
  · intro hne
    obtain ⟨m2, e1, e2, e3, e4⟩ := q_delete_dup_spec m head ps fuel hq hne hf
    refine ⟨m2, e1, e2, ?_⟩
    simp [values, valueOf, e3, e4]

/-- Witness of C4: the unsorted queue `[a, a, b, a, a, a]`. -/
theorem q_delete_dup_drops_before_equal_witness :
    IsQueue (mkQueue [[97], [97], [98], [97], [97], [97]]) 1 [2, 4, 6, 8, 10, 12] ∧
    (([2, 4, 6, 8, 10, 12] : List Ptr) ≠ [] →
      ∃ m2, q_delete_dup (mkQueue [[97], [97], [98], [97], [97], [97]]) 1 6 = some (m2, true) ∧
        IsQueue m2 1 [4, 6, 12] ∧
        values m2 [4, 6, 12] = [[97, 0], [98, 0], [97, 0]]) :=
  ⟨by decide, (q_delete_dup_drops_before_equal (mkQueue [[97], [97], [98], [97], [97], [97]]) 1
    [2, 4, 6, 8, 10, 12] 6 (by decide) (by decide)).2.2⟩

/-- The failing input of C5: on the sorted queue `[a, a, b]`, `q_delete_dup`
leaves `[a, b]`: the string "a", which occurred twice, is still in the queue. -/
theorem q_delete_dup_keeps_last_of_run :
    IsQueue (mkQueue [[97], [97], [98]]) 1 [2, 4, 6] ∧
    Ascending (values (mkQueue [[97], [97], [98]]) [2, 4, 6]) ∧
    ∃ m2, q_delete_dup (mkQueue [[97], [97], [98]]) 1 3 = some (m2, true) ∧
      IsQueue m2 1 [4, 6] ∧ values m2 [4, 6] = [[97, 0], [98, 0]] := by
  refine ⟨by decide, by decide, ?_⟩
  obtain ⟨m2, e1, e2, e3, e4⟩ := q_delete_dup_spec (mkQueue [[97], [97], [98]]) 1 [2, 4, 6] 3
    (by decide) (by decide) (by decide)
  have hv : valueOf m2 = valueOf (mkQueue [[97], [97], [98]]) := by
    funext p; simp [valueOf, e3, e4]
  refine ⟨m2, e1, e2, ?_⟩
  rw [values, hv]
  decide

/-! ## Claim on `q_swap` -/

/-- C6: `q_swap` on a well-formed queue `[x0, x1, x2, x3, ...]` returns and
leaves the well-formed queue `[x1, x0, x3, x2, ...]`: the nodes at positions
`2i` and `2i+1` are exchanged for every complete pair, the last node of a queue
of odd length stays last, the strings are untouched, and the memory of an empty
or one-element queue is unchanged; an absent queue is a no-op. -/
theorem q_swap_exchanges_pairs (m : Mem) (head : Ptr) (ps : List Ptr) (fuel : Nat)
    (hq : IsQueue m head ps) (hf : ps.length < fuel) :
    q_swap m NULL fuel = some m ∧
    ∃ m2 out, q_swap m head fuel = some m2 ∧ IsQueue m2 head out ∧ out = swapPairs ps ∧
      out.length = ps.length ∧
      (∀ i, 2 * i + 1 < ps.length →
        out.getD (2 * i) NULL = ps.getD (2 * i + 1) NULL ∧
        out.getD (2 * i + 1) NULL = ps.getD (2 * i) NULL) ∧
      (ps.length % 2 = 1 → out.getD (ps.length - 1) NULL = ps.getD (ps.length - 1) NULL) ∧
      (ps.length ≤ 1 → m2 = m) ∧
      m2.value = m.value ∧ m2.str = m.str ∧ m2.live = m.live := by
  refine ⟨by simp [q_swap], ?_⟩
  obtain ⟨m2, e1, e2, e3, e4, e5, e6⟩ := q_swap_spec m head ps fuel hq hf
  exact ⟨m2, swapPairs ps, e1, e2, rfl, swapPairs_length ps, swapPairs_getD ps,
    swapPairs_last ps, e3, e4, e5, e6⟩

/-- Witness of C6: `[a, b, c, d]` becomes `[b, a, d, c]`. -/
theorem q_swap_exchanges_pairs_witness :
    IsQueue (mkQueue [[97], [98], [99], [100]]) 1 [2, 4, 6, 8] ∧
    ∃ m2 out, q_swap (mkQueue [[97], [98], [99], [100]]) 1 5 = some m2 ∧ IsQueue m2 1 out ∧
      out = [4, 2, 8, 6] ∧ out.length = 4 ∧
      (∀ i, 2 * i + 1 < 4 →
        out.getD (2 * i) NULL = ([2, 4, 6, 8] : List Ptr).getD (2 * i + 1) NULL ∧
        out.getD (2 * i + 1) NULL = ([2, 4, 6, 8] : List Ptr).getD (2 * i) NULL) ∧
      (4 % 2 = 1 → out.getD (4 - 1) NULL = ([2, 4, 6, 8] : List Ptr).getD (4 - 1) NULL) ∧
      (4 ≤ 1 → m2 = mkQueue [[97], [98], [99], [100]]) ∧
      m2.value = (mkQueue [[97], [98], [99], [100]]).value ∧
      m2.str = (mkQueue [[97], [98], [99], [100]]).str ∧
      m2.live = (mkQueue [[97], [98], [99], [100]]).live :=
  ⟨by decide, (q_swap_exchanges_pairs (mkQueue [[97], [98], [99], [100]]) 1 [2, 4, 6, 8] 5
    (by decide) (by decide)).2⟩

/-! ## Claim on `q_reverse` -/

/-- C7: `q_reverse` on a well-formed queue `[x0, ..., x(n-1)]` returns and
leaves the well-formed queue `[x(n-1), ..., x0]`: the same nodes in exactly the
reverse order, their strings untouched; the memory of an absent or empty queue
is unchanged. -/
theorem q_reverse_reverses (m : Mem) (head : Ptr) (ps : List Ptr) (fuel : Nat)
    (hq : IsQueue m head ps) (hf : ps.length < fuel) :
    q_reverse m NULL fuel = some m ∧
    ∃ m2, q_reverse m head fuel = some m2 ∧ IsQueue m2 head ps.reverse ∧
      values m2 ps.reverse = (values m ps).reverse ∧ (ps = [] → m2 = m) ∧
      m2.value = m.value ∧ m2.str = m.str ∧ m2.live = m.live := by
  refine ⟨by simp [q_reverse], ?_⟩
  obtain ⟨m2, e1, e2, e3, e4, e5, e6⟩ := q_reverse_spec m head ps fuel hq hf
  refine ⟨m2, e1, e2, ?_, e3, e4, e5, e6⟩
  have hv : valueOf m2 = valueOf m := by
    funext p; simp [valueOf, e4, e5]
  rw [values, values, hv, List.map_reverse]

/-- Witness of C7: `[a, b, c]` becomes `[c, b, a]`. -/
theorem q_reverse_reverses_witness :
    IsQueue (mkQueue [[97], [98], [99]]) 1 [2, 4, 6] ∧
    ∃ m2, q_reverse (mkQueue [[97], [98], [99]]) 1 4 = some m2 ∧ IsQueue m2 1 [6, 4, 2] ∧
      values m2 [6, 4, 2] = [[99, 0], [98, 0], [97, 0]] ∧
      (([2, 4, 6] : List Ptr) = [] → m2 = mkQueue [[97], [98], [99]]) ∧
      m2.value = (mkQueue [[97], [98], [99]]).value ∧
      m2.str = (mkQueue [[97], [98], [99]]).str ∧
      m2.live = (mkQueue [[97], [98], [99]]).live :=
  ⟨by decide, (q_reverse_reverses (mkQueue [[97], [98], [99]]) 1 [2, 4, 6] 4
    (by decide) (by decide)).2⟩

/-! ## Claim on the inserts -/

/-- C8: on a well-formed queue with elements `ps`, for a string `s` of fewer
than `INT_MAX = 2 ^ 31 - 1` bytes (so that `charsize` and `charsize + 1` are
`int` values), when both allocations succeed (they return non-null blocks not
in use by the queue), `q_insert_head` returns true and the queue becomes the
new element followed by `ps`, `q_insert_tail` returns true and the queue
becomes `ps` followed by the new element; the stored string is the bytes of `s`
before its NUL followed by a NUL, the old elements keep their order and
strings, and `q_size` grows from `n` to `n + 1`. -/
theorem q_insert_adds_copy (m : Mem) (head : Ptr) (ps : List Ptr) (s : List Nat) (q v : Ptr)
    (fuel : Nat) (hq : IsQueue m head ps) (hq0 : q ≠ NULL) (hv0 : v ≠ NULL)
    (hfresh : q ∉ head :: ps) (hvfresh : ∀ p ∈ ps, m.value p ≠ v) (hf : ps.length + 1 < fuel)
    (hs : strlen s < 2 ^ 31 - 1) :
    q_size m head fuel = some ps.length ∧
    (∃ m2, q_insert_head m head s q v = some (m2, true) ∧ IsQueue m2 head (q :: ps) ∧
      values m2 (q :: ps) = (cstr s ++ [0]) :: values m ps ∧
      cstr (valueOf m2 q) = cstr s ∧ q_size m2 head fuel = some (ps.length + 1)) ∧
    (∃ m2, q_insert_tail m head s q v = some (m2, true) ∧ IsQueue m2 head (ps ++ [q]) ∧
      values m2 (ps ++ [q]) = values m ps ++ [cstr s ++ [0]] ∧
      cstr (valueOf m2 q) = cstr s ∧ q_size m2 head fuel = some (ps.length + 1)) := by
  have hqps : q ∉ ps := fun hm => hfresh (List.mem_cons_of_mem _ hm)
  refine ⟨q_size_spec m head ps fuel hq (by omega), ?_, ?_⟩
  · obtain ⟨m2, e1, e2, e3, e4, _⟩ := q_insert_head_spec m head ps s q v hq hq0 hv0 hfresh hs
    obtain ⟨v1, v2⟩ := values_after_insert m m2 ps q v _ e3 e4 hqps hvfresh
    refine ⟨m2, e1, e2, ?_, ?_, ?_⟩
    · rw [values, List.map_cons, v1]
      exact congrArg _ v2
    · rw [v1]
      exact cstr_append_zero _ [] (cstr_not_mem_zero s)
    · have := q_size_spec m2 head (q :: ps) fuel e2 (by simpa using hf)
      simpa using this
  · obtain ⟨m2, e1, e2, e3, e4, _⟩ := q_insert_tail_spec m head ps s q v hq hq0 hv0 hfresh hs
    obtain ⟨v1, v2⟩ := values_after_insert m m2 ps q v _ e3 e4 hqps hvfresh
    refine ⟨m2, e1, e2, ?_, ?_, ?_⟩
    · rw [values, List.map_append, List.map_cons, List.map_nil, v1]
      exact congrArg (· ++ [cstr s ++ [0]]) v2
    · rw [v1]
      exact cstr_append_zero _ [] (cstr_not_mem_zero s)
    · have := q_size_spec m2 head (ps ++ [q]) fuel e2 (by simpa using hf)
      simpa using this

/-- Witness of C8: inserting "c" (with a stray byte after its NUL) into `[a, b]`. -/
theorem q_insert_adds_copy_witness :
    IsQueue (mkQueue [[97], [98]]) 1 [2, 4] ∧
    (q_size (mkQueue [[97], [98]]) 1 4 = some 2 ∧
    (∃ m2, q_insert_head (mkQueue [[97], [98]]) 1 [99, 0, 7] 6 7 = some (m2, true) ∧
      IsQueue m2 1 [6, 2, 4] ∧
      values m2 [6, 2, 4] = [99, 0] :: values (mkQueue [[97], [98]]) [2, 4] ∧
      cstr (valueOf m2 6) = [99] ∧ q_size m2 1 4 = some 3) ∧
    (∃ m2, q_insert_tail (mkQueue [[97], [98]]) 1 [99, 0, 7] 6 7 = some (m2, true) ∧
      IsQueue m2 1 [2, 4, 6] ∧
      values m2 [2, 4, 6] = values (mkQueue [[97], [98]]) [2, 4] ++ [[99, 0]] ∧
      cstr (valueOf m2 6) = [99] ∧ q_size m2 1 4 = some 3)) :=
  ⟨by decide, q_insert_adds_copy (mkQueue [[97], [98]]) 1 [2, 4] [99, 0, 7] 6 7 4
    (by decide) (by decide) (by decide) (by decide) (by decide) (by decide) (by decide)⟩

/-! ## Claims on the removals -/

/-- C9: on a non-empty well-formed queue with a present buffer of capacity
`1 ≤ bufsize < 2 ^ 64` `q_remove_head` returns the first element and
`q_remove_tail` the last one; the queue becomes
the former one without that element, the others in their order, `q_size` drops
from `n` to `n - 1`; the returned element is self-linked, nothing is freed and
no string or `value` field changes. -/
theorem q_remove_unlinks_boundary (m : Mem) (head : Ptr) (ps : List Ptr) (b : Buf)
    (bufsize fuel : Nat) (hq : IsQueue m head ps) (hne : ps ≠ []) (hf : ps.length < fuel)
    (h1 : 1 ≤ bufsize) (h2 : bufsize < 2 ^ 64) :
    q_size m head fuel = some ps.length ∧
    (∃ r, q_remove_head m head (some b) bufsize = some r ∧ r.elem = ps.headD NULL ∧
      r.elem ≠ NULL ∧ IsQueue r.mem head ps.tail ∧
      q_size r.mem head fuel = some (ps.length - 1) ∧
      r.mem.next r.elem = r.elem ∧ r.mem.prev r.elem = r.elem ∧
      r.mem.value = m.value ∧ r.mem.str = m.str ∧ r.mem.live = m.live) ∧
    (∃ r, q_remove_tail m head (some b) bufsize = some r ∧ r.elem = ps.getLastD NULL ∧
      r.elem ≠ NULL ∧ IsQueue r.mem head ps.dropLast ∧
      q_size r.mem head fuel = some (ps.length - 1) ∧
      r.mem.next r.elem = r.elem ∧ r.mem.prev r.elem = r.elem ∧
      r.mem.value = m.value ∧ r.mem.str = m.str ∧ r.mem.live = m.live) := by
  refine ⟨q_size_spec m head ps fuel hq hf, ?_, ?_⟩
  · cases ps with
    | nil => exact absurd rfl hne
    | cons p l =>
      have hq2 : IsQueue (list_del_init m p) head l := isQueue_list_del_init m head p [] l hq
      refine ⟨_, (q_remove_head_spec m head p l b bufsize hq).trans
          (if_pos (stores_inside bufsize h1 h2)), rfl,
        fun e => hq.2.1 (by rw [← e]; exact List.mem_cons_self _ _), hq2, ?_, ?_, ?_, rfl, rfl, rfl⟩
      · exact q_size_spec _ head l fuel hq2 (by simp at hf; omega)
      · simp [list_del_init, INIT_LIST_HEAD, setNext, setPrev]
      · simp [list_del_init, INIT_LIST_HEAD, setNext, setPrev]
  · rcases List.eq_nil_or_concat ps with e | ⟨l, p, e⟩
    · exact absurd e hne
    · rw [List.concat_eq_append] at e
      subst e
      have hq2 : IsQueue (list_del_init m p) head l := by
        have := isQueue_list_del_init m head p l [] hq
        simpa using this
      refine ⟨_, (q_remove_tail_spec m head p l b bufsize hq).trans
          (if_pos (stores_inside bufsize h1 h2)), ?_, ?_, ?_, ?_, ?_, ?_, rfl, rfl, rfl⟩
      · exact (List.getLastD_concat _ _ _).symm
      · exact fun e => hq.2.1 (by rw [← e]; simp)
      · rw [List.dropLast_concat]; exact hq2
      · have := q_size_spec _ head l fuel hq2 (by simp at hf; omega)
        simpa using this
      · simp [list_del_init, INIT_LIST_HEAD, setNext, setPrev]
      · simp [list_del_init, INIT_LIST_HEAD, setNext, setPrev]

/-- Witness of C9: removing from `[a, b, c]`. -/
theorem q_remove_unlinks_boundary_witness :
    IsQueue (mkQueue [[97], [98], [99]]) 1 [2, 4, 6] ∧
    (q_size (mkQueue [[97], [98], [99]]) 1 4 = some 3 ∧
    (∃ r, q_remove_head (mkQueue [[97], [98], [99]]) 1 (some fun _ => 7) 8 = some r ∧ r.elem = 2 ∧
      r.elem ≠ NULL ∧ IsQueue r.mem 1 [4, 6] ∧ q_size r.mem 1 4 = some 2 ∧
      r.mem.next r.elem = r.elem ∧ r.mem.prev r.elem = r.elem ∧
      r.mem.value = (mkQueue [[97], [98], [99]]).value ∧
      r.mem.str = (mkQueue [[97], [98], [99]]).str ∧
      r.mem.live = (mkQueue [[97], [98], [99]]).live) ∧
    (∃ r, q_remove_tail (mkQueue [[97], [98], [99]]) 1 (some fun _ => 7) 8 = some r ∧ r.elem = 6 ∧
      r.elem ≠ NULL ∧ IsQueue r.mem 1 [2, 4] ∧ q_size r.mem 1 4 = some 2 ∧
      r.mem.next r.elem = r.elem ∧ r.mem.prev r.elem = r.elem ∧
      r.mem.value = (mkQueue [[97], [98], [99]]).value ∧
      r.mem.str = (mkQueue [[97], [98], [99]]).str ∧
      r.mem.live = (mkQueue [[97], [98], [99]]).live)) :=
  ⟨by decide, q_remove_unlinks_boundary (mkQueue [[97], [98], [99]]) 1 [2, 4, 6] (fun _ => 7) 8 4
    (by decide) (by decide) (by decide) (by decide) (by decide)⟩

/-- C10: a removal from a non-empty well-formed queue with a buffer of
capacity `1 ≤ bufsize < 2 ^ 64` returns, and then the buffer holds,
NUL-terminated, the first `min (strlen v) (bufsize - 1)` bytes of the removed string `v`: all of `v` when
`strlen v < bufsize`, otherwise `v` cut to `bufsize - 1` bytes; the byte at
index `bufsize - 1` is NUL and no byte from index `bufsize` on is written. -/
theorem q_remove_copies_truncated (m : Mem) (head : Ptr) (ps : List Ptr) (b : Buf)
    (bufsize : Nat) (hq : IsQueue m head ps) (hne : ps ≠ []) (h1 : 1 ≤ bufsize)
    (h2 : bufsize < 2 ^ 64) :
    (∃ r b2, q_remove_head m head (some b) bufsize = some r ∧ r.buf = some b2 ∧
      bufString b2 bufsize = (cstr (valueOf m (ps.headD NULL))).take (bufsize - 1) ∧
      (bufString b2 bufsize).length = min (strlen (valueOf m (ps.headD NULL))) (bufsize - 1) ∧
      (strlen (valueOf m (ps.headD NULL)) < bufsize →
        bufString b2 bufsize = cstr (valueOf m (ps.headD NULL))) ∧
      b2 (min (strlen (valueOf m (ps.headD NULL))) (bufsize - 1)) = 0 ∧
      b2 (bufsize - 1) = 0 ∧ ∀ i, bufsize ≤ i → b2 i = b i) ∧
    (∃ r b2, q_remove_tail m head (some b) bufsize = some r ∧ r.buf = some b2 ∧
      bufString b2 bufsize = (cstr (valueOf m (ps.getLastD NULL))).take (bufsize - 1) ∧
      (bufString b2 bufsize).length = min (strlen (valueOf m (ps.getLastD NULL))) (bufsize - 1) ∧
      (strlen (valueOf m (ps.getLastD NULL)) < bufsize →
        bufString b2 bufsize = cstr (valueOf m (ps.getLastD NULL))) ∧
      b2 (min (strlen (valueOf m (ps.getLastD NULL))) (bufsize - 1)) = 0 ∧
      b2 (bufsize - 1) = 0 ∧ ∀ i, bufsize ≤ i → b2 i = b i) := by
  have key : ∀ v : List Nat,
      bufString (Function.update (strncpy b v (bufsize - 1)) (bufsize - 1) 0) bufsize
        = (cstr v).take (bufsize - 1) ∧
      (bufString (Function.update (strncpy b v (bufsize - 1)) (bufsize - 1) 0) bufsize).length
        = min (strlen v) (bufsize - 1) ∧
      (strlen v < bufsize →
        bufString (Function.update (strncpy b v (bufsize - 1)) (bufsize - 1) 0) bufsize
          = cstr v) ∧
      (Function.update (strncpy b v (bufsize - 1)) (bufsize - 1) 0)
        (min (strlen v) (bufsize - 1)) = 0 ∧
      (Function.update (strncpy b v (bufsize - 1)) (bufsize - 1) 0) (bufsize - 1) = 0 ∧
      ∀ i, bufsize ≤ i →
        (Function.update (strncpy b v (bufsize - 1)) (bufsize - 1) 0) i = b i := by
    intro v
    obtain ⟨k1, k2, k3⟩ := buffer_after_copy b v bufsize h1
    refine ⟨k1, by rw [k1, k2], fun hlt => ?_, k3, Function.update_same _ _ _, fun i hi => ?_⟩
    · rw [k1, List.take_of_length_le (by rw [cstr_length]; omega)]
    · have h3 : i ≠ bufsize - 1 := by omega
      have h4 : ¬ i < bufsize - 1 := by omega
      rw [Function.update_noteq h3]
      simp only [strncpy, h4, if_false]
  constructor
  · cases ps with
    | nil => exact absurd rfl hne
    | cons p l =>
      rw [q_remove_head_spec m head p l b bufsize hq, if_pos (stores_inside bufsize h1 h2),
        copyOut_eq b _ bufsize h1 h2]
      exact ⟨_, _, rfl, rfl, key _⟩
  · rcases List.eq_nil_or_concat ps with e | ⟨l, p, e⟩
    · exact absurd e hne
    · rw [List.concat_eq_append] at e
      subst e
      rw [q_remove_tail_spec m head p l b bufsize hq, if_pos (stores_inside bufsize h1 h2),
        copyOut_eq b _ bufsize h1 h2, List.getLastD_concat]
      exact ⟨_, _, rfl, rfl, key _⟩

/-- Witness of C10: removing "abc" into a buffer of capacity 3 leaves "ab". -/
theorem q_remove_copies_truncated_witness :
    IsQueue (mkQueue [[97, 98, 99], [100]]) 1 [2, 4] ∧
    ∃ r b2, q_remove_head (mkQueue [[97, 98, 99], [100]]) 1 (some fun _ => 7) 3 = some r ∧
      r.buf = some b2 ∧
      bufString b2 3 = [97, 98] ∧ (bufString b2 3).length = 2 ∧ b2 2 = 0 ∧ b2 3 = 7 := by
  refine ⟨by decide, ?_⟩
  obtain ⟨r, b2, e0, e1, e2, e3, _, _, e6, e7⟩ := (q_remove_copies_truncated
    (mkQueue [[97, 98, 99], [100]]) 1 [2, 4] (fun _ => 7) 3 (by decide) (by decide) (by decide)
    (by decide)).1
  exact ⟨r, b2, e0, e1, e2, e3, e6, e7 3 (by decide)⟩

/-! ## Circularity -/

theorem linked_pred (f : Ptr → Ptr) (b x : Ptr) (l : List Ptr) (hl : Linked f b l) (hx : x ∈ l) :
    ∃ y ∈ (b :: l).dropLast, f y = x := by
  induction l generalizing b with
  | nil => simp at hx
  | cons c l ih =>
    rw [List.dropLast_cons₂]
    rcases List.mem_cons.mp hx with h1 | h1
    · exact ⟨b, List.mem_cons_self _ _, by rw [h1]; exact hl.1⟩
    · obtain ⟨y, hy, e⟩ := ih c hl.2 h1
      exact ⟨y, List.mem_cons_of_mem _ hy, e⟩

/-- A run along `f` on which `g` undoes `f` and that does not come back to its
start has no node twice. -/
theorem linked_nodup (f g : Ptr → Ptr) (a : Ptr) (l : List Ptr) (hl : Linked f a l)
    (hg : ∀ n ∈ (a :: l).dropLast, g (f n) = n) (ha : a ∉ l) : l.Nodup := by
  induction l generalizing a with
  | nil => simp
  | cons b l ih =>
    rw [List.dropLast_cons₂] at hg
    have hb : b ∉ l := by
      intro hm
      obtain ⟨y, hy, e⟩ := linked_pred f b b l hl.2 hm
      have e1 : g (f y) = y := hg y (List.mem_cons_of_mem _ hy)
      have e2 : g (f a) = a := hg a (List.mem_cons_self _ _)
      rw [e, ← hl.1, e2] at e1
      exact ha (e1 ▸ List.mem_of_mem_dropLast hy)
    exact List.nodup_cons.mpr ⟨hb, ih b hl.2 (fun n hn => hg n (List.mem_cons_of_mem _ hn)) hb⟩

theorem backLinked_of_linked (f g : Ptr → Ptr) (a : Ptr) (l : List Ptr) (hl : Linked f a l)
    (hg : ∀ n ∈ (a :: l).dropLast, g (f n) = n) : BackLinked g a l := by
  induction l generalizing a with
  | nil => trivial
  | cons b l ih =>
    rw [List.dropLast_cons₂] at hg
    refine ⟨?_, ih b hl.2 (fun n hn => hg n (List.mem_cons_of_mem _ hn))⟩
    rw [← hl.1]
    exact hg a (List.mem_cons_self _ _)

theorem inverse_of_linked (f g : Ptr → Ptr) (a : Ptr) (l : List Ptr) (hl : Linked f a l)
    (hb : BackLinked g a l) : ∀ n ∈ (a :: l).dropLast, g (f n) = n := by
  induction l generalizing a with
  | nil => simp
  | cons b l ih =>
    rw [List.dropLast_cons₂]
    intro n hn
    rcases List.mem_cons.mp hn with h1 | h1
    · rw [h1, hl.1]; exact hb.1
    · exact ih b hl.2 hb.2 n h1

/-- Circularity, as the data model states it, is well-formedness of the queue. -/
theorem circular_iff_isQueue (m : Mem) (head : Ptr) (ps : List Ptr) :
    Circular m head ps ↔ IsQueue m head ps := by
  constructor
  · rintro ⟨hh, hnull, hhead, hn, hinv⟩
    have hg : ∀ n ∈ (head :: (ps ++ [head])).dropLast, m.prev (m.next n) = n := by
      rw [dropLast_cycle]
      exact fun n hn => (hinv n hn).1
    refine ⟨hh, hnull, ?_, hn, ?_⟩
    · refine List.nodup_cons.mpr ⟨hhead, ?_⟩
      have h1 : Linked m.next head ps := ((linked_append _ _ _ _).mp hn).1
      refine linked_nodup m.next m.prev head ps h1 (fun n hn2 => ?_) hhead
      exact (hinv n (List.mem_of_mem_dropLast hn2)).1
    · rw [← backLinked_iff]
      exact backLinked_of_linked m.next m.prev head _ hn hg
  · rintro ⟨hh, hnull, hnd, hn, hp⟩
    refine ⟨hh, hnull, (List.nodup_cons.mp hnd).1, hn, fun n hn2 => ⟨?_, ?_⟩⟩
    · have hb : BackLinked m.prev head (ps ++ [head]) := (backLinked_iff _ _ _ _).mpr hp
      have := inverse_of_linked m.next m.prev head _ hn hb n
      rw [dropLast_cycle] at this
      exact this hn2
    · have hb : BackLinked m.next head (ps.reverse ++ [head]) := by
        rw [backLinked_iff, List.reverse_reverse]; exact hn
      have := inverse_of_linked m.prev m.next head _ hp hb n
      rw [dropLast_cycle] at this
      exact this (by simpa using hn2)

/-! ## Claim on failing removals -/

/-- C11: `q_remove_head` and `q_remove_tail` return `NULL` exactly when the
queue is absent, the queue is empty or the buffer is absent; a call that returns
`NULL` leaves the whole memory and the buffer as they were, also when the queue
is non-empty and only the buffer is absent; with a capacity that is not `0` as
a `size_t` both calls return. -/
theorem q_remove_fails_iff (m : Mem) (head : Ptr) (ps : List Ptr) (sp : Option Buf)
    (bufsize : Nat) (hq : IsQueue m head ps) :
    q_remove_head m NULL sp bufsize = some ⟨m, sp, NULL⟩ ∧
    q_remove_tail m NULL sp bufsize = some ⟨m, sp, NULL⟩ ∧
    ((∃ r, q_remove_head m head sp bufsize = some r ∧ r.elem = NULL) ↔ ps = [] ∨ sp = none) ∧
    (∀ r, q_remove_head m head sp bufsize = some r → r.elem = NULL → r = ⟨m, sp, NULL⟩) ∧
    (bufsize % 2 ^ 64 ≠ 0 → ∃ r, q_remove_head m head sp bufsize = some r) ∧
    ((∃ r, q_remove_tail m head sp bufsize = some r ∧ r.elem = NULL) ↔ ps = [] ∨ sp = none) ∧
    (∀ r, q_remove_tail m head sp bufsize = some r → r.elem = NULL → r = ⟨m, sp, NULL⟩) ∧
    (bufsize % 2 ^ 64 ≠ 0 → ∃ r, q_remove_tail m head sp bufsize = some r) := by
  have hnx := isQueue_next_head m head ps hq
  refine ⟨by simp [q_remove_head], by simp [q_remove_tail], ?_⟩
  rcases List.eq_nil_or_concat ps with e | ⟨l, p, e⟩
  · subst e
    have h1 : m.next head = head := hnx
    have e1 : q_remove_head m head sp bufsize = some ⟨m, sp, NULL⟩ := by
      simp [q_remove_head, list_empty, h1]
    have e2 : q_remove_tail m head sp bufsize = some ⟨m, sp, NULL⟩ := by
      simp [q_remove_tail, list_empty, h1]
    rw [e1, e2]
    exact ⟨⟨fun _ => Or.inl rfl, fun _ => ⟨_, rfl, rfl⟩⟩, fun r h _ => (Option.some.inj h).symm,
      fun _ => ⟨_, rfl⟩, ⟨fun _ => Or.inl rfl, fun _ => ⟨_, rfl, rfl⟩⟩,
      fun r h _ => (Option.some.inj h).symm, fun _ => ⟨_, rfl⟩⟩
  · rw [List.concat_eq_append] at e
    have hne : ps ≠ [] := by rw [e]; simp
    have hemp : list_empty m head = false := by
      cases ps with
      | nil => exact absurd rfl hne
      | cons c t =>
        have h1 : m.next head = c := hnx
        have hch : c ≠ head := fun e2 => (List.nodup_cons.mp hq.2.2.1).1 (by simp [e2])
        simp [list_empty, h1, hch]
    cases sp with
    | none =>
      have e1 : q_remove_head m head none bufsize = some ⟨m, none, NULL⟩ := by
        simp [q_remove_head, hemp, hq.1]
      have e2 : q_remove_tail m head none bufsize = some ⟨m, none, NULL⟩ := by
        simp [q_remove_tail, hemp, hq.1]
      rw [e1, e2]
      exact ⟨⟨fun _ => Or.inr rfl, fun _ => ⟨_, rfl, rfl⟩⟩, fun r h _ => (Option.some.inj h).symm,
        fun _ => ⟨_, rfl⟩, ⟨fun _ => Or.inr rfl, fun _ => ⟨_, rfl, rfl⟩⟩,
        fun r h _ => (Option.some.inj h).symm, fun _ => ⟨_, rfl⟩⟩
    | some b =>
      have hp0 : p ≠ NULL := fun e2 => hq.2.1 (by rw [e, ← e2]; simp)
      have e2 := q_remove_tail_spec m head p l b bufsize (e ▸ hq)
      cases ps with
      | nil => exact absurd rfl hne
      | cons c t =>
        have hc0 : c ≠ NULL := fun e3 => hq.2.1 (by rw [← e3]; simp)
        have e1 := q_remove_head_spec m head c t b bufsize hq
        rw [e1, e2]
        by_cases hcap : sizeSub1 bufsize < bufsize % 2 ^ 64
        · rw [if_pos hcap, if_pos hcap]
          simp [hc0, hp0]
        · have h0 : bufsize % 2 ^ 64 = 0 := by
            have := (stores_inside_iff bufsize).not.mp hcap
            simpa using this
          rw [if_neg hcap, if_neg hcap]
          exact ⟨⟨fun ⟨_, h, _⟩ => by simp at h, fun h => by simp at h⟩, fun _ h => by simp at h,
            fun h => absurd h0 h, ⟨fun ⟨_, h, _⟩ => by simp at h, fun h => by simp at h⟩,
            fun _ h => by simp at h, fun h => absurd h0 h⟩

/-- Witness of C11: a non-empty queue and an absent buffer. -/
theorem q_remove_fails_iff_witness :
    IsQueue (mkQueue [[97], [98]]) 1 [2, 4] ∧
    ((∃ r, q_remove_head (mkQueue [[97], [98]]) 1 none 8 = some r ∧ r.elem = NULL) ↔
      ([2, 4] : List Ptr) = [] ∨ (none : Option Buf) = none) :=
  ⟨by decide, (q_remove_fails_iff (mkQueue [[97], [98]]) 1 [2, 4] none 8 (by decide)).2.2.1⟩

/-! ## Claim on circularity -/

theorem circular_congr (m m2 : Mem) (head : Ptr) (ps : List Ptr) (h1 : m2.next = m.next)
    (h2 : m2.prev = m.prev) (hc : Circular m head ps) : Circular m2 head ps :=
  (circular_iff_isQueue m2 head ps).mpr
    (isQueue_congr m m2 head ps h1 h2 ((circular_iff_isQueue m head ps).mp hc))

/-- C12: circularity is kept by every public mutator: when the nodes `ps` of
the list at `head` satisfy `n.next.prev == n` and `n.prev.next == n` and `next`
leads from the sentinel through them back to the sentinel, the same holds, for
the nodes then in the list, after `q_insert_head`, `q_insert_tail` (successful
or not, the new block not being one of the list, the string shorter than
`INT_MAX`), `q_remove_head`, `q_remove_tail` (the capacity not `0` as a
`size_t`, or the queue empty, or the buffer absent), `q_delete_mid`,
`q_delete_dup`, `q_swap`, `q_reverse` and `q_sort`, each of which returns; the
memory left by the `list_del_init` of a removal is circular whatever the
capacity is. -/
theorem circularity_preserved (m : Mem) (head : Ptr) (ps : List Ptr) (fuel : Nat)
    (hc : Circular m head ps) (hf : ps.length < fuel) :
    (∀ s q v, (q = NULL ∨ q ∉ head :: ps) → (q = NULL ∨ strlen s < 2 ^ 31 - 1) →
      ∃ r ps2, q_insert_head m head s q v = some r ∧ Circular r.1 head ps2) ∧
    (∀ s q v, (q = NULL ∨ q ∉ head :: ps) → (q = NULL ∨ strlen s < 2 ^ 31 - 1) →
      ∃ r ps2, q_insert_tail m head s q v = some r ∧ Circular r.1 head ps2) ∧
    (∀ sp bufsize, (bufsize % 2 ^ 64 ≠ 0 ∨ ps = [] ∨ sp = none) →
      ∃ r ps2, q_remove_head m head sp bufsize = some r ∧ Circular r.mem head ps2) ∧
    (∀ sp bufsize, (bufsize % 2 ^ 64 ≠ 0 ∨ ps = [] ∨ sp = none) →
      ∃ r ps2, q_remove_tail m head sp bufsize = some r ∧ Circular r.mem head ps2) ∧
    (ps ≠ [] → ∃ ps2, Circular (list_del_init m (m.next head)) head ps2) ∧
    (ps ≠ [] → ∃ ps2, Circular (list_del_init m (m.prev head)) head ps2) ∧
    (∃ r ps2, q_delete_mid m head fuel = some r ∧ Circular r.1 head ps2) ∧
    (∃ r ps2, q_delete_dup m head fuel = some r ∧ Circular r.1 head ps2) ∧
    (∃ m2 ps2, q_swap m head fuel = some m2 ∧ Circular m2 head ps2) ∧
    (∃ m2 ps2, q_reverse m head fuel = some m2 ∧ Circular m2 head ps2) ∧
    (∃ m2 ps2, q_sort m head fuel = some m2 ∧ Circular m2 head ps2) := by
  have hq := (circular_iff_isQueue m head ps).mp hc
  have back : ∀ (m2 : Mem) (l : List Ptr), IsQueue m2 head l → Circular m2 head l :=
    fun m2 l h => (circular_iff_isQueue m2 head l).mpr h
  refine ⟨?_, ?_, ?_, ?_, ?_, ?_, ?_, ?_, ?_, ?_, ?_⟩
  · intro s q v hfresh hs
    by_cases hq0 : q = NULL
    · exact ⟨(m, false), ps, by simp [q_insert_head, hq0], hc⟩
    · have hs2 : strlen s < INT_MAX := hs.resolve_left hq0
      by_cases hv0 : v = NULL
      · rw [hv0, q_insert_head_fail m head s q hq.1 hq0 hs2]
        exact ⟨_, ps, rfl, circular_congr m _ head ps rfl rfl hc⟩
      · obtain ⟨m2, e1, e2, _⟩ := q_insert_head_spec m head ps s q v hq hq0 hv0
          (hfresh.resolve_left hq0) hs2
        exact ⟨_, q :: ps, e1, back _ _ e2⟩
  · intro s q v hfresh hs
    by_cases hq0 : q = NULL
    · exact ⟨(m, false), ps, by simp [q_insert_tail, hq0], hc⟩
    · have hs2 : strlen s < INT_MAX := hs.resolve_left hq0
      by_cases hv0 : v = NULL
      · rw [hv0, q_insert_tail_fail m head s q hq.1 hq0 hs2]
        exact ⟨_, ps, rfl, circular_congr m _ head ps rfl rfl hc⟩
      · obtain ⟨m2, e1, e2, _⟩ := q_insert_tail_spec m head ps s q v hq hq0 hv0
          (hfresh.resolve_left hq0) hs2
        exact ⟨_, ps ++ [q], e1, back _ _ e2⟩
  · intro sp bufsize hcap
    cases ps with
    | nil =>
      have h1 : m.next head = head := isQueue_next_head m head [] hq
      exact ⟨⟨m, sp, NULL⟩, [], by simp [q_remove_head, list_empty, h1], hc⟩
    | cons p l =>
      have hemp : list_empty m head = false := by
        have h1 : m.next head = p := isQueue_next_head m head (p :: l) hq
        have hph : p ≠ head := fun e => (List.nodup_cons.mp hq.2.2.1).1 (by simp [e])
        simp [list_empty, h1, hph]
      cases sp with
      | none =>
        exact ⟨⟨m, none, NULL⟩, p :: l, by simp [q_remove_head, hemp, hq.1], hc⟩
      | some b =>
        have h0 : bufsize % 2 ^ 64 ≠ 0 := by
          rcases hcap with h | h | h
          · exact h
          · exact absurd h (by simp)
          · exact absurd h (by simp)
        rw [q_remove_head_spec m head p l b bufsize hq,
          if_pos ((stores_inside_iff bufsize).mpr h0)]
        exact ⟨_, l, rfl, back _ _ (isQueue_list_del_init m head p [] l hq)⟩
  · intro sp bufsize hcap
    rcases List.eq_nil_or_concat ps with e | ⟨l, p, e⟩
    · subst e
      have h1 : m.next head = head := isQueue_next_head m head [] hq
      exact ⟨⟨m, sp, NULL⟩, [], by simp [q_remove_tail, list_empty, h1], hc⟩
    · rw [List.concat_eq_append] at e
      subst e
      have hemp : list_empty m head = false := by
        have h1 : m.next head = (l ++ [p]).headD head := isQueue_next_head m head _ hq
        have hnd := (List.nodup_cons.mp hq.2.2.1).1
        have hne : m.next head ≠ head := by
          rw [h1]
          intro e
          cases l with
          | nil => exact hnd (by simp at e; simp [e])
          | cons c l => exact hnd (by simp at e; simp [e])
        simp [list_empty, hne]
      cases sp with
      | none =>
        exact ⟨⟨m, none, NULL⟩, l ++ [p], by simp [q_remove_tail, hemp, hq.1], hc⟩
      | some b =>
        have h0 : bufsize % 2 ^ 64 ≠ 0 := by
          rcases hcap with h | h | h
          · exact h
          · exact absurd h (by simp)
          · exact absurd h (by simp)
        rw [q_remove_tail_spec m head p l b bufsize hq,
          if_pos ((stores_inside_iff bufsize).mpr h0)]
        refine ⟨_, l, rfl, back _ _ ?_⟩
        have := isQueue_list_del_init m head p l [] hq
        simpa using this
  · intro hne
    cases ps with
    | nil => exact absurd rfl hne
    | cons p l =>
      rw [isQueue_next_head m head (p :: l) hq]
      exact ⟨l, back _ _ (isQueue_list_del_init m head p [] l hq)⟩
  · intro hne
    rcases List.eq_nil_or_concat ps with e | ⟨l, p, e⟩
    · exact absurd e hne
    · rw [List.concat_eq_append] at e
      subst e
      rw [isQueue_prev_head m head _ hq, List.getLastD_concat]
      refine ⟨l, back _ _ ?_⟩
      have := isQueue_list_del_init m head p l [] hq
      simpa using this
  · by_cases hne : ps = []
    · subst hne
      have h1 : m.next head = head := isQueue_next_head m head [] hq
      exact ⟨(m, false), [], by simp [q_delete_mid, list_empty, h1], hc⟩
    · obtain ⟨e1, e2⟩ := q_delete_mid_spec m head ps fuel hq hne hf
      exact ⟨_, _, e1, back _ _ e2⟩
  · by_cases hne : ps = []
    · subst hne
      have h1 : m.next head = head := isQueue_next_head m head [] hq
      exact ⟨(m, false), [], by simp [q_delete_dup, list_empty, h1], hc⟩
    · obtain ⟨m2, e1, e2, _⟩ := q_delete_dup_spec m head ps fuel hq hne (by omega)
      exact ⟨_, _, e1, back _ _ e2⟩
  · obtain ⟨m2, e1, e2, _⟩ := q_swap_spec m head ps fuel hq hf
    exact ⟨m2, _, e1, back _ _ e2⟩
  · obtain ⟨m2, e1, e2, _⟩ := q_reverse_spec m head ps fuel hq hf
    exact ⟨m2, _, e1, back _ _ e2⟩
  · obtain ⟨m2, out, e1, e2, _⟩ := q_sort_spec m head ps fuel hq hf
    exact ⟨m2, out, e1, back _ _ e2⟩

/-- Witness of C12: the queue `[b, a, c]`, sorted. -/
theorem circularity_preserved_witness :
    Circular (mkQueue [[98], [97], [99]]) 1 [2, 4, 6] ∧
    ∃ m2 ps2, q_sort (mkQueue [[98], [97], [99]]) 1 4 = some m2 ∧ Circular m2 1 ps2 :=
  ⟨by decide, (circularity_preserved (mkQueue [[98], [97], [99]]) 1 [2, 4, 6] 4 (by decide)
    (by decide)).2.2.2.2.2.2.2.2.2.2⟩

/-! ## `q_size` along a sequence of calls -/

theorem live_after_allocs (live : Ptr → Bool) (q v p : Ptr) (h : live p = true) :
    Function.update (Function.update live q true) v true p = true := by
  by_cases h1 : p = v
  · rw [h1, Function.update_same]
  · rw [Function.update_noteq h1]
    by_cases h2 : p = q
    · rw [h2, Function.update_same]
    · rw [Function.update_noteq h2]; exact h

theorem tally_insert (head : Ptr) (t : Tally) (ps : List Ptr) (s : List Nat) (q v : Ptr)
    (f : Mem → Ptr → List Nat → Ptr → Ptr → Option (Mem × Bool))
    (hf : f = q_insert_head ∨ f = q_insert_tail)
    (hinv : TallyInv head t ps) (hs : strlen s < INT_MAX)
    (hm : mallocOk t.mem q ∧ (q ≠ NULL → mallocOk (setLive t.mem q) v)) :
    ∃ r ps2, f t.mem head s q v = some r ∧ IsQueue r.1 head ps2 ∧
      (∀ p ∈ head :: ps2, r.1.live p = true) ∧
      ps2.length = ps.length + (if r.2 = true then 1 else 0) := by
  obtain ⟨hq, hlive, _⟩ := hinv
  by_cases hq0 : q = NULL
  · refine ⟨(t.mem, false), ps, ?_, hq, hlive, by simp⟩
    rcases hf with rfl | rfl
    · simp [q_insert_head, hq0]
    · simp [q_insert_tail, hq0]
  · have hql : t.mem.live q = false := hm.1.resolve_left hq0
    have hfresh : q ∉ head :: ps := by
      intro hmem
      have := hlive q hmem
      rw [hql] at this
      exact absurd this (by decide)
    by_cases hv0 : v = NULL
    · have hl2 : ∀ p ∈ head :: ps, (free (setLive t.mem q) q).live p = true := by
        intro p hp
        have hpq : p ≠ q := fun e => hfresh (e ▸ hp)
        simp [free, setLive, Function.update_noteq hpq, hlive p hp]
      refine ⟨(free (setLive t.mem q) q, false), ps, ?_,
        isQueue_congr t.mem _ head ps rfl rfl hq, hl2, by simp⟩
      rcases hf with rfl | rfl
      · rw [hv0, q_insert_head_fail t.mem head s q hq.1 hq0 hs]
      · rw [hv0, q_insert_tail_fail t.mem head s q hq.1 hq0 hs]
    · rcases hf with rfl | rfl
      · obtain ⟨m2, e1, e2, _, _, hl⟩ :=
          q_insert_head_spec t.mem head ps s q v hq hq0 hv0 hfresh hs
        refine ⟨(m2, true), q :: ps, e1, e2, fun p hp => ?_, by simp⟩
        show m2.live p = true
        rw [hl]
        rcases List.mem_cons.mp hp with h1 | h1
        · exact live_after_allocs _ q v p (hlive p (h1 ▸ List.mem_cons_self _ _))
        · rcases List.mem_cons.mp h1 with h2 | h2
          · rw [h2]
            by_cases hqv : q = v
            · rw [hqv, Function.update_same]
            · rw [Function.update_noteq hqv, Function.update_same]
          · exact live_after_allocs _ q v p (hlive p (List.mem_cons_of_mem _ h2))
      · obtain ⟨m2, e1, e2, _, _, hl⟩ :=
          q_insert_tail_spec t.mem head ps s q v hq hq0 hv0 hfresh hs
        refine ⟨(m2, true), ps ++ [q], e1, e2, fun p hp => ?_, by simp⟩
        show m2.live p = true
        rw [hl]
        rcases List.mem_cons.mp hp with h1 | h1
        · exact live_after_allocs _ q v p (hlive p (h1 ▸ List.mem_cons_self _ _))
        · rcases List.mem_append.mp h1 with h2 | h2
          · exact live_after_allocs _ q v p (hlive p (List.mem_cons_of_mem _ h2))
          · simp at h2
            rw [h2]
            by_cases hqv : q = v
            · rw [hqv, Function.update_same]
            · rw [Function.update_noteq hqv, Function.update_same]

theorem tally_remove (head : Ptr) (t : Tally) (ps : List Ptr) (sp : Option Buf) (bufsize : Nat)
    (f : Mem → Ptr → Option Buf → Nat → Option Removed)
    (hf : f = q_remove_head ∨ f = q_remove_tail) (hinv : TallyInv head t ps)
    (hb1 : 1 ≤ bufsize) (hb2 : bufsize < 2 ^ 64) :
    ∃ r ps2, f t.mem head sp bufsize = some r ∧ IsQueue r.mem head ps2 ∧
      (∀ p ∈ head :: ps2, r.mem.live p = true) ∧
      ps2.length + (if r.elem ≠ NULL then 1 else 0) = ps.length := by
  obtain ⟨hq, hlive, _⟩ := hinv
  have hnx := isQueue_next_head t.mem head ps hq
  have hcap := stores_inside bufsize hb1 hb2
  rcases List.eq_nil_or_concat ps with e | ⟨l, p, e⟩
  · subst e
    have h1 : t.mem.next head = head := hnx
    refine ⟨⟨t.mem, sp, NULL⟩, [], ?_, hq, hlive, by simp⟩
    rcases hf with rfl | rfl
    · simp [q_remove_head, list_empty, h1]
    · simp [q_remove_tail, list_empty, h1]
  · rw [List.concat_eq_append] at e
    have hne : ps ≠ [] := by rw [e]; simp
    cases sp with
    | none =>
      have hemp : list_empty t.mem head = false := by
        cases ps with
        | nil => exact absurd rfl hne
        | cons c r =>
          have h1 : t.mem.next head = c := hnx
          have hch : c ≠ head := fun e2 => (List.nodup_cons.mp hq.2.2.1).1 (by simp [e2])
          simp [list_empty, h1, hch]
      refine ⟨⟨t.mem, none, NULL⟩, ps, ?_, hq, hlive, by simp⟩
      rcases hf with rfl | rfl
      · simp [q_remove_head, hemp, hq.1]
      · simp [q_remove_tail, hemp, hq.1]
    | some b =>
      rcases hf with rfl | rfl
      · cases ps with
        | nil => exact absurd rfl hne
        | cons c r =>
          have hc0 : c ≠ NULL := fun e3 => hq.2.1 (by rw [← e3]; simp)
          refine ⟨_, r, (q_remove_head_spec t.mem head c r b bufsize hq).trans (if_pos hcap),
            isQueue_list_del_init t.mem head c [] r hq, fun x hx => ?_, by simp [hc0]⟩
          refine hlive x ?_
          rcases List.mem_cons.mp hx with h1 | h1
          · rw [h1]; exact List.mem_cons_self _ _
          · exact List.mem_cons_of_mem _ (List.mem_cons_of_mem _ h1)
      · subst e
        have hp0 : p ≠ NULL := fun e3 => hq.2.1 (by rw [← e3]; simp)
        have h2 := isQueue_list_del_init t.mem head p l [] hq
        rw [List.append_nil] at h2
        refine ⟨_, l, (q_remove_tail_spec t.mem head p l b bufsize hq).trans (if_pos hcap),
          h2, fun x hx => ?_, by simp [hp0]⟩
        refine hlive x ?_
        rcases List.mem_cons.mp hx with h1 | h1
        · rw [h1]; exact List.mem_cons_self _ _
        · exact List.mem_cons_of_mem _ (List.mem_append_left _ h1)

/-- The bookkeeping of one call that returns. -/
theorem tally_step_of_run (head : Ptr) (t : Tally) (ps ps2 : List Ptr) (c : Call)
    (r : Mem × Bool) (hinv : TallyInv head t ps) (hrun : c.run t.mem head = some r)
    (hq : IsQueue r.1 head ps2) (hl : ∀ p ∈ head :: ps2, r.1.live p = true)
    (hlen : (c.isInsert = true → ps2.length = ps.length + (if r.2 = true then 1 else 0)) ∧
      (c.isInsert = false → ps2.length + (if r.2 = true then 1 else 0) = ps.length)) :
    ∃ t2, t.step head c = some t2 ∧ t2.mem = r.1 ∧ TallyInv head t2 ps2 ∧
      t2.inserts ≤ t.inserts + 1 := by
  have hcount := hinv.2.2
  by_cases h : r.2 = true
  · by_cases hi : c.isInsert = true
    · have h3 := hlen.1 hi
      rw [if_pos h] at h3
      refine ⟨⟨r.1, t.inserts + 1, t.removals⟩, ?_, rfl, ⟨hq, hl, ?_⟩, Nat.le_refl _⟩
      · simp [Tally.step, hrun, h, hi]
      · show ps2.length + t.removals = t.inserts + 1
        omega
    · have h3 := hlen.2 (by simpa using hi)
      rw [if_pos h] at h3
      refine ⟨⟨r.1, t.inserts, t.removals + 1⟩, ?_, rfl, ⟨hq, hl, ?_⟩, Nat.le_succ _⟩
      · simp [Tally.step, hrun, h, hi]
      · show ps2.length + (t.removals + 1) = t.inserts
        omega
  · refine ⟨⟨r.1, t.inserts, t.removals⟩, ?_, rfl, ⟨hq, hl, ?_⟩, Nat.le_succ _⟩
    · simp [Tally.step, hrun, h]
    · show ps2.length + t.removals = t.inserts
      by_cases hi : c.isInsert = true
      · have h3 := hlen.1 hi
        rw [if_neg h] at h3
        omega
      · have h3 := hlen.2 (by simpa using hi)
        rw [if_neg h] at h3
        omega

/-- One call with arguments in range returns and keeps what the bookkeeping
relies on. -/
theorem tally_step (head : Ptr) (t : Tally) (ps : List Ptr) (c : Call)
    (hinv : TallyInv head t ps) (ha : c.argsOk) (hm : c.mallocsOk t.mem) :
    ∃ r t2 ps2, c.run t.mem head = some r ∧ t.step head c = some t2 ∧ t2.mem = r.1 ∧
      TallyInv head t2 ps2 ∧ t2.inserts ≤ t.inserts + 1 := by
  cases c with
  | insert_head s q v =>
    obtain ⟨r, ps2, er, e1, e2, e3⟩ :=
      tally_insert head t ps s q v q_insert_head (Or.inl rfl) hinv ha hm
    obtain ⟨t2, k1, k2, k3, k4⟩ := tally_step_of_run head t ps ps2 (Call.insert_head s q v) r
      hinv er e1 e2 ⟨fun _ => e3, fun h => by simp [Call.isInsert] at h⟩
    exact ⟨r, t2, ps2, er, k1, k2, k3, k4⟩
  | insert_tail s q v =>
    obtain ⟨r, ps2, er, e1, e2, e3⟩ :=
      tally_insert head t ps s q v q_insert_tail (Or.inr rfl) hinv ha hm
    obtain ⟨t2, k1, k2, k3, k4⟩ := tally_step_of_run head t ps ps2 (Call.insert_tail s q v) r
      hinv er e1 e2 ⟨fun _ => e3, fun h => by simp [Call.isInsert] at h⟩
    exact ⟨r, t2, ps2, er, k1, k2, k3, k4⟩
  | remove_head sp bufsize =>
    obtain ⟨r, ps2, er, e1, e2, e3⟩ :=
      tally_remove head t ps sp bufsize q_remove_head (Or.inl rfl) hinv ha.1 ha.2
    have hrun : (Call.remove_head sp bufsize).run t.mem head
        = some (r.mem, decide (r.elem ≠ NULL)) := by
      simp [Call.run, er]
    obtain ⟨t2, k1, k2, k3, k4⟩ := tally_step_of_run head t ps ps2 (Call.remove_head sp bufsize)
      (r.mem, decide (r.elem ≠ NULL)) hinv hrun e1 e2
      ⟨fun h => by simp [Call.isInsert] at h, fun _ => by simpa using e3⟩
    exact ⟨_, t2, ps2, hrun, k1, k2, k3, k4⟩
  | remove_tail sp bufsize =>
    obtain ⟨r, ps2, er, e1, e2, e3⟩ :=
      tally_remove head t ps sp bufsize q_remove_tail (Or.inr rfl) hinv ha.1 ha.2
    have hrun : (Call.remove_tail sp bufsize).run t.mem head
        = some (r.mem, decide (r.elem ≠ NULL)) := by
      simp [Call.run, er]
    obtain ⟨t2, k1, k2, k3, k4⟩ := tally_step_of_run head t ps ps2 (Call.remove_tail sp bufsize)
      (r.mem, decide (r.elem ≠ NULL)) hinv hrun e1 e2
      ⟨fun h => by simp [Call.isInsert] at h, fun _ => by simpa using e3⟩
    exact ⟨_, t2, ps2, hrun, k1, k2, k3, k4⟩

/-- A sequence of calls with arguments in range returns and keeps what the
bookkeeping relies on. -/
theorem runCalls_inv (head : Ptr) : ∀ (cs : List Call) (t : Tally) (ps : List Ptr),
    TallyInv head t ps → callsOk head t.mem cs →
    ∃ t2 ps2, runCalls head t cs = some t2 ∧ TallyInv head t2 ps2 ∧
      t2.inserts ≤ t.inserts + cs.length := by
  intro cs
  induction cs with
  | nil => intro t ps hinv _; exact ⟨t, ps, rfl, hinv, by simp⟩
  | cons c cs ih =>
    intro t ps hinv hok
    obtain ⟨r, t1, ps1, hrun, hstep, hmem, h1, h2⟩ := tally_step head t ps c hinv hok.1 hok.2.1
    have hok2 : callsOk head t1.mem cs := by
      rw [hmem]
      exact hok.2.2 r hrun
    obtain ⟨t2, ps2, h3, h4, h5⟩ := ih t1 ps1 h1 hok2
    refine ⟨t2, ps2, ?_, h4, ?_⟩
    · simp only [runCalls, hstep]
      exact h3
    · simp only [List.length_cons]
      omega

/-- A freshly created queue is empty and well formed. -/
theorem q_new_spec (m : Mem) (q : Ptr) (hq : q ≠ NULL) :
    (q_new m q).2 = q ∧ IsQueue (q_new m q).1 q [] ∧ (q_new m q).1.live q = true := by
  have e : q_new m q = (INIT_LIST_HEAD (setLive m q) q, q) := by
    simp only [q_new, hq, if_false]
  rw [e]
  refine ⟨rfl, ⟨hq, by simp, by simp, ?_, ?_⟩, ?_⟩
  · simp [Linked, INIT_LIST_HEAD, setNext, setPrev]
  · simp [Linked, INIT_LIST_HEAD, setNext, setPrev]
  · simp [INIT_LIST_HEAD, setNext, setPrev, setLive]

/-! ## Claim on `q_size` -/

/-- C13: `q_size` returns 0 for an absent and for an empty queue; every
sequence of `q_insert_head`, `q_insert_tail`, `q_remove_head` and
`q_remove_tail` calls on a freshly created queue (each string shorter than
`INT_MAX`, each capacity with `1 ≤ bufsize < 2 ^ 64`, each `malloc` returning
`NULL` or a block that is not allocated) returns, and after it `q_size` returns
the number of successful inserts less the number of successful removals. -/
theorem q_size_counts_calls (m m0 : Mem) (head q0 : Ptr) (cs : List Call) (fuel : Nat)
    (hq0 : q0 ≠ NULL) (hok : callsOk q0 (q_new m0 q0).1 cs) (hf : cs.length < fuel) :
    q_size m NULL fuel = some 0 ∧
    (IsQueue m head [] → q_size m head fuel = some 0) ∧
    ∃ t, runCalls q0 ⟨(q_new m0 q0).1, 0, 0⟩ cs = some t ∧ t.removals ≤ t.inserts ∧
      q_size t.mem q0 fuel = some (t.inserts - t.removals) := by
  obtain ⟨_, n1, n2⟩ := q_new_spec m0 q0 hq0
  have hinv0 : TallyInv q0 ⟨(q_new m0 q0).1, 0, 0⟩ [] :=
    ⟨n1, fun p hp => by simp at hp; rw [hp]; exact n2, rfl⟩
  obtain ⟨t, ps2, hrun, ⟨h1, _, h3⟩, h4⟩ := runCalls_inv q0 cs _ [] hinv0 hok
  simp only [Nat.zero_add] at h4
  refine ⟨by simp [q_size], fun hq => ?_, t, hrun, by omega, ?_⟩
  · have := q_size_spec m head [] fuel hq (by simp; omega)
    simpa using this
  · rw [q_size_spec _ q0 ps2 fuel h1 (by omega)]
    congr 1
    omega

/-- Witness of C13: two inserts, a removal, a failed insert and a failed removal. -/
theorem q_size_counts_calls_witness :
    callsOk 1 (q_new emptyMem 1).1
      [Call.insert_head [97] 2 3, Call.insert_tail [98] 4 5,
        Call.remove_head (some fun _ => 0) 8, Call.insert_head [99] NULL 0,
        Call.remove_tail none 8] ∧
    ∃ t, runCalls 1 ⟨(q_new emptyMem 1).1, 0, 0⟩
      [Call.insert_head [97] 2 3, Call.insert_tail [98] 4 5,
        Call.remove_head (some fun _ => 0) 8, Call.insert_head [99] NULL 0,
        Call.remove_tail none 8] = some t ∧ t.removals ≤ t.inserts ∧
      q_size t.mem 1 6 = some (t.inserts - t.removals) :=
  ⟨by decide, (q_size_counts_calls emptyMem emptyMem 1 1
      [Call.insert_head [97] 2 3, Call.insert_tail [98] 4 5,
        Call.remove_head (some fun _ => 0) 8, Call.insert_head [99] NULL 0,
        Call.remove_tail none 8] 6 (by decide) (by decide) (by decide)).2.2⟩

/-! ## Equal strings -/

theorem strcmp_eq_zero_iff (x y : List Nat) : strcmp x y = 0 ↔ cstr x = cstr y := by
  induction x generalizing y with
  | nil =>
    cases y with
    | nil => simp [strcmp, cstr]
    | cons b bs =>
      by_cases hb : b = 0
      · simp [strcmp, cstr, hb]
      · simp [strcmp, cstr, hb]
  | cons a as ih =>
    cases y with
    | nil =>
      by_cases ha : a = 0
      · simp [strcmp, cstr, ha]
      · simp [strcmp, cstr, ha]
    | cons b bs =>
      by_cases hab : a = b
      · subst hab
        by_cases ha : a = 0
        · simp [strcmp, cstr, ha]
        · simp [strcmp, cstr, ha, ih bs]
      · have hne : (a : Int) - (b : Int) ≠ 0 := by omega
        simp only [strcmp, ne_eq, hab, not_false_eq_true, if_true, hne, false_iff]
        by_cases ha : a = 0
        · have hb : b ≠ 0 := fun e => hab (by rw [ha, e])
          simp [cstr, ha, hb]
        · by_cases hb : b = 0
          · simp [cstr, ha, hb]
          · simp [cstr, ha, hb, hab]

theorem strcmp_cstr (x y : List Nat) : strcmp (cstr x) (cstr y) = strcmp x y := by
  induction x generalizing y with
  | nil =>
    cases y with
    | nil => rfl
    | cons b bs =>
      by_cases hb : b = 0
      · simp [strcmp, cstr, hb]
      · simp [strcmp, cstr, hb]
  | cons a as ih =>
    cases y with
    | nil =>
      by_cases ha : a = 0
      · simp [strcmp, cstr, ha]
      · simp [strcmp, cstr, ha]
    | cons b bs =>
      by_cases ha : a = 0
      · by_cases hb : b = 0
        · simp [strcmp, cstr, ha, hb]
        · have : ¬ (0 = b) := fun e => hb e.symm
          simp [strcmp, cstr, ha, hb, this]
      · by_cases hb : b = 0
        · simp [strcmp, cstr, ha, hb]
        · by_cases hab : a = b
          · subst hab
            simp [strcmp, cstr, ha, ih bs]
          · simp [strcmp, cstr, ha, hb, hab]

/-! ## Claim on the round trip -/

/-- C14: on a well-formed queue, for a string `s` of fewer than
`INT_MAX = 2 ^ 31 - 1` bytes, a successful `q_insert_head` of `s` followed at
once by `q_remove_head` into a buffer of capacity above `strlen s` (and below
`2 ^ 64`) returns the inserted element, whose string equals `s`, leaves in the
buffer a string equal to `s`, and leaves the queue with the nodes, the strings
and the size it had before the two calls. -/
theorem insert_remove_round_trip (m : Mem) (head : Ptr) (ps : List Ptr) (s : List Nat)
    (q v : Ptr) (b : Buf) (cap fuel : Nat) (hq : IsQueue m head ps) (hq0 : q ≠ NULL)
    (hv0 : v ≠ NULL) (hfresh : q ∉ head :: ps) (hvfresh : ∀ p ∈ ps, m.value p ≠ v)
    (hs : strlen s < 2 ^ 31 - 1) (hcap : strlen s < cap) (hcap2 : cap < 2 ^ 64)
    (hf : ps.length < fuel) :
    ∃ m1 r, q_insert_head m head s q v = some (m1, true) ∧
      q_remove_head m1 head (some b) cap = some r ∧ r.elem = q ∧
      cstr (valueOf r.mem r.elem) = cstr s ∧ strcmp (valueOf r.mem r.elem) s = 0 ∧
      (∃ b2, r.buf = some b2 ∧ bufString b2 cap = cstr s) ∧
      IsQueue r.mem head ps ∧ values r.mem ps = values m ps ∧
      q_size m head fuel = some ps.length ∧ q_size r.mem head fuel = some ps.length := by
  obtain ⟨m1, e1, e2, e3, e4, _⟩ := q_insert_head_spec m head ps s q v hq hq0 hv0 hfresh hs
  have hqps : q ∉ ps := fun hm => hfresh (List.mem_cons_of_mem _ hm)
  obtain ⟨v1, v2⟩ := values_after_insert m m1 ps q v _ e3 e4 hqps hvfresh
  have hr := (q_remove_head_spec m1 head q ps b cap e2).trans
    (if_pos (stores_inside cap (by omega) hcap2))
  have hq2 : IsQueue (list_del_init m1 q) head ps := isQueue_list_del_init m1 head q [] ps e2
  have hc : cstr (valueOf m1 q) = cstr s := by
    rw [v1]; exact cstr_append_zero _ [] (cstr_not_mem_zero s)
  refine ⟨m1, _, e1, hr, rfl, hc, (strcmp_eq_zero_iff _ _).mpr hc, ?_, hq2, v2,
    q_size_spec m head ps fuel hq hf, q_size_spec _ head ps fuel hq2 hf⟩
  refine ⟨_, rfl, ?_⟩
  rw [copyOut_eq b _ cap (by omega) hcap2]
  have hb := (buffer_after_copy b (valueOf m1 q) cap (by omega)).1
  rw [hb, hc]
  exact List.take_of_length_le (by rw [cstr_length]; omega)

/-- Witness of C14: "c" goes into `[a, b]` and comes out again. -/
theorem insert_remove_round_trip_witness :
    IsQueue (mkQueue [[97], [98]]) 1 [2, 4] ∧
    ∃ m1 r, q_insert_head (mkQueue [[97], [98]]) 1 [99] 6 7 = some (m1, true) ∧
      q_remove_head m1 1 (some fun _ => 7) 2 = some r ∧ r.elem = 6 ∧
      cstr (valueOf r.mem r.elem) = [99] ∧ strcmp (valueOf r.mem r.elem) [99] = 0 ∧
      (∃ b2, r.buf = some b2 ∧ bufString b2 2 = [99]) ∧
      IsQueue r.mem 1 [2, 4] ∧ values r.mem [2, 4] = values (mkQueue [[97], [98]]) [2, 4] ∧
      q_size (mkQueue [[97], [98]]) 1 3 = some 2 ∧ q_size r.mem 1 3 = some 2 :=
  ⟨by decide, insert_remove_round_trip (mkQueue [[97], [98]]) 1 [2, 4] [99] 6 7 (fun _ => 7) 2 3
    (by decide) (by decide) (by decide) (by decide) (by decide) (by decide) (by decide)
    (by decide) (by decide)⟩

/-! ## Claim on reversing twice -/

/-- The links after `q_reverse`: every node of the circle, the sentinel
included, has its two links exchanged; nothing else changes. -/
theorem q_reverse_fields (m : Mem) (head : Ptr) (ps : List Ptr) (fuel : Nat)
    (hq : IsQueue m head ps) (hf : ps.length < fuel) :
    ∃ m2, q_reverse m head fuel = some m2 ∧
      (∀ x, m2.next x = if x ∈ head :: ps then m.prev x else m.next x) ∧
      (∀ x, m2.prev x = if x ∈ head :: ps then m.next x else m.prev x) ∧
      m2.value = m.value ∧ m2.str = m.str ∧ m2.live = m.live := by
  have hnx := isQueue_next_head m head ps hq
  have hpv := isQueue_prev_head m head ps hq
  cases ps with
  | nil =>
    have h1 : m.next head = head := hnx
    have h2 : m.prev head = head := hpv
    refine ⟨m, by simp [q_reverse, list_empty, h1], fun x => ?_, fun x => ?_, rfl, rfl, rfl⟩
    · by_cases hx : x = head
      · subst hx; simp [h1, h2]
      · simp [hx]
    · by_cases hx : x = head
      · subst hx; simp [h1, h2]
      · simp [hx]
  | cons p ps =>
    have h1 : m.next head = p := hnx
    have hnd := hq.2.2.1
    have hh := hq.1
    have hph : p ≠ head := fun e => (List.nodup_cons.mp hnd).1 (by simp [e])
    have hhead : head ∉ p :: ps := (List.nodup_cons.mp hnd).1
    obtain ⟨m2, r1, r2, r3, r4, r5, r6⟩ := q_reverse_loop_spec m head (p :: ps) hq fuel
      (p :: ps) [] m rfl hf (by simp) (by simp) rfl rfl rfl
    refine ⟨setPrev (setNext m2 head (m2.prev head)) head (m2.next head), ?_, fun x => ?_,
      fun x => ?_, r4, r5, r6⟩
    · unfold q_reverse
      rw [if_neg (by simp [list_empty, h1, hph, hh]), h1]
      rw [List.headD_cons] at r1
      rw [r1]
    · show Function.update m2.next head (m2.prev head) x = _
      by_cases hxh : x = head
      · subst hxh
        rw [Function.update_same, r3 x, if_neg hhead, if_pos (List.mem_cons_self _ _)]
      · rw [Function.update_noteq hxh, r2 x]
        by_cases hxm : x ∈ p :: ps
        · rw [if_pos hxm, if_pos (List.mem_cons_of_mem _ hxm)]
        · rw [if_neg hxm, if_neg (fun hm => (List.mem_cons.mp hm).elim hxh hxm)]
    · show Function.update m2.prev head (m2.next head) x = _
      by_cases hxh : x = head
      · subst hxh
        rw [Function.update_same, r2 x, if_neg hhead, if_pos (List.mem_cons_self _ _)]
      · rw [Function.update_noteq hxh, r3 x]
        by_cases hxm : x ∈ p :: ps
        · rw [if_pos hxm, if_pos (List.mem_cons_of_mem _ hxm)]
        · rw [if_neg hxm, if_neg (fun hm => (List.mem_cons.mp hm).elim hxh hxm)]

/-- C15: `q_reverse` is its own inverse: on a well-formed queue, `q_reverse`
applied twice gives back the very memory it started from, so the same elements
at the same positions with the same strings. -/
theorem q_reverse_twice (m : Mem) (head : Ptr) (ps : List Ptr) (fuel : Nat)
    (hq : IsQueue m head ps) (hf : ps.length < fuel) :
    ∃ m2, q_reverse m head fuel = some m2 ∧ IsQueue m2 head ps.reverse ∧
      q_reverse m2 head fuel = some m := by
  obtain ⟨m2, e1, e2, e3, e4, e5, e6⟩ := q_reverse_fields m head ps fuel hq hf
  obtain ⟨m2b, f1, f2, _⟩ := q_reverse_spec m head ps fuel hq hf
  have hm : m2b = m2 := Option.some.inj (f1.symm.trans e1)
  rw [hm] at f2
  obtain ⟨m3, g1, g2, g3, g4, g5, g6⟩ := q_reverse_fields m2 head ps.reverse fuel f2
    (by simpa using hf)
  have hmem : ∀ x, x ∈ head :: ps.reverse ↔ x ∈ head :: ps := by
    intro x; simp
  have h3 : m3 = m := by
    refine mem_ext m m3 ?_ ?_ (g4.trans e4) (g5.trans e5) (g6.trans e6)
    · funext x
      rw [g2 x]
      by_cases hx : x ∈ head :: ps
      · rw [if_pos ((hmem x).mpr hx), e3 x, if_pos hx]
      · rw [if_neg (fun h => hx ((hmem x).mp h)), e2 x, if_neg hx]
    · funext x
      rw [g3 x]
      by_cases hx : x ∈ head :: ps
      · rw [if_pos ((hmem x).mpr hx), e2 x, if_pos hx]
      · rw [if_neg (fun h => hx ((hmem x).mp h)), e3 x, if_neg hx]
  exact ⟨m2, e1, f2, by rw [g1, h3]⟩

/-- Witness of C15: `[a, b, c]` reversed twice. -/
theorem q_reverse_twice_witness :
    IsQueue (mkQueue [[97], [98], [99]]) 1 [2, 4, 6] ∧
    ∃ m2, q_reverse (mkQueue [[97], [98], [99]]) 1 4 = some m2 ∧ IsQueue m2 1 [6, 4, 2] ∧
      q_reverse m2 1 4 = some (mkQueue [[97], [98], [99]]) :=
  ⟨by decide, q_reverse_twice (mkQueue [[97], [98], [99]]) 1 [2, 4, 6] 4 (by decide) (by decide)⟩

/-! ## Sorting a sorted queue -/

/-- Two arrangements of the same strings that are both non-decreasing under
`strcmp` are the same sequence of strings. -/
theorem ascending_perm_unique (l1 l2 : List (List Nat)) (hp : l1.Perm l2)
    (h1 : Ascending l1) (h2 : Ascending l2) : l1.map cstr = l2.map cstr := by
  have key : ∀ a b : List Nat, strcmp a b ≤ 0 →
      (strcmp (cstr a) (cstr b) < 0 ∨ cstr a = cstr b) := by
    intro a b h
    rw [strcmp_cstr]
    by_cases h0 : strcmp a b = 0
    · exact Or.inr ((strcmp_eq_zero_iff a b).mp h0)
    · exact Or.inl (by omega)
  haveI : IsAntisymm (List Nat) (fun a b => strcmp a b < 0 ∨ a = b) :=
    ⟨fun a b hab hba => by
      rcases hab with h | h
      · rcases hba with h3 | h3
        · rw [strcmp_antisymm a b] at h3
          omega
        · exact h3.symm
      · exact h⟩
  have s1 : List.Sorted (fun a b => strcmp a b < 0 ∨ a = b) (l1.map cstr) :=
    List.Pairwise.map cstr key h1
  have s2 : List.Sorted (fun a b => strcmp a b < 0 ∨ a = b) (l2.map cstr) :=
    List.Pairwise.map cstr key h2
  exact List.eq_of_perm_of_sorted (hp.map cstr) s1 s2

/-- `q_sort` on a queue that is sorted already: the strings read from head to
tail are the same as before. -/
theorem q_sort_of_ascending (m : Mem) (head : Ptr) (ps : List Ptr) (fuel : Nat)
    (hq : IsQueue m head ps) (hf : ps.length < fuel) (hasc : Ascending (values m ps)) :
    ∃ m2 out, q_sort m head fuel = some m2 ∧ IsQueue m2 head out ∧ out.Perm ps ∧
      Ascending (values m2 out) ∧ valueOf m2 = valueOf m ∧
      (values m2 out).map cstr = (values m ps).map cstr := by
  obtain ⟨m2, out, e1, e2, e3, _, e5, e6, _⟩ := q_sort_spec m head ps fuel hq hf
  have hval : valueOf m2 = valueOf m := by
    funext p; simp [valueOf, e5, e6]
  have hperm : out.Perm ps := by
    rcases e3 with ⟨rfl, rfl⟩ | h
    · exact List.Perm.refl _
    · exact sorts_perm _ _ _ h
  have hout : Ascending (values m2 out) := by
    rw [values, hval]
    rcases e3 with ⟨_, rfl⟩ | h
    · simp [Ascending]
    · exact sorts_ascending _ _ _ h
  refine ⟨m2, out, e1, e2, hperm, hout, hval, ?_⟩
  refine ascending_perm_unique _ _ ?_ hout hasc
  rw [values, values, hval]
  exact hperm.map _

/-! ## Claim on sorting twice -/

/-- C16: `q_sort` is idempotent on values: on a well-formed queue whose strings
are non-decreasing under `strcmp` already, the sequence of strings read from
head to tail is the same after `q_sort` (and so is the sequence of blocks, when
every block ends at its NUL); hence for every well-formed queue sorting twice
gives the sequence of strings that sorting once gives. -/
theorem q_sort_idempotent (m : Mem) (head : Ptr) (ps : List Ptr) (fuel : Nat)
    (hq : IsQueue m head ps) (hf : ps.length < fuel) :
    (Ascending (values m ps) →
      ∃ m2 out, q_sort m head fuel = some m2 ∧ IsQueue m2 head out ∧
        (values m2 out).map cstr = (values m ps).map cstr ∧
        ((∀ p ∈ ps, valueOf m p = cstr (valueOf m p) ++ [0]) → values m2 out = values m ps)) ∧
    (∃ m2 out m3 out3, q_sort m head fuel = some m2 ∧ IsQueue m2 head out ∧
      q_sort m2 head fuel = some m3 ∧ IsQueue m3 head out3 ∧
      (values m3 out3).map cstr = (values m2 out).map cstr) := by
  constructor
  · intro hasc
    obtain ⟨m2, out, e1, e2, e3, _, e5, e6⟩ := q_sort_of_ascending m head ps fuel hq hf hasc
    refine ⟨m2, out, e1, e2, e6, fun hcan => ?_⟩
    have c1 : values m ps = ((values m ps).map cstr).map (fun c => c ++ [0]) := by
      rw [values, List.map_map, List.map_map]
      exact List.map_congr_left (fun p hp => hcan p hp)
    have c2 : values m2 out = ((values m2 out).map cstr).map (fun c => c ++ [0]) := by
      rw [values, List.map_map, List.map_map, e5]
      exact List.map_congr_left (fun p hp => hcan p (e3.subset hp))
    rw [c1, c2, e6]
  · obtain ⟨m2, out, e1, e2, e3, _, e5, e6, _⟩ := q_sort_spec m head ps fuel hq hf
    have hval : valueOf m2 = valueOf m := by
      funext p; simp [valueOf, e5, e6]
    have hlen : out.length = ps.length := by
      rcases e3 with ⟨rfl, rfl⟩ | h
      · rfl
      · exact (sorts_perm _ _ _ h).length_eq
    have hout : Ascending (values m2 out) := by
      rw [values, hval]
      rcases e3 with ⟨_, rfl⟩ | h
      · simp [Ascending]
      · exact sorts_ascending _ _ _ h
    obtain ⟨m3, out3, f1, f2, _, _, _, f6⟩ := q_sort_of_ascending m2 head out fuel e2
      (by rw [hlen]; exact hf) hout
    exact ⟨m2, out, m3, out3, e1, e2, f1, f2, f6⟩

/-- Witness of C16: the sorted queue `[a, b, b, c]`. -/
theorem q_sort_idempotent_witness :
    IsQueue (mkQueue [[97], [98], [98], [99]]) 1 [2, 4, 6, 8] ∧
    Ascending (values (mkQueue [[97], [98], [98], [99]]) [2, 4, 6, 8]) ∧
    ∃ m2 out, q_sort (mkQueue [[97], [98], [98], [99]]) 1 5 = some m2 ∧ IsQueue m2 1 out ∧
      (values m2 out).map cstr = [[97], [98], [98], [99]] ∧
      ((∀ p ∈ ([2, 4, 6, 8] : List Ptr), valueOf (mkQueue [[97], [98], [98], [99]]) p
          = cstr (valueOf (mkQueue [[97], [98], [98], [99]]) p) ++ [0]) →
        values m2 out = values (mkQueue [[97], [98], [98], [99]]) [2, 4, 6, 8]) :=
  ⟨by decide, by decide,
    (q_sort_idempotent (mkQueue [[97], [98], [98], [99]]) 1 [2, 4, 6, 8] 5 (by decide)
      (by decide)).1 (by decide)⟩

/-! ## `q_delete_dup` on a sorted queue -/

theorem strcmp_self (x : List Nat) : strcmp x x = 0 := (strcmp_eq_zero_iff x x).mpr rfl

theorem strcmp_lt_of_lt_of_le (x y z : List Nat) (h1 : strcmp x y < 0) (h2 : strcmp y z ≤ 0) :
    strcmp x z < 0 := by
  by_contra h
  have h3 : strcmp z x ≤ 0 := strcmp_total x z h
  have h4 : strcmp y x ≤ 0 := strcmp_trans y z x h2 h3
  rw [strcmp_antisymm x y] at h4
  omega

theorem dropIfNextEqual_sublist (val : Ptr → List Nat) (p : Ptr) (l : List Ptr) :
    (dropIfNextEqual val (p :: l)).Sublist (p :: l) := by
  induction l generalizing p with
  | nil => exact List.Sublist.refl _
  | cons q l ih =>
    rw [dropIfNextEqual]
    split_ifs
    · exact (ih q).trans (List.sublist_cons_self _ _)
    · exact (ih q).cons₂ p

/-- Every string of the list is still there after `dropIfNextEqual`. -/
theorem dropIfNextEqual_keeps (val : Ptr → List Nat) (p : Ptr) (l : List Ptr) :
    ∀ x ∈ p :: l, ∃ y ∈ dropIfNextEqual val (p :: l), cstr (val x) = cstr (val y) := by
  induction l generalizing p with
  | nil => intro x hx; exact ⟨x, hx, rfl⟩
  | cons q l ih =>
    intro x hx
    rw [dropIfNextEqual]
    by_cases heq : strcmp (val p) (val q) = 0
    · rw [if_pos heq]
      rcases List.mem_cons.mp hx with h1 | h1
      · obtain ⟨y, hy, e⟩ := ih q q (List.mem_cons_self _ _)
        exact ⟨y, hy, by rw [h1, (strcmp_eq_zero_iff _ _).mp heq, e]⟩
      · exact ih q x h1
    · rw [if_neg heq]
      rcases List.mem_cons.mp hx with h1 | h1
      · exact ⟨p, List.mem_cons_self _ _, by rw [h1]⟩
      · obtain ⟨y, hy, e⟩ := ih q x h1
        exact ⟨y, List.mem_cons_of_mem _ hy, e⟩

/-- On a sorted list `dropIfNextEqual` leaves strictly ascending strings. -/
theorem dropIfNextEqual_strict (val : Ptr → List Nat) (p : Ptr) (l : List Ptr)
    (hasc : Ascending ((p :: l).map val)) :
    (dropIfNextEqual val (p :: l)).Pairwise fun a b => strcmp (val a) (val b) < 0 := by
  induction l generalizing p with
  | nil => simp [dropIfNextEqual]
  | cons q l ih =>
    obtain ⟨h1, h2⟩ := (ascending_cons val p (q :: l)).mp hasc
    have h3 := (ascending_cons val q l).mp h2
    rw [dropIfNextEqual]
    by_cases heq : strcmp (val p) (val q) = 0
    · rw [if_pos heq]; exact ih q h2
    · rw [if_neg heq]
      refine List.pairwise_cons.mpr ⟨fun r hr => ?_, ih q h2⟩
      have hpq : strcmp (val p) (val q) < 0 := by
        have := h1 q (List.mem_cons_self _ _)
        omega
      have hr2 := (dropIfNextEqual_sublist val q l).subset hr
      refine strcmp_lt_of_lt_of_le _ (val q) _ hpq ?_
      rcases List.mem_cons.mp hr2 with e | e
      · rw [e, strcmp_self]
      · exact h3.1 r e

/-! ## Claim on sorting, then deleting duplicates -/

/-- C17: on a well-formed queue `q_sort` followed by `q_delete_dup` returns and
leaves a well-formed queue that is not longer than the original one; its
strings are strictly ascending under `strcmp`, so no two are equal, and they are
exactly the strings of the original queue, each once. -/
theorem q_sort_then_delete_dup (m : Mem) (head : Ptr) (ps : List Ptr) (fuel : Nat)
    (hq : IsQueue m head ps) (hf : ps.length < fuel) :
    ∃ m2 out r res, q_sort m head fuel = some m2 ∧ IsQueue m2 head out ∧
      q_delete_dup m2 head fuel = some r ∧ IsQueue r.1 head res ∧
      res.length ≤ ps.length ∧ q_size m head fuel = some ps.length ∧
      q_size r.1 head fuel = some res.length ∧
      (values r.1 res).Pairwise (fun x y => strcmp x y < 0) ∧
      ((values r.1 res).map cstr).Nodup ∧
      ∀ x, x ∈ (values r.1 res).map cstr ↔ x ∈ (values m ps).map cstr := by
  obtain ⟨m2, out, e1, e2, e3, _, e5, e6, _⟩ := q_sort_spec m head ps fuel hq hf
  have hval : valueOf m2 = valueOf m := by
    funext p; simp [valueOf, e5, e6]
  have hsz := q_size_spec m head ps fuel hq hf
  rcases e3 with ⟨rfl, rfl⟩ | hs
  · have h1 : m2.next head = head := isQueue_next_head m2 head [] e2
    exact ⟨m2, [], (m2, false), [], e1, e2, by simp [q_delete_dup, list_empty, h1], e2,
      Nat.le_refl _, hsz, q_size_spec m2 head [] fuel e2 hf, by simp [values],
      by simp [values], by simp [values]⟩
  · have hperm := sorts_perm _ _ _ hs
    have hasc := sorts_ascending _ _ _ hs
    have hps : 0 < ps.length := by
      cases hs with
      | one p => simp
      | split _ _ _ _ h2 _ _ _ => omega
    have hne : out ≠ [] := by
      intro e
      rw [e] at hperm
      have := hperm.length_eq
      simp at this
      omega
    obtain ⟨o, t, rfl⟩ : ∃ o t, out = o :: t := by
      cases out with
      | nil => exact absurd rfl hne
      | cons o t => exact ⟨o, t, rfl⟩
    obtain ⟨m3, f1, f2, f3, f4⟩ := q_delete_dup_spec m2 head (o :: t) fuel e2 hne
      (by rw [hperm.length_eq]; omega)
    have hval3 : valueOf m3 = valueOf m := by
      funext p; simp [valueOf, f3, f4, e5, e6]
    rw [hval] at f2
    have hsub := dropIfNextEqual_sublist (valueOf m) o t
    have hlen : (dropIfNextEqual (valueOf m) (o :: t)).length ≤ ps.length := by
      rw [← hperm.length_eq]; exact hsub.length_le
    have hstrict := dropIfNextEqual_strict (valueOf m) o t hasc
    have hstrict2 : (values m3 (dropIfNextEqual (valueOf m) (o :: t))).Pairwise
        (fun x y => strcmp x y < 0) := by
      rw [values, hval3]
      exact List.Pairwise.map _ (fun a b h => h) hstrict
    refine ⟨m2, o :: t, (m3, true), _, e1, e2, f1, f2, hlen, hsz,
      q_size_spec m3 head _ fuel f2 (by omega), hstrict2, ?_, fun x => ?_⟩
    · refine List.Pairwise.map cstr (fun a b h => ?_) hstrict2
      intro e
      have := (strcmp_eq_zero_iff a b).mpr e
      omega
    · rw [values, values, hval3, List.map_map, List.map_map]
      simp only [List.mem_map, Function.comp_apply]
      constructor
      · rintro ⟨y, hy, rfl⟩
        exact ⟨y, hperm.subset (hsub.subset hy), rfl⟩
      · rintro ⟨y, hy, rfl⟩
        obtain ⟨z, hz, e⟩ := dropIfNextEqual_keeps (valueOf m) o t y (hperm.symm.subset hy)
        exact ⟨z, hz, e.symm⟩

/-- Witness of C17: `[b, a, b, a]` becomes `[a, b]`. -/
theorem q_sort_then_delete_dup_witness :
    IsQueue (mkQueue [[98], [97], [98], [97]]) 1 [2, 4, 6, 8] ∧
    ∃ m2 out r res, q_sort (mkQueue [[98], [97], [98], [97]]) 1 6 = some m2 ∧
      IsQueue m2 1 out ∧ q_delete_dup m2 1 6 = some r ∧ IsQueue r.1 1 res ∧
      res.length ≤ 4 ∧ q_size (mkQueue [[98], [97], [98], [97]]) 1 6 = some 4 ∧
      q_size r.1 1 6 = some res.length ∧
      (values r.1 res).Pairwise (fun x y => strcmp x y < 0) ∧
      ((values r.1 res).map cstr).Nodup ∧
      ∀ x, x ∈ (values r.1 res).map cstr ↔
        x ∈ (values (mkQueue [[98], [97], [98], [97]]) [2, 4, 6, 8]).map cstr :=
  ⟨by decide, q_sort_then_delete_dup (mkQueue [[98], [97], [98], [97]]) 1 [2, 4, 6, 8] 6
    (by decide) (by decide)⟩

/-! ## Ties in the merge -/

theorem merged_nil_right (val : Ptr → List Nat) (l out : List Ptr) (h : Merged val l [] out) :
    out = l := by
  cases h <;> rfl

theorem sorts_single (val : Ptr → List Nat) (p : Ptr) (out : List Ptr) (h : Sorts val [p] out) :
    out = [p] := by
  cases h with
  | one => rfl
  | split _ a b _ h2 _ _ _ => simp at h2

/-- The first node emitted by the merge of two non-empty lists. -/
theorem merged_first (val : Ptr → List Nat) (a b : Ptr) (l1 l2 out : List Ptr)
    (h : Merged val (a :: l1) (b :: l2) out) :
    out.headD NULL = if strcmp (val a) (val b) < 0 then a else b := by
  cases h with
  | left _ _ _ _ out2 hlt _ => rw [if_pos hlt]; rfl
  | right _ _ _ _ out2 hlt _ => rw [if_neg hlt]; rfl

/-- The order `mergesort` leaves two nodes in when the first is not smaller. -/
theorem sorts_pair (val : Ptr → List Nat) (x1 x2 : Ptr) (out : List Ptr)
    (h : Sorts val [x1, x2] out) (hlt : ¬ strcmp (val x1) (val x2) < 0) : out = [x2, x1] := by
  cases h with
  | split _ a b _ h2 ha hb hm =>
    have ea : a = [x1] := sorts_single val x1 a (by simpa using ha)
    have eb : b = [x2] := sorts_single val x2 b (by simpa using hb)
    subst ea eb
    cases hm with
    | left _ _ _ _ out2 h3 _ => exact absurd h3 hlt
    | right _ _ _ _ out2 _ h4 => rw [merged_nil_right val _ _ h4]

/-! ## Claim on ties -/

/-- C18: in `mergeTwoLists` the first node emitted is the left head only when
`strcmp (left, right) < 0`, otherwise, so also when the two strings are equal,
the right head. Consequently `q_sort` is not stable: on a well-formed queue
`[x1, x2]` of two elements with equal strings, which is sorted already, it
leaves `[x2, x1]`. -/
theorem ties_take_right (m : Mem) (head x1 x2 : Ptr) (fuel : Nat)
    (hq : IsQueue m head [x1, x2]) (heq : strcmp (valueOf m x1) (valueOf m x2) = 0)
    (hf : 2 < fuel) :
    (∀ (mm : Mem) (left right a b : Ptr) (l1 l2 : List Ptr) (f : Nat),
      NList mm.next left (a :: l1) → NList mm.next right (b :: l2) →
      (∀ x ∈ a :: l1, x ∉ b :: l2) → (a :: l1).length + (b :: l2).length < f →
      ∃ m2 h out, mergeTwoLists mm left right f = some (m2, h) ∧ NList m2.next h out ∧
        h = if strcmp (valueOf mm a) (valueOf mm b) < 0 then a else b) ∧
    Ascending (values m [x1, x2]) ∧
    ∃ m2, q_sort m head fuel = some m2 ∧ IsQueue m2 head [x2, x1] := by
  refine ⟨?_, ?_, ?_⟩
  · intro mm left right a b l1 l2 f hl hr hdisj hlen
    obtain ⟨m2, h, out, e1, e2, e3, _⟩ := mergeTwoLists_spec mm left right _ _ f hl hr hdisj hlen
    refine ⟨m2, h, out, e1, e3, ?_⟩
    rw [← merged_first _ a b l1 l2 out e2]
    exact nlist_head _ _ _ e3
  · simp [Ascending, values, heq]
  · obtain ⟨m2, out, e1, e2, e3, _⟩ := q_sort_spec m head [x1, x2] fuel hq hf
    rcases e3 with ⟨h, _⟩ | hs
    · simp at h
    · rw [sorts_pair _ x1 x2 out hs (by omega)] at e2
      exact ⟨m2, e1, e2⟩

/-- Witness of C18: the queue `[a, a]`. -/
theorem ties_take_right_witness :
    IsQueue (mkQueue [[97], [97]]) 1 [2, 4] ∧
    strcmp (valueOf (mkQueue [[97], [97]]) 2) (valueOf (mkQueue [[97], [97]]) 4) = 0 ∧
    Ascending (values (mkQueue [[97], [97]]) [2, 4]) ∧
    ∃ m2, q_sort (mkQueue [[97], [97]]) 1 3 = some m2 ∧ IsQueue m2 1 [4, 2] :=
  ⟨by decide, by decide, (ties_take_right (mkQueue [[97], [97]]) 1 2 4 3 (by decide) (by decide)
    (by decide)).2⟩

/-! ## Claim on termination of `mergesort` -/

/-- C19: `mergesort` returns on every non-empty NULL-terminated list; on a list
of `n ≥ 2` nodes the fast/slow walk returns and the cut leaves a left list of
`(n + 1) / 2` nodes and a right list of `n / 2` nodes, both NULL-terminated,
non-empty and shorter than `n`, on each of which `mergesort` returns; the loop of
`mergeTwoLists` returns within as many steps as the two lists have nodes. -/
theorem mergesort_terminates (m : Mem) (head : Ptr) (l : List Ptr) (fuel : Nat)
    (hl : NList m.next head l) (hne : l ≠ []) (hf : l.length < fuel) :
    (∃ r, mergesort fuel m head = some r) ∧
    (2 ≤ l.length → ∃ slow, splitLoop m fuel head head = some slow ∧ m.next slow ≠ NULL ∧
      NList (setNext m slow NULL).next head (l.take ((l.length + 1) / 2)) ∧
      NList (setNext m slow NULL).next (m.next slow) (l.drop ((l.length + 1) / 2)) ∧
      (l.take ((l.length + 1) / 2)).length = (l.length + 1) / 2 ∧
      (l.drop ((l.length + 1) / 2)).length = l.length / 2 ∧
      0 < l.length / 2 ∧ (l.length + 1) / 2 < l.length ∧
      (∃ r1, mergesort (fuel - 1) (setNext m slow NULL) head = some r1 ∧
        ∃ r2, mergesort (fuel - 1) r1.1 (m.next slow) = some r2)) ∧
    (∀ (mm : Mem) (left right : Ptr) (l1 l2 : List Ptr) (f : Nat),
      NList mm.next left l1 → NList mm.next right l2 → (∀ x ∈ l1, x ∉ l2) →
      l1.length + l2.length < f → ∃ r, mergeTwoLists mm left right f = some r) := by
  refine ⟨?_, ?_, ?_⟩
  · obtain ⟨m2, h, out, e1, _⟩ := mergesort_spec fuel m head l hl hne hf
    exact ⟨_, e1⟩
  · intro h2
    have h0 := nlist_getD_zero m.next head l hl
    have hnd := nlist_nodup m.next head l hl
    have hsplit := splitLoop_spec m head l hl fuel 0 (by omega) (by omega)
    simp only [Nat.mul_zero] at hsplit
    rw [← h0] at hsplit
    have hk : (l.length - 1) / 2 = (l.length + 1) / 2 - 1 := by omega
    have hmid := nlist_getD_next m.next head l hl ((l.length - 1) / 2) (by omega)
    rw [show (l.length - 1) / 2 + 1 = (l.length + 1) / 2 by omega] at hmid
    obtain ⟨c1, c2⟩ := nlist_cut m.next head l hl ((l.length + 1) / 2) (by omega) (by omega)
    rw [← hk] at c1 c2
    have ht : (l.take ((l.length + 1) / 2)).length = (l.length + 1) / 2 := by
      rw [List.length_take]; omega
    have hd : (l.drop ((l.length + 1) / 2)).length = l.length / 2 := by
      rw [List.length_drop]; omega
    have hdisj : ∀ x ∈ l.take ((l.length + 1) / 2), x ∉ l.drop ((l.length + 1) / 2) :=
      fun x hx hx2 => List.disjoint_take_drop hnd (Nat.le_refl _) hx hx2
    obtain ⟨m2, left, a, e1, _, _, e4, _⟩ := mergesort_spec (fuel - 1)
      (setNext m (l.getD ((l.length - 1) / 2) NULL) NULL) head _ c1
      (List.ne_nil_of_length_pos (by rw [ht]; omega)) (by rw [ht]; omega)
    obtain ⟨m3, right, b, f1, _⟩ := mergesort_spec (fuel - 1) m2
      (l.getD ((l.length + 1) / 2) NULL) (l.drop ((l.length + 1) / 2))
      (nlist_congr _ _ _ _ (fun x hx => e4 x (fun hx2 => hdisj x hx2 hx)) c2)
      (List.ne_nil_of_length_pos (by rw [hd]; omega)) (by rw [hd]; omega)
    refine ⟨_, hsplit, ?_, c1, ?_, ht, hd, by omega, by omega, ⟨_, e1, ?_⟩⟩
    · rw [hmid]
      exact nlist_getD_ne m.next head l hl _ (by omega)
    · rw [hmid]; exact c2
    · rw [hmid]; exact ⟨_, f1⟩
  · intro mm left right l1 l2 f h1 h2 h3 h4
    obtain ⟨m2, h, out, e1, _⟩ := mergeTwoLists_spec mm left right l1 l2 f h1 h2 h3 h4
    exact ⟨_, e1⟩

/-- Witness of C19: the three-node list `2 → 4 → 6 → NULL`. -/
theorem mergesort_terminates_witness :
    NList (setNext (setNext emptyMem 2 4) 4 6).next 2 [2, 4, 6] ∧
    ∃ r, mergesort 4 (setNext (setNext emptyMem 2 4) 4 6) 2 = some r :=
  ⟨by decide, (mergesort_terminates (setNext (setNext emptyMem 2 4) 4 6) 2 [2, 4, 6] 4
    (by decide) (by decide) (by decide)).1⟩

/-! ## Claim on the buffer bounds -/

/-- The failing input of C20: a removal from the one-element queue `[a]` with
capacity `0`.  The last index the two stores write is `2 ^ 64 - 1`, the value of
`bufsize - 1` in `size_t`; on a buffer filled with `7` they put the byte of "a"
at index `0` and a NUL at index `2 ^ 64 - 1`, both indices not below the
capacity, so `q_remove_head` and `q_remove_tail` have no result. -/
theorem q_remove_capacity_zero :
    IsQueue (mkQueue [[97]]) 1 [2] ∧ sizeSub1 0 = 2 ^ 64 - 1 ∧
    copyOut (fun _ => 7) (valueOf (mkQueue [[97]]) 2) 0 0 = 97 ∧
    copyOut (fun _ => 7) (valueOf (mkQueue [[97]]) 2) 0 (2 ^ 64 - 1) = 0 ∧
    q_remove_head (mkQueue [[97]]) 1 (some fun _ => 7) 0 = none ∧
    q_remove_tail (mkQueue [[97]]) 1 (some fun _ => 7) 0 = none := by
  refine ⟨by decide, by decide, by decide, by decide, ?_, ?_⟩
  · rw [q_remove_head_spec (mkQueue [[97]]) 1 2 [] _ 0 (by decide)]
    exact if_neg (by decide)
  · rw [q_remove_tail_spec (mkQueue [[97]]) 1 2 [] _ 0 (by decide)]
    exact if_neg (by decide)

end Queue
